import Mathlib

/-!
# Loki: compactor, pattern chunks, rule comparison, logs table merge, streams rows

A shallow embedding of `pkg/compactor/compactor.go`, `pkg/pattern/drain/chunk.go`,
`pkg/dataobj/sections/logs/table_merge.go`, `pkg/dataobj/sections/streams/iter.go`
and of what the tests of `pkg/tool/rules` say, with theorems about them. The definitions come first, one
namespace per package, the theorems after them.

Conventions of the embedding

* Go `int`, `time.Duration` and `model.Time` are `Int`; where the source does
  arithmetic that can leave the 64-bit range the result is wrapped with
  `wrapInt64`, as Go does.
* A Go `error` result is an `Option String`: `none` is `nil`.
* A method with a pointer receiver that writes its receiver returns the
  receiver after the call next to its result.
* Functions of other packages that the source calls (`config.ValidatePathPrefix`,
  `retention.ExtractIntervalFromTableName`, the ring token generator) are
  parameters of the definitions that call them.
-/

namespace compactor

/-! ## Constants -/

/-- The constant `ringKeyOfLeader`: the key looked up in the ring to elect the leader. -/
def ringKeyOfLeader : Nat := 0

/-- The constant `ringReplicationFactor`. -/
def ringReplicationFactor : Int := 1

/-- The constant `ringNumTokens`: the single token an instance inserts in the ring. -/
def ringNumTokens : Int := 1

/-! ## Durations (`time.Duration` is an `int64` count of nanoseconds) -/

/-- Smallest `int64`. -/
def minInt64 : Int := -(2 ^ 63)

/-- Largest `int64`. -/
def maxInt64 : Int := 2 ^ 63 - 1

/-- Two's-complement wrap of an integer into the `int64` range. -/
def wrapInt64 (x : Int) : Int := (x + 2 ^ 63) % 2 ^ 64 - 2 ^ 63

/-- Go's `a + b` on `int64`. -/
def addInt64 (a b : Int) : Int := wrapInt64 (a + b)

/-- Go's `a / b` on `int64` for a positive constant divisor: truncation towards zero. -/
def quoInt64 (a b : Int) : Int := Int.tdiv a b

/-- The constant `time.Minute`, in nanoseconds. -/
def Minute : Int := 60 * 1000000000

/-! ## Config and Validate -/

/-- The two fields of `lokiring.RingConfig` that `Validate` reads. -/
structure RingConfig where
  NumTokens : Int
  ReplicationFactor : Int
deriving DecidableEq, Repr

/-- The fields of `Config` that `Validate` reads or writes. -/
structure Config where
  CompactionInterval : Int
  ApplyRetentionInterval : Int
  RetentionEnabled : Bool
  DeleteRequestStore : String
  DeleteRequestStoreKeyPrefix : String
  MaxCompactionParallelism : Int
  CompactorRing : RingConfig
deriving DecidableEq, Repr

/-- The statement `if cfg.ApplyRetentionInterval == 0 { ... = cfg.CompactionInterval }`. -/
def Config.defaultApplyRetentionInterval (cfg : Config) : Config :=
  if cfg.ApplyRetentionInterval = 0 then
    { cfg with ApplyRetentionInterval := cfg.CompactionInterval }
  else cfg

/-- The statement `if cfg.ApplyRetentionInterval == cfg.CompactionInterval { ... += min(...) }`:
the jitter that keeps retention and compaction from running at the same time. -/
def Config.addJitter (cfg : Config) : Config :=
  if cfg.ApplyRetentionInterval = cfg.CompactionInterval then
    { cfg with
      ApplyRetentionInterval :=
        addInt64 cfg.ApplyRetentionInterval
          (min (10 * Minute) (quoInt64 cfg.ApplyRetentionInterval 2)) }
  else cfg

/-- The method `(cfg *Config) Validate() error`. The first component is the
config as the call leaves it, the second the returned error. -/
def Config.Validate (ValidatePathPrefix : String → Option String) (cfg : Config) :
    Config × Option String :=
  if cfg.MaxCompactionParallelism < 1 then
    (cfg, some "max compaction parallelism must be >= 1")
  else if cfg.CompactorRing.NumTokens ≠ ringNumTokens then
    (cfg, some "Num tokens must not be changed as it will not take effect")
  else if cfg.CompactorRing.ReplicationFactor ≠ ringReplicationFactor then
    (cfg, some "Replication factor must not be changed as it will not take effect")
  else if cfg.RetentionEnabled then
    if cfg.DeleteRequestStore = "" then
      (cfg, some "compactor.delete-request-store should be configured when retention is enabled")
    else
      let cfg1 := cfg.defaultApplyRetentionInterval.addJitter
      match ValidatePathPrefix cfg1.DeleteRequestStoreKeyPrefix with
      | some err => (cfg1, some ("validate delete store path prefix: " ++ err))
      | none => (cfg1, none)
  else
    (cfg, none)

/-- A configuration as `RegisterFlags` leaves it with retention switched on and
a delete-request store named. -/
def exampleConfig : Config :=
  { CompactionInterval := 10 * Minute
    ApplyRetentionInterval := 0
    RetentionEnabled := true
    DeleteRequestStore := "s3"
    DeleteRequestStoreKeyPrefix := "index/"
    MaxCompactionParallelism := 1
    CompactorRing := { NumTokens := 1, ReplicationFactor := 1 } }

/-- The example configuration with retention every third compaction. -/
def exampleConfigThird : Config :=
  { exampleConfig with ApplyRetentionInterval := 30 * Minute }

/-- A path-prefix check for examples: it rejects only the empty prefix. -/
def examplePathPrefixCheck (p : String) : Option String :=
  if p = "" then some "prefix must be set" else none

/-! ## The composed expiration checker

`retention.ExpirationChecker` is an interface. A sub-checker is modelled by the
answers its methods give; the composed checker's methods return their result
together with the calls they made on the two sub-checkers, in order. -/

/-- A `model.Interval`: two `model.Time` values. -/
structure Interval where
  Start : Int
  End : Int
deriving DecidableEq, Repr

/-- The answers of an implementation of the interface `retention.ExpirationChecker`.
The phase hooks and `MarkSeriesAsProcessed` act on the checker only and are
seen in the call log. -/
structure ExpirationChecker (Chunk Labels Filter : Type) where
  Expired : List UInt8 → Chunk → Labels → List UInt8 → String → Int → Bool × Filter
  IntervalMayHaveExpiredChunks : Interval → String → Bool
  DropFromIndex : List UInt8 → Chunk → Labels → Int → Int → Bool
  CanSkipSeries : List UInt8 → Labels → List UInt8 → Int → String → Int → Bool
  MarkSeriesAsProcessed : List UInt8 → List UInt8 → Labels → String → Option String

/-- The two fields of `expirationChecker`. -/
inductive SubChecker where
  | retentionExpiryChecker
  | deletionExpiryChecker
deriving DecidableEq, Repr

/-- The methods of the interface `retention.ExpirationChecker`. -/
inductive Method where
  | Expired
  | IntervalMayHaveExpiredChunks
  | MarkPhaseStarted
  | MarkPhaseFailed
  | MarkPhaseTimedOut
  | MarkPhaseFinished
  | DropFromIndex
  | CanSkipSeries
  | MarkSeriesAsProcessed
deriving DecidableEq, Repr

/-- One call of a method on a sub-checker. -/
abbrev Call := SubChecker × Method

/-- The struct `expirationChecker`. -/
structure expirationChecker (Chunk Labels Filter : Type) where
  retentionExpiryChecker : ExpirationChecker Chunk Labels Filter
  deletionExpiryChecker : ExpirationChecker Chunk Labels Filter

section checker
variable {Chunk Labels Filter : Type}

/-- The function `newExpirationChecker`. -/
def newExpirationChecker (retentionExpiryChecker deletionExpiryChecker :
    ExpirationChecker Chunk Labels Filter) : expirationChecker Chunk Labels Filter :=
  ⟨retentionExpiryChecker, deletionExpiryChecker⟩

/-- The method `(e *expirationChecker) Expired`. -/
def expirationChecker.Expired (e : expirationChecker Chunk Labels Filter)
    (userID : List UInt8) (chk : Chunk) (lbls : Labels) (seriesID : List UInt8)
    (tableName : String) (now : Int) : (Bool × Filter) × List Call :=
  let r := e.retentionExpiryChecker.Expired userID chk lbls seriesID tableName now
  if r.1 then
    (r, [(.retentionExpiryChecker, .Expired)])
  else
    (e.deletionExpiryChecker.Expired userID chk lbls seriesID tableName now,
      [(.retentionExpiryChecker, .Expired), (.deletionExpiryChecker, .Expired)])

/-- The method `(e *expirationChecker) MarkPhaseStarted`. -/
def expirationChecker.MarkPhaseStarted (_e : expirationChecker Chunk Labels Filter) :
    List Call :=
  [(.retentionExpiryChecker, .MarkPhaseStarted), (.deletionExpiryChecker, .MarkPhaseStarted)]

/-- The method `(e *expirationChecker) MarkPhaseFailed`. -/
def expirationChecker.MarkPhaseFailed (_e : expirationChecker Chunk Labels Filter) :
    List Call :=
  [(.retentionExpiryChecker, .MarkPhaseFailed), (.deletionExpiryChecker, .MarkPhaseFailed)]

/-- The method `(e *expirationChecker) MarkPhaseFinished`. -/
def expirationChecker.MarkPhaseFinished (_e : expirationChecker Chunk Labels Filter) :
    List Call :=
  [(.retentionExpiryChecker, .MarkPhaseFinished), (.deletionExpiryChecker, .MarkPhaseFinished)]

/-- The method `(e *expirationChecker) MarkPhaseTimedOut`. -/
def expirationChecker.MarkPhaseTimedOut (_e : expirationChecker Chunk Labels Filter) :
    List Call :=
  [(.retentionExpiryChecker, .MarkPhaseTimedOut), (.deletionExpiryChecker, .MarkPhaseTimedOut)]

/-- The method `(e *expirationChecker) IntervalMayHaveExpiredChunks`; Go's `||`
evaluates its right operand only when the left one is false. -/
def expirationChecker.IntervalMayHaveExpiredChunks (e : expirationChecker Chunk Labels Filter)
    (interval : Interval) (userID : String) : Bool × List Call :=
  if e.retentionExpiryChecker.IntervalMayHaveExpiredChunks interval userID then
    (true, [(.retentionExpiryChecker, .IntervalMayHaveExpiredChunks)])
  else
    (e.deletionExpiryChecker.IntervalMayHaveExpiredChunks interval userID,
      [(.retentionExpiryChecker, .IntervalMayHaveExpiredChunks),
       (.deletionExpiryChecker, .IntervalMayHaveExpiredChunks)])

/-- The method `(e *expirationChecker) DropFromIndex`. -/
def expirationChecker.DropFromIndex (e : expirationChecker Chunk Labels Filter)
    (userID : List UInt8) (chk : Chunk) (labels : Labels) (tableEndTime now : Int) :
    Bool × List Call :=
  if e.retentionExpiryChecker.DropFromIndex userID chk labels tableEndTime now then
    (true, [(.retentionExpiryChecker, .DropFromIndex)])
  else
    (e.deletionExpiryChecker.DropFromIndex userID chk labels tableEndTime now,
      [(.retentionExpiryChecker, .DropFromIndex), (.deletionExpiryChecker, .DropFromIndex)])

/-- The method `(e *expirationChecker) CanSkipSeries`; Go's `&&` evaluates its
right operand only when the left one is true. -/
def expirationChecker.CanSkipSeries (e : expirationChecker Chunk Labels Filter)
    (userID : List UInt8) (lbls : Labels) (seriesID : List UInt8) (seriesStart : Int)
    (tableName : String) (now : Int) : Bool × List Call :=
  if e.retentionExpiryChecker.CanSkipSeries userID lbls seriesID seriesStart tableName now then
    (e.deletionExpiryChecker.CanSkipSeries userID lbls seriesID seriesStart tableName now,
      [(.retentionExpiryChecker, .CanSkipSeries), (.deletionExpiryChecker, .CanSkipSeries)])
  else
    (false, [(.retentionExpiryChecker, .CanSkipSeries)])

/-- The method `(e *expirationChecker) MarkSeriesAsProcessed`. -/
def expirationChecker.MarkSeriesAsProcessed (e : expirationChecker Chunk Labels Filter)
    (userID seriesID : List UInt8) (lbls : Labels) (tableName : String) :
    Option String × List Call :=
  match e.retentionExpiryChecker.MarkSeriesAsProcessed userID seriesID lbls tableName with
  | some err => (some err, [(.retentionExpiryChecker, .MarkSeriesAsProcessed)])
  | none =>
    (e.deletionExpiryChecker.MarkSeriesAsProcessed userID seriesID lbls tableName,
      [(.retentionExpiryChecker, .MarkSeriesAsProcessed),
       (.deletionExpiryChecker, .MarkSeriesAsProcessed)])

end checker

/-! ## SortTablesByRange -/

/-- A Go `map[string]model.Interval`, newest assignment first. -/
abbrev IntervalMap := List (String × Interval)

/-- The assignment `m[k] = v`. -/
def IntervalMap.assign (m : IntervalMap) (k : String) (v : Interval) : IntervalMap :=
  (k, v) :: m

/-- The index expression `m[k]`: the zero `model.Interval` for an absent key. -/
def IntervalMap.index (m : IntervalMap) (k : String) : Interval :=
  match m.lookup k with
  | some v => v
  | none => ⟨0, 0⟩

/-- The inner loop of the library's insertion sort,
`for j := i; j > a && less(j, j-1); j-- { swap(j, j-1) }`: the new element
moves left past every neighbour it is less than. The slice prefix before position
`i` is passed, and returned, nearest neighbour first. -/
def moveLeft {α : Type} (less : α → α → Bool) (x : α) : List α → List α
  | [] => [x]
  | p :: ps => if less x p then p :: moveLeft less x ps else x :: p :: ps

/-- The library call `sort.Slice(tables, less)`, as the insertion sort
(`insertionSortLessFunc`) that the library runs on short slices. On longer
slices the library runs a pattern-defeating quicksort; the call promises only
a rearrangement of the slice ordered by `less`, and so much is what the
theorems below use. -/
def sortSlice {α : Type} (less : α → α → Bool) (tables : List α) : List α :=
  (tables.foldl (fun done x => moveLeft less x done) []).reverse

/-- The first loop of `SortTablesByRange`: the map `tableRanges`. -/
def buildTableRanges (ExtractIntervalFromTableName : String → Interval)
    (tables : List String) : IntervalMap :=
  tables.foldl (fun m table => m.assign table (ExtractIntervalFromTableName table)) []

/-- The method `Time.After`. -/
def After (t o : Int) : Bool := decide (t > o)

/-- The function `SortTablesByRange`; the slice it sorts in place is returned. -/
def SortTablesByRange (ExtractIntervalFromTableName : String → Interval)
    (tables : List String) : List String :=
  let tableRanges := buildTableRanges ExtractIntervalFromTableName tables
  sortSlice (fun ti tj => After (tableRanges.index ti).Start (tableRanges.index tj).Start) tables

/-- A table-name reader for examples: the interval starts at the length of the name. -/
def exampleExtract (table : String) : Interval :=
  ⟨table.length, table.length + 1⟩

/-! ## The leader-election loop

The state of `(c *Compactor) loop` between two rounds of its `select`, and the
rounds as a step function. A run context is a child of the service context
`ctx`: it is done once its own cancel function has been called or `ctx` has
been cancelled. The tasks registered with the wait group return once their run
context is done, so that `wg.Wait()` returns. -/

/-- What the loop does that other goroutines can see. -/
inductive LoopEvent where
  | startRun (ctx : Nat)
  | cancelRun (ctx : Nat)
  | waitTasks
  | setRunning (b : Bool)
deriving DecidableEq, Repr

/-- Where the loop is: still selecting, returned, or stopped by a nil call. -/
inductive Phase where
  | live
  | exited
  | panicked
deriving DecidableEq, Repr

/-- The variables of the loop. Run contexts are numbered in order of creation;
`cancelled` tells of each whether its cancel function has been called. -/
structure LoopState where
  running : Bool
  runningCancel : Option Nat
  cancelled : List Bool
  wg : Nat
  ctxCancelled : Bool
  phase : Phase
  events : List LoopEvent
deriving DecidableEq, Repr

/-- What one round of the `select` receives. `cancelCtx` is the environment
cancelling the service context; `selectDone` is the case `<-ctx.Done()`, which
can be taken only when the service context is cancelled; `selectTick` is the
case `<-syncTicker.C` with what `c.ring.Get(ringKeyOfLeader, ...)` and
`rs.GetAddresses()` answer. -/
inductive LoopInput where
  | cancelCtx
  | selectDone
  | selectTick (rs : Except String (List String))

/-- The state in which `loop` starts: `c.running` is false, `runningCancel` nil. -/
def LoopState.init : LoopState :=
  { running := false
    runningCancel := none
    cancelled := []
    wg := 0
    ctxCancelled := false
    phase := .live
    events := [] }

/-- The call `runningCancel()` followed by `wg.Wait()`. -/
def LoopState.cancelAndWait (s : LoopState) (k : Nat) : LoopState :=
  { s with
    cancelled := s.cancelled.set k true
    wg := 0
    events := s.events ++ [.cancelRun k, .waitTasks] }

/-- The branch `if !c.running { ... }`: a new run context, one task for the tables
manager, one more for the delete-requests manager when there is one. -/
def LoopState.startRun (deleteRequestsManager : Bool) (s : LoopState) : LoopState :=
  { s with
    running := true
    runningCancel := some s.cancelled.length
    cancelled := s.cancelled ++ [false]
    wg := s.wg + 1 + (if deleteRequestsManager then 1 else 0)
    events := s.events ++ [.startRun s.cancelled.length, .setRunning true] }

/-- The branch `if c.running { runningCancel(); wg.Wait(); c.running = false }`. -/
def LoopState.stopRun (s : LoopState) : LoopState :=
  match s.runningCancel with
  | none => { s with phase := .panicked }
  | some k =>
    let s1 := s.cancelAndWait k
    { s1 with running := false, events := s1.events ++ [.setRunning false] }

/-- The case `<-syncTicker.C`. -/
def LoopState.tick (instanceAddr : String) (deleteRequestsManager : Bool) (s : LoopState) :
    Except String (List String) → LoopState
  | .error _ => s
  | .ok [a] =>
    if instanceAddr = a then
      if !s.running then s.startRun deleteRequestsManager else s
    else
      if s.running then s.stopRun else s
  | .ok _ => s

/-- The case `<-ctx.Done()`. -/
def LoopState.done (s : LoopState) : LoopState :=
  match s.runningCancel with
  | some k => { s.cancelAndWait k with phase := .exited }
  | none => { s with wg := 0, events := s.events ++ [.waitTasks], phase := .exited }

/-- One round of the loop. -/
def LoopState.step (instanceAddr : String) (deleteRequestsManager : Bool) (s : LoopState) :
    LoopInput → LoopState
  | .cancelCtx => { s with ctxCancelled := true }
  | .selectDone =>
    if s.phase = .live ∧ s.ctxCancelled = true then s.done else s
  | .selectTick rs =>
    if s.phase = .live then s.tick instanceAddr deleteRequestsManager rs else s

/-- The loop run from its start over a sequence of rounds. -/
def LoopState.run (instanceAddr : String) (deleteRequestsManager : Bool)
    (inputs : List LoopInput) : LoopState :=
  inputs.foldl (LoopState.step instanceAddr deleteRequestsManager) LoopState.init

/-- The number of run contexts that are not done. -/
def LoopState.liveRuns (s : LoopState) : Nat :=
  if s.ctxCancelled then 0 else s.cancelled.count false

/-- The shape of the states the loop reaches. Either the instance is running in
a live loop, and the newest run context is the only one whose cancel function
has not been called; or it is not running (or the loop has returned), every
cancel function has been called and no task is awaited. -/
def LoopState.Inv (s : LoopState) : Prop :=
  s.phase ≠ .panicked ∧ (s.phase = .exited → s.ctxCancelled = true) ∧
  ((s.running = true ∧ s.phase = .live ∧
      ∃ m, s.cancelled = List.replicate m true ++ [false] ∧ s.runningCancel = some m) ∨
    ((s.running = false ∨ s.phase = .exited) ∧ s.wg = 0 ∧
      ∃ m, s.cancelled = List.replicate m true ∧
        ((s.runningCancel = none ∧ m = 0) ∨ (s.runningCancel = some (m - 1) ∧ 0 < m))))

/-! ## Ring registration -/

/-- The ring's `InstanceState`. -/
inductive InstanceState where
  | ACTIVE
  | LEAVING
  | PENDING
  | JOINING
  | LEFT
deriving DecidableEq, Repr

/-- A `ring.InstanceDesc`: address, state and tokens. -/
structure InstanceDesc where
  Addr : String
  State : InstanceState
  Tokens : List Nat
deriving DecidableEq, Repr

/-- A `ring.Desc`: the instances by id. -/
structure Desc where
  Ingesters : List (String × InstanceDesc)
deriving DecidableEq, Repr

/-- The method `GetTokens` of `ring.Desc`: the tokens of all instances. -/
def Desc.GetTokens (d : Desc) : List Nat :=
  (d.Ingesters.map (fun kv => kv.2.Tokens)).flatten

/-- What the ring's token generator promises of `GenerateTokens(n, taken)`:
`n` tokens, none when `n` is zero or negative. -/
def TokenGenerator (GenerateTokens : Int → List Nat → List Nat) : Prop :=
  ∀ n taken, (GenerateTokens n taken).length = n.toNat

/-- The method `(c *Compactor) OnRingInstanceRegister`. -/
def OnRingInstanceRegister (GenerateTokens : Int → List Nat → List Nat)
    (ringDesc : Desc) (instanceExists : Bool) (instanceDesc : InstanceDesc) :
    InstanceState × List Nat :=
  let tokens : List Nat := if instanceExists then instanceDesc.Tokens else []
  let takenTokens := ringDesc.GetTokens
  let newTokens := GenerateTokens (ringNumTokens - tokens.length) takenTokens
  (.JOINING, tokens ++ newTokens)

/-- A token generator for examples: the tokens just above every taken one. -/
def exampleGenerateTokens (n : Int) (taken : List Nat) : List Nat :=
  (List.range n.toNat).map (fun i => taken.foldr max 0 + 1 + i)

end compactor

/-!
# Pattern chunks (`pkg/pattern/drain/chunk.go`)

Timestamps are `model.Time` (`int64` milliseconds), durations `time.Duration`
(`int64` nanoseconds), sample values `int64`. A function that can panic returns
an `Option`: `none` is the panic (or, where said, a loop that never ends).
-/

namespace drain

open compactor (wrapInt64 addInt64 quoInt64 minInt64 maxInt64)

/-- Go's `a - b` on `int64`. -/
def subInt64 (a b : Int) : Int := wrapInt64 (a - b)

/-- Go's `a * b` on `int64`. -/
def mulInt64 (a b : Int) : Int := wrapInt64 (a * b)

/-- A `logproto.PatternSample`. -/
structure PatternSample where
  Timestamp : Int
  Value : Int
deriving DecidableEq, Repr

/-- The struct `Chunk`. -/
structure Chunk where
  Samples : List PatternSample
deriving DecidableEq, Repr

/-- The type `Chunks`. -/
abbrev Chunks := List Chunk

/-- The function `TruncateTimestamp`, `ts - ts%step`; Go's `%` truncates towards
zero and panics on a zero divisor. -/
def TruncateTimestamp (ts step : Int) : Option Int :=
  if step = 0 then none else some (ts - Int.tmod ts step)

/-- The method `Duration.Milliseconds`. -/
def Milliseconds (d : Int) : Int := Int.tdiv d 1000000

/-- The method `Time.Sub`: the difference in milliseconds as a `time.Duration`. -/
def Sub (t o : Int) : Int := mulInt64 (subInt64 t o) 1000000

/-- The method `Time.Before`. -/
def Before (t o : Int) : Bool := decide (t < o)

/-- The function `newChunk`. It panics when `sampleInterval` is zero (division)
and when the capacity `maxSize` is below the length 1 (`make`). -/
def newChunk (ts maxChunkAge sampleInterval : Int) : Option Chunk :=
  if sampleInterval = 0 then none
  else
    let maxSize := addInt64 (wrapInt64 (Int.tdiv maxChunkAge sampleInterval)) 1
    if maxSize < 1 then none
    else some { Samples := [{ Timestamp := ts, Value := 1 }] }

/-- The method `Chunk.spaceFor`. -/
def Chunk.spaceFor (c : Chunk) (ts maxChunkAge : Int) : Bool :=
  match c.Samples.head? with
  | none => true
  | some first => decide (Sub ts first.Timestamp < maxChunkAge)

/-- The loop of the library function `sort.Search`: `fuel` bounds the number of
rounds, and `j - i` rounds are never needed. -/
def searchLoop (f : Nat → Bool) : Nat → Nat → Nat → Nat
  | 0, i, _ => i
  | fuel + 1, i, j =>
    if i < j then
      let h := (i + j) / 2
      if !f h then searchLoop f fuel (h + 1) j else searchLoop f fuel i h
    else i

/-- The library function `sort.Search(n, f)`: binary search for the least index
in `[0, n)` at which `f` holds, `n` if there is none. -/
def Search (n : Nat) (f : Nat → Bool) : Nat := searchLoop f n 0 n

/-- The statement `aggregatedSamples[len(aggregatedSamples)-1].Value += v`. The
buckets are kept newest first. -/
def bumpLast : List PatternSample → Int → Option (List PatternSample)
  | [], _ => none
  | b :: bs, v => some ({ b with Value := addInt64 b.Value v } :: bs)

/-- The loop `for i := currentStep + step; i <= stepForSample; i += step` of
`ForRange`, appending an empty bucket per round. `fuel` bounds the number of
rounds; a loop on an `int64` counter that has not ended after `2^64` rounds
never ends. -/
def fillGaps (step stepForSample : Int) : Nat → Int → List PatternSample →
    Option (List PatternSample)
  | 0, _, _ => none
  | fuel + 1, i, agg =>
    if i ≤ stepForSample then
      fillGaps step stepForSample fuel (addInt64 i step) ({ Timestamp := i, Value := 0 } :: agg)
    else some agg

/-- The loop `for _, sample := range c.Samples[lo:hi]` of `ForRange`, on the
variables `currentStep` and `aggregatedSamples` (newest bucket first). -/
def aggregateLoop (step : Int) : List PatternSample → Int → List PatternSample →
    Option (List PatternSample)
  | [], _, agg => some agg
  | sample :: rest, currentStep, agg =>
    if sample.Timestamp ≥ addInt64 currentStep step then
      match TruncateTimestamp sample.Timestamp step with
      | none => none
      | some stepForSample =>
        match fillGaps step stepForSample 18446744073709551616
            (addInt64 currentStep step) agg with
        | none => none
        | some agg1 =>
          match bumpLast agg1 sample.Value with
          | none => none
          | some agg2 => aggregateLoop step rest stepForSample agg2
    else
      match bumpLast agg sample.Value with
      | none => none
      | some agg2 => aggregateLoop step rest currentStep agg2

/-- The part of `ForRange` after `// Re-scale samples into step-sized buckets`.
It is embedded for `step > 0`; for other steps (a zero step divides by zero, a
negative one makes the gap loop run away) it gives `none`. `make` panics on a
negative capacity. -/
def rescale (step : Int) (samples : List PatternSample) (sLo sHi : PatternSample) :
    Option (List PatternSample) :=
  if step ≤ 0 then none
  else
    match TruncateTimestamp sLo.Timestamp step with
    | none => none
    | some currentStep =>
      let capacity := addInt64 (quoInt64 (subInt64 sHi.Timestamp currentStep) step) 1
      if capacity < 0 then none
      else
        match aggregateLoop step samples currentStep [{ Timestamp := currentStep, Value := 0 }] with
        | none => none
        | some agg => some agg.reverse

/-- The variable `lo` of `ForRange`: the first index whose timestamp is not
before `start`. Inside `sort.Search` the index is always in range. -/
def Chunk.lo (c : Chunk) (start first : Int) : Nat :=
  if start > first then
    Search c.Samples.length (fun i => decide ((c.Samples.getD i ⟨0, 0⟩).Timestamp ≥ start))
  else 0

/-- The variable `hi` of `ForRange`. -/
def Chunk.hi (c : Chunk) (end_ last : Int) : Nat :=
  if end_ < last then
    Search c.Samples.length (fun i => decide ((c.Samples.getD i ⟨0, 0⟩).Timestamp ≥ end_))
  else c.Samples.length

/-- The part of `ForRange` from `if c.Samples[lo].Timestamp > c.Samples[hi-1].Timestamp`
on. Indexing and slicing out of range panic. -/
def Chunk.slice (c : Chunk) (lo hi : Nat) (step sampleInterval : Int) :
    Option (List PatternSample) :=
  if hi = 0 then none
  else
    match c.Samples.get? lo, c.Samples.get? (hi - 1) with
    | some sLo, some sHi =>
      if sLo.Timestamp > sHi.Timestamp then some []
      else if hi < lo then none
      else if step = sampleInterval then some ((c.Samples.take hi).drop lo)
      else rescale step ((c.Samples.take hi).drop lo) sLo sHi
    | _, _ => none

/-- The method `Chunk.ForRange`. A nil slice is the empty list. -/
def Chunk.ForRange (c : Chunk) (start end_ step sampleInterval : Int) :
    Option (List PatternSample) :=
  match c.Samples.head?, c.Samples.getLast? with
  | some f, some l =>
    let first := f.Timestamp
    let last := l.Timestamp
    if start ≥ end_ ∨ first ≥ end_ ∨ last < start then some []
    else c.slice (c.lo start first) (c.hi end_ last) step sampleInterval
  | _, _ => some []

/-- The function `newChunk` followed by `*c = append(*c, ...)`. -/
def appendNewChunk (c : Chunks) (t maxChunkAge sampleInterval : Int) : Option Chunks :=
  match newChunk t maxChunkAge sampleInterval with
  | none => none
  | some ch => some (c ++ [ch])

/-- The method `Chunks.Add`: the chunks after the call and the returned pointer,
as the sample it points to (`none` for nil). The outer `none` is a panic. -/
def Chunks.Add (c : Chunks) (ts maxChunkAge sampleInterval : Int) :
    Option (Chunks × Option PatternSample) :=
  match TruncateTimestamp ts (Milliseconds sampleInterval) with
  | none => none
  | some t =>
    match c.getLast? with
    | none =>
      match appendNewChunk c t maxChunkAge sampleInterval with
      | none => none
      | some c1 => some (c1, none)
    | some last =>
      match last.Samples.getLast? with
      | none => none
      | some cur =>
        if cur.Timestamp = t then
          some (c.dropLast ++
            [{ Samples := last.Samples.dropLast ++ [{ cur with Value := addInt64 cur.Value 1 }] }],
            none)
        else if !last.spaceFor t maxChunkAge then
          match appendNewChunk c t maxChunkAge sampleInterval with
          | none => none
          | some c1 => some (c1, some cur)
        else if Before ts cur.Timestamp then some (c, none)
        else
          some (c.dropLast ++ [{ Samples := last.Samples ++ [{ Timestamp := t, Value := 1 }] }],
            some cur)

/-- The method `Chunks.size`. -/
def Chunks.size (c : Chunks) : Int :=
  c.foldl (fun size chunk =>
    chunk.Samples.foldl (fun size sample => addInt64 size sample.Value) size) 0

/-- The number of samples in all chunks. -/
def Chunks.numSamples (c : Chunks) : Nat := (c.map (fun ch => ch.Samples.length)).sum

/-- The newest sample: the last sample of the last chunk. -/
def Chunks.lastSample (c : Chunks) : Option PatternSample :=
  match c.getLast? with
  | none => none
  | some last => last.Samples.getLast?

end drain

/-!
# Rule comparison (`pkg/tool/rules`)

Only the tests of this package are at hand; `rulesEqual` and `CompareGroups` are
modelled from the sentences about them.
-/

namespace rules

/-- A Go `map[string]string`: `none` is the nil map, `some l` a map built from
the entries `l` in the order written; the first entry of a key counts. -/
abbrev StringMap := Option (List (String × String))

/-- The index expression `m[k]` with its presence flag. -/
def StringMap.get (m : StringMap) (k : String) : Option String :=
  match m with
  | none => none
  | some l => l.lookup k

/-- The keys of a map. -/
def StringMap.keys (m : StringMap) : List String :=
  match m with
  | none => []
  | some l => l.map (fun kv => kv.1)

/-- Two maps hold the same key/value pairs. -/
def StringMap.same (a b : StringMap) : Bool :=
  a.keys.all (fun k => a.get k == b.get k) && b.keys.all (fun k => a.get k == b.get k)

/-- The fields of `rulefmt.Rule` that the tests set. -/
structure Rule where
  Record : String
  Expr : String
  Annotations : StringMap
  Labels : StringMap
deriving DecidableEq, Repr

/-- Modelled from the spec: the function `rulesEqual` of `pkg/tool/rules`, whose
source is not at hand. Two rules are equal when they have the same `Record`, the
same `Expr`, the same labels and the same annotation key/value pairs. -/
def rulesEqual (a b : Rule) : Bool :=
  a.Record == b.Record && a.Expr == b.Expr &&
    StringMap.same a.Annotations b.Annotations && StringMap.same a.Labels b.Labels

/-- A `rwrulefmt.RemoteWriteConfig`. -/
structure RemoteWriteConfig where
  URL : String
deriving DecidableEq, Repr

/-- A `rwrulefmt.RuleGroup`: the name and rules of the embedded
`rulefmt.RuleGroup`, and the remote-write configs. -/
structure RuleGroup where
  Name : String
  Rules : List Rule
  RWConfigs : List RemoteWriteConfig
deriving DecidableEq, Repr

/-- The errors of `CompareGroups`. The tests name `errDiffRuleLen` and
`errDiffRWConfigs`; the other two stand for whatever error the function gives
for a differing name and for a pair of rules that are not equal. -/
inductive CompareError where
  | errNameDiff
  | errDiffRuleLen
  | errDiffRWConfigs
  | errRuleMismatch (i : Nat)
deriving DecidableEq, Repr

/-- The index of the first pair of rules that are not equal. -/
def firstMismatch : List Rule → List Rule → Nat → Option Nat
  | a :: as, b :: bs, i => if rulesEqual a b then firstMismatch as bs (i + 1) else some i
  | _, _, _ => none

/-- The remote-write config lists have the same length and the same URLs. -/
def sameRWConfigs (a b : List RemoteWriteConfig) : Bool :=
  a.length == b.length && (List.zipWith (fun x y => x.URL == y.URL) a b).all id

/-- Modelled from the spec: the function `CompareGroups` of `pkg/tool/rules`,
whose source is not at hand. The checks are in the order the sentences about it
fix: groups with different numbers of rules always give `errDiffRuleLen`, groups
with equal rules and differing remote-write configs always give
`errDiffRWConfigs`, and nil is returned when name, rules and remote-write configs
agree. -/
def CompareGroups (groupOne groupTwo : RuleGroup) : Option CompareError :=
  if groupOne.Rules.length ≠ groupTwo.Rules.length then some .errDiffRuleLen
  else
    match firstMismatch groupOne.Rules groupTwo.Rules 0 with
    | some i => some (.errRuleMismatch i)
    | none =>
      if !sameRWConfigs groupOne.RWConfigs groupTwo.RWConfigs then some .errDiffRWConfigs
      else if groupOne.Name ≠ groupTwo.Name then some .errNameDiff
      else none

/-- The rule of the test case `rule_node_identical`, annotations in one order. -/
def exampleRuleA : Rule :=
  { Record := "one", Expr := "up", Annotations := some [("a", "b"), ("c", "d")], Labels := none }

/-- The rule of the test case `rule_node_identical`, annotations in the other order. -/
def exampleRuleB : Rule :=
  { Record := "one", Expr := "up", Annotations := some [("c", "d"), ("a", "b")], Labels := none }

/-- A group of the test `TestCompareGroups`. -/
def exampleGroup (rwURLs : List String) (rules : List Rule) : RuleGroup :=
  { Name := "example_group", Rules := rules, RWConfigs := rwURLs.map (fun u => ⟨u⟩) }

end rules

/-!
# Dataset values and rows (`pkg/dataobj/internal/dataset`)
-/

namespace dataset

/-- A `dataset.Value`: nil, or a value of one of the value types. -/
inductive Value where
  | null
  | int64 (v : Int)
  | uint64 (v : Nat)
  | byteArray (b : List UInt8)
deriving DecidableEq, Repr

/-- The method `Value.Int64`, which panics on a value of another type. -/
def Value.Int64 : Value → Option Int
  | .int64 v => some v
  | _ => none

/-- A `dataset.Row`. -/
structure Row where
  Index : Int
  Values : List Value
deriving DecidableEq, Repr

end dataset

/-!
# Merging logs tables (`pkg/dataobj/sections/logs/table_merge.go`)
-/

namespace logs

open dataset (Value Row)

/-- The library function `cmp.Compare` on `int64`. -/
def Compare (x y : Int) : Int :=
  if x < y then -1 else if x > y then 1 else 0

/-- The function `compareRows`; `none` is a panic: a row with fewer than two
columns, or a first or second column that is not an `int64`. -/
def compareRows (a b : Row) : Option Int :=
  match a.Values.get? 0, b.Values.get? 0, a.Values.get? 1, b.Values.get? 1 with
  | some a0, some b0, some a1, some b1 =>
    match a0.Int64, b0.Int64, a1.Int64, b1.Int64 with
    | some aStreamID, some bStreamID, some aTimestamp, some bTimestamp =>
      let res := Compare bTimestamp aTimestamp
      if res ≠ 0 then some res else some (Compare aStreamID bStreamID)
    | _, _, _, _ => none
  | _, _, _, _ => none

/-- A row of a logs table: its first two columns are always the `int64` stream
ID and the `int64` timestamp. -/
structure KeyedRow where
  Index : Int
  StreamID : Int
  Timestamp : Int
  Rest : List Value
deriving DecidableEq, Repr

/-- The `dataset.Row` of a table row. -/
def KeyedRow.toRow (r : KeyedRow) : Row :=
  { Index := r.Index, Values := .int64 r.StreamID :: .int64 r.Timestamp :: r.Rest }

/-- A `*table` as the merge sees it: the rows it yields when read in order, and
the error that reading it gives, if any. -/
structure table where
  rows : List KeyedRow
  readErr : Option String
deriving DecidableEq, Repr

/-- The function `rowResultLess` on two rows that were read without error. -/
def rowLess (a b : KeyedRow) : Bool :=
  match compareRows a.toRow b.toRow with
  | some res => decide (res < 0)
  | none => false

/-- What a call can end in. -/
inductive Outcome (α : Type) where
  | ok (v : α)
  | error (err : String)
  | panic (msg : String)
deriving DecidableEq, Repr

/-- What a call does to the table buffer and the tables. -/
inductive BufEvent where
  | reset
  | read
  | flush
deriving DecidableEq, Repr

/-- Modelled from the spec: one round of the loser tree of `pkg/util/loser`,
whose source is not at hand. Of the sequences that still have rows, the one whose
next row is least is the winner (the earliest among equals); its next row is
taken off. -/
def popWinner : List (List KeyedRow) → Option (KeyedRow × List (List KeyedRow))
  | [] => none
  | [] :: rest =>
    match popWinner rest with
    | none => none
    | some (r, rest1) => some (r, [] :: rest1)
  | (x :: xs) :: rest =>
    match popWinner rest with
    | none => some (x, xs :: rest)
    | some (r, rest1) =>
      if rowLess r x then some (r, (x :: xs) :: rest1) else some (x, xs :: rest)

/-- The loop `for tree.Next()` of `mergeTables`: the winners in order. `fuel` is
the number of rows still to come. -/
def mergeRows : Nat → List (List KeyedRow) → List KeyedRow
  | 0, _ => []
  | fuel + 1, seqs =>
    match popWinner seqs with
    | none => []
    | some (r, seqs1) => r :: mergeRows fuel seqs1

/-- Modelled from the spec: the k-way merge of row lists that `mergeTables` runs
on the loser tree. -/
def kWayMerge (seqs : List (List KeyedRow)) : List KeyedRow :=
  mergeRows (seqs.map List.length).sum seqs

/-- The function `mergeTables`, as a k-way merge of row lists: the buffer is
reset, the tables are read, and the merged rows are flushed into a new table. A
table that cannot be read makes the call return its error. -/
def mergeTables (tables : List table) : Outcome table × List BufEvent :=
  match tables.find? (fun t => t.readErr.isSome) with
  | some t => (.error (t.readErr.getD ""), .reset :: tables.map (fun _ => .read))
  | none =>
    (.ok { rows := kWayMerge (tables.map (fun t => t.rows)), readErr := none },
      .reset :: tables.map (fun _ => .read) ++ [.flush])

/-- The inner loop `for i := 0; i < len(in); i += maxMergeSize` of
`mergeTablesIncremental`: `in_` is `in[i:]`. `fuel` bounds the number of rounds;
the loop needs at most `len(in)` of them when `maxMergeSize` is positive. -/
def mergeRound (maxMergeSize : Nat) : Nat → List table → Outcome (List table) × List BufEvent
  | 0, _ => (.panic "out of fuel", [])
  | fuel + 1, in_ =>
    if in_.length = 0 then (.ok [], [])
    else
      match mergeTables (in_.take maxMergeSize) with
      | (.ok merged, ev) =>
        match mergeRound maxMergeSize fuel (in_.drop maxMergeSize) with
        | (.ok out, ev1) => (.ok (merged :: out), ev ++ ev1)
        | (.error err, ev1) => (.error err, ev ++ ev1)
        | (.panic msg, ev1) => (.panic msg, ev ++ ev1)
      | (.error err, ev) => (.error err, ev)
      | (.panic msg, ev) => (.panic msg, ev)

/-- The statement `return in[0], nil`; indexing an empty slice panics. -/
def returnFirst (in_ : List table) (ev : List BufEvent) : Outcome table × List BufEvent :=
  match in_ with
  | [] => (.panic "index out of range [0] with length 0", ev)
  | t :: _ => (.ok t, ev)

/-- The loop `for len(in) > 1` of `mergeTablesIncremental` and the final
`return in[0], nil`. `fuel` bounds the number of rounds. -/
def mergeLoop (maxMergeSize : Nat) : Nat → List table → List BufEvent →
    Outcome table × List BufEvent
  | 0, _, ev => (.panic "out of fuel", ev)
  | fuel + 1, in_, ev =>
    if 1 < in_.length then
      match mergeRound maxMergeSize (in_.length + 1) in_ with
      | (.ok out, ev1) => mergeLoop maxMergeSize fuel out (ev ++ ev1)
      | (.error err, ev1) => (.error err, ev ++ ev1)
      | (.panic msg, ev1) => (.panic msg, ev ++ ev1)
    else returnFirst in_ ev

/-- The function `mergeTablesIncremental`: what it ends in, and what it did to
the buffer and the tables up to then. -/
def mergeTablesIncremental (tables : List table) (maxMergeSize : Int) :
    Outcome table × List BufEvent :=
  if maxMergeSize < 2 then
    (.panic ("mergeTablesIncremental: merge size must be at least 2, got " ++
      toString maxMergeSize), [])
  else if tables.length = 1 then mergeTables tables
  else mergeLoop maxMergeSize.toNat (tables.length + 1) tables []

/-- The order of `compareRows` on table rows: `a` is not after `b`. -/
def rowLE (a b : KeyedRow) : Prop :=
  ∃ res, compareRows a.toRow b.toRow = some res ∧ res ≤ 0

/-- A table's rows are in `compareRows` non-decreasing order. -/
def SortedRows (rows : List KeyedRow) : Prop := rows.Pairwise rowLE

/-- A table row for examples. -/
def exampleRow (streamID timestamp : Int) : KeyedRow :=
  { Index := 0, StreamID := streamID, Timestamp := timestamp, Rest := [] }

/-- Three sorted tables for examples. -/
def exampleTables : List table :=
  [ { rows := [exampleRow 1 30, exampleRow 1 10], readErr := none },
    { rows := [exampleRow 2 20], readErr := none },
    { rows := [exampleRow 1 20, exampleRow 3 20, exampleRow 2 5], readErr := none } ]

end logs

namespace drain

/-- The method `Chunks.samples`: the samples of all chunks, oldest chunk first. -/
def Chunks.samples (c : Chunks) : List PatternSample :=
  (c.map (fun ch => ch.Samples)).flatten

/-- The call `c.Add(ts, maxChunkAge, sampleInterval)` ends at the guard
`ts.Before(...)`: the truncated timestamp is not the one of the newest sample,
the last chunk has space for it, and `ts` is before the newest sample. -/
def Chunks.outOfOrder (c : Chunks) (ts maxChunkAge sampleInterval : Int) : Prop :=
  ∃ last cur t, c.getLast? = some last ∧ last.Samples.getLast? = some cur ∧
    TruncateTimestamp ts (Milliseconds sampleInterval) = some t ∧ cur.Timestamp ≠ t ∧
    last.spaceFor t maxChunkAge = true ∧ ts < cur.Timestamp

/-- One chunk with samples at 10s and 20s, for examples. -/
def exampleChunks : Chunks :=
  [{ Samples := [{ Timestamp := 10000, Value := 1 }, { Timestamp := 20000, Value := 1 }] }]

/-- A `maxChunkAge` of one hour, for examples. -/
def exampleMaxChunkAge : Int := 3600000000000

/-- A `sampleInterval` of ten seconds, for examples. -/
def exampleSampleInterval : Int := 10000000000

end drain

namespace drain

/-- The samples of a chunk whose timestamp is in `[start, end)`, in their order. -/
def Chunk.inRange (c : Chunk) (start end_ : Int) : List PatternSample :=
  c.Samples.filter (fun s => decide (start ≤ s.Timestamp ∧ s.Timestamp < end_))

/-- A chunk with samples at 10 and 20, for examples. -/
def exampleChunk : Chunk :=
  { Samples := [{ Timestamp := 10, Value := 1 }, { Timestamp := 20, Value := 1 }] }

/-- A chunk with samples at 10, 20 and 30, for examples. -/
def exampleChunk3 : Chunk :=
  { Samples := [{ Timestamp := 10, Value := 1 }, { Timestamp := 20, Value := 1 },
      { Timestamp := 30, Value := 4 }] }

end drain

/-!
# Decoding streams rows (`pkg/dataobj/sections/streams/iter.go`)

`decodeRow` reads the values of a row against the column descriptors of the
section and fills a `Stream`. It returns an `error` and writes through the
stream pointer; here it returns the error together with the stream after the
call, and `none` stands for a run-time panic.
-/

namespace datasetmd

/-- Modelled from the spec: the enumeration `datasetmd.ValueType`, whose
declaration is not among the sources: the types a `dataset.Value` can have. -/
inductive ValueType where
  | VALUE_TYPE_UNSPECIFIED
  | VALUE_TYPE_INT64
  | VALUE_TYPE_UINT64
  | VALUE_TYPE_BYTE_ARRAY
deriving DecidableEq, Repr

/-- The name of a value type, as `%s` prints it. -/
def ValueType.String : ValueType → String
  | .VALUE_TYPE_UNSPECIFIED => "VALUE_TYPE_UNSPECIFIED"
  | .VALUE_TYPE_INT64 => "VALUE_TYPE_INT64"
  | .VALUE_TYPE_UINT64 => "VALUE_TYPE_UINT64"
  | .VALUE_TYPE_BYTE_ARRAY => "VALUE_TYPE_BYTE_ARRAY"

/-- Modelled from the spec: the message `datasetmd.ColumnInfo`, whose declaration
is not among the sources; `decodeRow` reads its field `Name` only. -/
structure ColumnInfo where
  Name : String
deriving DecidableEq, Repr

end datasetmd

namespace dataset

/-- Modelled from the spec: the method `Value.Type`, whose code is not among the
sources: the type of a value, unspecified for nil. -/
def Value.Type_ : Value → datasetmd.ValueType
  | .null => .VALUE_TYPE_UNSPECIFIED
  | .int64 _ => .VALUE_TYPE_INT64
  | .uint64 _ => .VALUE_TYPE_UINT64
  | .byteArray _ => .VALUE_TYPE_BYTE_ARRAY

/-- Modelled from the spec: the method `Value.IsNil`, whose code is not among the
sources. -/
def Value.IsNil : Value → Bool
  | .null => true
  | _ => false

/-- Modelled from the spec: the method `Value.IsZero`, whose code is not among the
sources: nil, the number zero and the empty byte array are zero. -/
def Value.IsZero : Value → Bool
  | .null => true
  | .int64 v => v == 0
  | .uint64 v => v == 0
  | .byteArray b => b.isEmpty

/-- The method `Value.ByteArray`, which panics on a value of another type. -/
def Value.ByteArray : Value → Option (List UInt8)
  | .byteArray b => some b
  | _ => none

end dataset

namespace streamsmd

/-- Modelled from the spec: the enumeration `streamsmd.ColumnType`, whose
declaration is not among the sources. -/
inductive ColumnType where
  | COLUMN_TYPE_UNSPECIFIED
  | COLUMN_TYPE_STREAM_ID
  | COLUMN_TYPE_MIN_TIMESTAMP
  | COLUMN_TYPE_MAX_TIMESTAMP
  | COLUMN_TYPE_LABEL
  | COLUMN_TYPE_ROWS
  | COLUMN_TYPE_UNCOMPRESSED_SIZE
deriving DecidableEq, Repr

/-- The name of a column type, as `%s` prints it. -/
def ColumnType.String : ColumnType → String
  | .COLUMN_TYPE_UNSPECIFIED => "COLUMN_TYPE_UNSPECIFIED"
  | .COLUMN_TYPE_STREAM_ID => "COLUMN_TYPE_STREAM_ID"
  | .COLUMN_TYPE_MIN_TIMESTAMP => "COLUMN_TYPE_MIN_TIMESTAMP"
  | .COLUMN_TYPE_MAX_TIMESTAMP => "COLUMN_TYPE_MAX_TIMESTAMP"
  | .COLUMN_TYPE_LABEL => "COLUMN_TYPE_LABEL"
  | .COLUMN_TYPE_ROWS => "COLUMN_TYPE_ROWS"
  | .COLUMN_TYPE_UNCOMPRESSED_SIZE => "COLUMN_TYPE_UNCOMPRESSED_SIZE"

/-- Modelled from the spec: the message `streamsmd.ColumnDesc`, whose declaration
is not among the sources; `decodeRow` reads `column.Type` and
`column.Info.Name`. A descriptor is a record, never a nil pointer. -/
structure ColumnDesc where
  Info : datasetmd.ColumnInfo
  Type_ : ColumnType
deriving DecidableEq, Repr

end streamsmd

namespace time

/-- The function `time.Unix`: an instant is its number of nanoseconds since the
Unix epoch, without bound. -/
def Unix (sec nsec : Int) : Int := sec * 1000000000 + nsec

end time

namespace streams

open dataset (Value Row)
open datasetmd (ValueType)
open streamsmd (ColumnType ColumnDesc)

/-- A label: its name and its value, a string held as its bytes. -/
abbrev Label := String × List UInt8

/-- The fields of `Stream` that `decodeRow` writes. -/
structure Stream where
  ID : Int
  MinTimestamp : Int
  MaxTimestamp : Int
  Rows : Int
  UncompressedSize : Int
  Labels : List Label
deriving DecidableEq, Repr

/-- The error `fmt.Errorf("invalid type %s for %s", ty, column.Type)`. -/
def invalidType (ty : ValueType) (columnType : ColumnType) : String :=
  "invalid type " ++ ty.String ++ " for " ++ columnType.String

/-- What the loop of `decodeRow` carries: the error returned (if any), the stream
and the labels added to the label builder so far. -/
abbrev LoopResult := Option (Option String × Stream × List Label)

/-- The `switch` of `decodeRow` for one value that is neither nil nor zero. The
symbolizer `sym`, when given, is its method `Get`. -/
def decodeColumn (sym : Option (List UInt8 → List UInt8)) (column : ColumnDesc)
    (columnValue : Value) (stream : Stream) (labelBuilder : List Label) : LoopResult :=
  match column.Type_ with
  | .COLUMN_TYPE_STREAM_ID =>
    if columnValue.Type_ ≠ .VALUE_TYPE_INT64 then
      some (some (invalidType columnValue.Type_ column.Type_), stream, labelBuilder)
    else
      columnValue.Int64.map (fun v => (none, { stream with ID := v }, labelBuilder))
  | .COLUMN_TYPE_MIN_TIMESTAMP =>
    if columnValue.Type_ ≠ .VALUE_TYPE_INT64 then
      some (some (invalidType columnValue.Type_ column.Type_), stream, labelBuilder)
    else
      columnValue.Int64.map
        (fun v => (none, { stream with MinTimestamp := time.Unix 0 v }, labelBuilder))
  | .COLUMN_TYPE_MAX_TIMESTAMP =>
    if columnValue.Type_ ≠ .VALUE_TYPE_INT64 then
      some (some (invalidType columnValue.Type_ column.Type_), stream, labelBuilder)
    else
      columnValue.Int64.map
        (fun v => (none, { stream with MaxTimestamp := time.Unix 0 v }, labelBuilder))
  | .COLUMN_TYPE_ROWS =>
    if columnValue.Type_ ≠ .VALUE_TYPE_INT64 then
      some (some (invalidType columnValue.Type_ column.Type_), stream, labelBuilder)
    else
      columnValue.Int64.map (fun v => (none, { stream with Rows := v }, labelBuilder))
  | .COLUMN_TYPE_UNCOMPRESSED_SIZE =>
    if columnValue.Type_ ≠ .VALUE_TYPE_INT64 then
      some (some (invalidType columnValue.Type_ column.Type_), stream, labelBuilder)
    else
      columnValue.Int64.map
        (fun v => (none, { stream with UncompressedSize := v }, labelBuilder))
  | .COLUMN_TYPE_LABEL =>
    if columnValue.Type_ ≠ .VALUE_TYPE_BYTE_ARRAY then
      some (some (invalidType columnValue.Type_ column.Type_), stream, labelBuilder)
    else
      columnValue.ByteArray.map (fun b =>
        (none, stream,
          labelBuilder ++ [(column.Info.Name, match sym with | some get => get b | none => b)]))
  | _ => some (none, stream, labelBuilder)

/-- One round of the loop of `decodeRow`, for the value at `columnIndex`: a nil or
zero value is passed over; otherwise `columns[columnIndex]` is read, which panics
when the index is out of range. -/
def decodeValue (columns : List ColumnDesc) (sym : Option (List UInt8 → List UInt8))
    (columnIndex : Nat) (columnValue : Value) (stream : Stream)
    (labelBuilder : List Label) : LoopResult :=
  if columnValue.IsNil || columnValue.IsZero then some (none, stream, labelBuilder)
  else
    match columns.get? columnIndex with
    | none => none
    | some column => decodeColumn sym column columnValue stream labelBuilder

/-- The loop `for columnIndex, columnValue := range row.Values` of `decodeRow`; it
ends at the first error. -/
def decodeLoop (columns : List ColumnDesc) (sym : Option (List UInt8 → List UInt8)) :
    Nat → List Value → Stream → List Label → LoopResult
  | _, [], stream, labelBuilder => some (none, stream, labelBuilder)
  | columnIndex, columnValue :: rest, stream, labelBuilder =>
    match decodeValue columns sym columnIndex columnValue stream labelBuilder with
    | some (none, stream1, labelBuilder1) =>
      decodeLoop columns sym (columnIndex + 1) rest stream1 labelBuilder1
    | r => r

/-- The function `decodeRow`. `sortLabels` is the method `Sort` of the label
builder, which comes from a library; the builder is empty at the start. The
result is the error returned and the stream after the call. -/
def decodeRow (sortLabels : List Label → List Label) (columns : List ColumnDesc) (row : Row)
    (stream : Stream) (sym : Option (List UInt8 → List UInt8)) :
    Option (Option String × Stream) :=
  match decodeLoop columns sym 0 row.Values stream [] with
  | none => none
  | some (some err, stream1, _) => some (some err, stream1)
  | some (none, stream1, labelBuilder) =>
    some (none, { stream1 with Labels := sortLabels labelBuilder })

/-- A value that `decodeRow` passes over: nil or zero. -/
def skipped (v : Value) : Prop := v.IsNil = true ∨ v.IsZero = true

instance (v : Value) : Decidable (skipped v) := by unfold skipped; infer_instance

/-- The column types whose values must have type INT64. -/
def int64Column (t : ColumnType) : Prop :=
  t = .COLUMN_TYPE_STREAM_ID ∨ t = .COLUMN_TYPE_MIN_TIMESTAMP ∨
  t = .COLUMN_TYPE_MAX_TIMESTAMP ∨ t = .COLUMN_TYPE_ROWS ∨
  t = .COLUMN_TYPE_UNCOMPRESSED_SIZE

instance (t : ColumnType) : Decidable (int64Column t) := by unfold int64Column; infer_instance

/-- A value of the wrong type for its column: neither nil nor zero, and not INT64
in a column that needs INT64, or not BYTE_ARRAY in a LABEL column. -/
def wrongType (column : ColumnDesc) (v : Value) : Prop :=
  ¬ skipped v ∧
  ((int64Column column.Type_ ∧ v.Type_ ≠ .VALUE_TYPE_INT64) ∨
   (column.Type_ = .COLUMN_TYPE_LABEL ∧ v.Type_ ≠ .VALUE_TYPE_BYTE_ARRAY))

instance (column : ColumnDesc) (v : Value) : Decidable (wrongType column v) := by
  unfold wrongType; infer_instance

/-- The labels that the values of LABEL columns add to the builder: one for each
pair of a LABEL column and a byte array that is not passed over, in order. -/
def addedLabels (sym : Option (List UInt8 → List UInt8)) :
    List (ColumnDesc × Value) → List Label
  | [] => []
  | (column, v) :: rest =>
    match v with
    | .byteArray b =>
      if column.Type_ = .COLUMN_TYPE_LABEL ∧ ¬ skipped v then
        (column.Info.Name, match sym with | some get => get b | none => b) ::
          addedLabels sym rest
      else addedLabels sym rest
    | _ => addedLabels sym rest

/-- Example columns: stream id, rows, one label, one unspecified column. -/
def exampleColumns : List ColumnDesc :=
  [⟨⟨"stream_id"⟩, .COLUMN_TYPE_STREAM_ID⟩, ⟨⟨"rows"⟩, .COLUMN_TYPE_ROWS⟩,
   ⟨⟨"app"⟩, .COLUMN_TYPE_LABEL⟩, ⟨⟨"later"⟩, .COLUMN_TYPE_UNSPECIFIED⟩]

/-- An example stream, as left by an earlier call. -/
def exampleStream : Stream :=
  { ID := 7, MinTimestamp := 1, MaxTimestamp := 2, Rows := 3, UncompressedSize := 4,
    Labels := [("old", [1])] }

/-- An example row for `exampleColumns`: the rows value is zero. -/
def exampleStreamRow : Row :=
  { Index := 0, Values := [.int64 5, .int64 0, .byteArray [97], .uint64 9] }

/-- An example row whose stream id has type UINT64. -/
def exampleBadRow : Row :=
  { Index := 0, Values := [.uint64 5, .int64 1, .byteArray [97], .null] }

end streams

namespace streams

/-- The stream field that the values of a column type are decoded into; LABEL
columns add to the label builder and other columns are not decoded. -/
def Stream.field (s : Stream) : streamsmd.ColumnType → Option Int
  | .COLUMN_TYPE_STREAM_ID => some s.ID
  | .COLUMN_TYPE_MIN_TIMESTAMP => some s.MinTimestamp
  | .COLUMN_TYPE_MAX_TIMESTAMP => some s.MaxTimestamp
  | .COLUMN_TYPE_ROWS => some s.Rows
  | .COLUMN_TYPE_UNCOMPRESSED_SIZE => some s.UncompressedSize
  | _ => none

end streams

namespace compactor

/-- The calls `calls` deliver the hook `hook` once to each sub-checker, to the
retention checker first, and deliver nothing else. -/
def deliversOnceEach (calls : List Call) (hook : Method) : Prop :=
  calls = [(SubChecker.retentionExpiryChecker, hook),
           (SubChecker.deletionExpiryChecker, hook)] ∧
  calls.count (SubChecker.retentionExpiryChecker, hook) = 1 ∧
  calls.count (SubChecker.deletionExpiryChecker, hook) = 1 ∧
  (∀ c ∈ calls, c.2 = hook)

end compactor

/-! # Theorems -/

namespace compactor

/-! ## Validate: lemmas -/

theorem wrapInt64_of_range (x : Int) (h1 : minInt64 ≤ x) (h2 : x ≤ maxInt64) :
    wrapInt64 x = x := by
  unfold wrapInt64
  unfold minInt64 at h1
  unfold maxInt64 at h2
  rw [Int.emod_eq_of_lt (by omega) (by omega)]
  omega

theorem defaultApplyRetentionInterval_keyPrefix (cfg : Config) :
    cfg.defaultApplyRetentionInterval.DeleteRequestStoreKeyPrefix
      = cfg.DeleteRequestStoreKeyPrefix := by
  unfold Config.defaultApplyRetentionInterval
  split <;> rfl

theorem addJitter_keyPrefix (cfg : Config) :
    cfg.addJitter.DeleteRequestStoreKeyPrefix = cfg.DeleteRequestStoreKeyPrefix := by
  unfold Config.addJitter
  split <;> rfl

/-- In the retention branch `Validate` leaves the config with the defaulted and
jittered interval, whatever the path-prefix check answers. -/
theorem Validate_retention_config (vpp : String → Option String) (cfg : Config)
    (h1 : 1 ≤ cfg.MaxCompactionParallelism)
    (h2 : cfg.CompactorRing.NumTokens = 1)
    (h3 : cfg.CompactorRing.ReplicationFactor = 1)
    (h4 : cfg.RetentionEnabled = true)
    (h5 : cfg.DeleteRequestStore ≠ "") :
    (cfg.Validate vpp).1 = cfg.defaultApplyRetentionInterval.addJitter := by
  unfold Config.Validate
  rw [if_neg (by omega), if_neg (by simp [h2, ringNumTokens]),
    if_neg (by simp [h3, ringReplicationFactor]), if_pos h4, if_neg h5]
  dsimp only
  split <;> rfl

theorem Validate_retention_error (vpp : String → Option String) (cfg : Config)
    (h1 : 1 ≤ cfg.MaxCompactionParallelism)
    (h2 : cfg.CompactorRing.NumTokens = 1)
    (h3 : cfg.CompactorRing.ReplicationFactor = 1)
    (h4 : cfg.RetentionEnabled = true)
    (h5 : cfg.DeleteRequestStore ≠ "") :
    ((cfg.Validate vpp).2 = none ↔ vpp cfg.DeleteRequestStoreKeyPrefix = none) := by
  unfold Config.Validate
  rw [if_neg (by omega), if_neg (by simp [h2, ringNumTokens]),
    if_neg (by simp [h3, ringReplicationFactor]), if_pos h4, if_neg h5]
  dsimp only
  rw [addJitter_keyPrefix, defaultApplyRetentionInterval_keyPrefix]
  cases h : vpp cfg.DeleteRequestStoreKeyPrefix <;> simp

theorem Validate_accepted_checks (vpp : String → Option String) (cfg : Config)
    (h : (cfg.Validate vpp).2 = none) :
    1 ≤ cfg.MaxCompactionParallelism ∧ cfg.CompactorRing.NumTokens = 1 ∧
      cfg.CompactorRing.ReplicationFactor = 1 ∧
      (cfg.RetentionEnabled = true → cfg.DeleteRequestStore ≠ "") := by
  unfold Config.Validate at h
  by_cases h1 : cfg.MaxCompactionParallelism < 1
  · rw [if_pos h1] at h; simp at h
  rw [if_neg h1] at h
  by_cases h2 : cfg.CompactorRing.NumTokens ≠ ringNumTokens
  · rw [if_pos h2] at h; simp at h
  rw [if_neg h2] at h
  by_cases h3 : cfg.CompactorRing.ReplicationFactor ≠ ringReplicationFactor
  · rw [if_pos h3] at h; simp at h
  rw [if_neg h3] at h
  refine ⟨by omega, by simpa [ringNumTokens] using h2,
    by simpa [ringReplicationFactor] using h3, ?_⟩
  intro h4 h5
  rw [if_pos h4, if_pos h5] at h
  simp at h

theorem Validate_no_retention (vpp : String → Option String) (cfg : Config)
    (h1 : 1 ≤ cfg.MaxCompactionParallelism)
    (h2 : cfg.CompactorRing.NumTokens = 1)
    (h3 : cfg.CompactorRing.ReplicationFactor = 1)
    (h4 : cfg.RetentionEnabled = false) :
    cfg.Validate vpp = (cfg, none) := by
  unfold Config.Validate
  rw [if_neg (by omega), if_neg (by simp [h2, ringNumTokens]),
    if_neg (by simp [h3, ringReplicationFactor]), if_neg (by simp [h4])]

theorem jitter_entry_default (cfg : Config)
    (h : cfg.ApplyRetentionInterval = 0 ∨ cfg.ApplyRetentionInterval = cfg.CompactionInterval) :
    cfg.defaultApplyRetentionInterval.addJitter.ApplyRetentionInterval
      = addInt64 cfg.CompactionInterval (min (10 * Minute) (quoInt64 cfg.CompactionInterval 2)) := by
  unfold Config.defaultApplyRetentionInterval
  by_cases h0 : cfg.ApplyRetentionInterval = 0
  · rw [if_pos h0]
    unfold Config.addJitter
    simp
  · rw [if_neg h0]
    have h1 : cfg.ApplyRetentionInterval = cfg.CompactionInterval := by
      rcases h with h | h
      · exact absurd h h0
      · exact h
    unfold Config.addJitter
    rw [if_pos h1]
    simp [h1]

theorem jitter_entry_other (cfg : Config)
    (h0 : cfg.ApplyRetentionInterval ≠ 0)
    (h1 : cfg.ApplyRetentionInterval ≠ cfg.CompactionInterval) :
    cfg.defaultApplyRetentionInterval.addJitter = cfg := by
  unfold Config.defaultApplyRetentionInterval
  rw [if_neg h0]
  unfold Config.addJitter
  rw [if_neg h1]

theorem jitter_exact (ci : Int) (h0 : 0 ≤ ci) (h1 : ci ≤ maxInt64 - 10 * Minute) :
    addInt64 ci (min (10 * Minute) (quoInt64 ci 2)) = ci + min (10 * Minute) (ci / 2) := by
  unfold addInt64 quoInt64
  rw [Int.tdiv_eq_ediv h0 (by decide)]
  apply wrapInt64_of_range
  · unfold minInt64 Minute; omega
  · unfold maxInt64 Minute at *; omega

/-! ## Validate: theorems -/

/-- C1: `Config.Validate` returns nil exactly when `MaxCompactionParallelism` is
at least 1, the ring's `NumTokens` and `ReplicationFactor` are both 1 and, if
`RetentionEnabled`, `DeleteRequestStore` is non-empty and `ValidatePathPrefix`
accepts `DeleteRequestStoreKeyPrefix`; in every other case it returns an error. -/
theorem Validate_nil_iff (ValidatePathPrefix : String → Option String) (cfg : Config) :
    ((cfg.Validate ValidatePathPrefix).2 = none ↔
      (1 ≤ cfg.MaxCompactionParallelism ∧ cfg.CompactorRing.NumTokens = 1 ∧
        cfg.CompactorRing.ReplicationFactor = 1 ∧
        (cfg.RetentionEnabled = true →
          cfg.DeleteRequestStore ≠ "" ∧
            ValidatePathPrefix cfg.DeleteRequestStoreKeyPrefix = none))) ∧
    (¬ (1 ≤ cfg.MaxCompactionParallelism ∧ cfg.CompactorRing.NumTokens = 1 ∧
        cfg.CompactorRing.ReplicationFactor = 1 ∧
        (cfg.RetentionEnabled = true →
          cfg.DeleteRequestStore ≠ "" ∧
            ValidatePathPrefix cfg.DeleteRequestStoreKeyPrefix = none)) →
      ∃ err, (cfg.Validate ValidatePathPrefix).2 = some err) := by
  have key : (cfg.Validate ValidatePathPrefix).2 = none ↔
      (1 ≤ cfg.MaxCompactionParallelism ∧ cfg.CompactorRing.NumTokens = 1 ∧
        cfg.CompactorRing.ReplicationFactor = 1 ∧
        (cfg.RetentionEnabled = true →
          cfg.DeleteRequestStore ≠ "" ∧
            ValidatePathPrefix cfg.DeleteRequestStoreKeyPrefix = none)) := by
    constructor
    · intro h
      obtain ⟨h1, h2, h3, h4⟩ := Validate_accepted_checks ValidatePathPrefix cfg h
      refine ⟨h1, h2, h3, fun hr => ⟨h4 hr, ?_⟩⟩
      exact (Validate_retention_error ValidatePathPrefix cfg h1 h2 h3 hr (h4 hr)).1 h
    · rintro ⟨h1, h2, h3, h4⟩
      cases hr : cfg.RetentionEnabled with
      | false => rw [Validate_no_retention ValidatePathPrefix cfg h1 h2 h3 hr]
      | true =>
        obtain ⟨h5, h6⟩ := h4 hr
        exact (Validate_retention_error ValidatePathPrefix cfg h1 h2 h3 hr h5).2 h6
  refine ⟨key, fun hn => ?_⟩
  cases hv : (cfg.Validate ValidatePathPrefix).2 with
  | none => exact absurd (key.1 hv) hn
  | some err => exact ⟨err, rfl⟩

/-- C8: for a config that reaches the retention branch of `Validate` (the first
three checks pass, `RetentionEnabled`, `DeleteRequestStore` non-empty): if
`ApplyRetentionInterval` is 0 or equal to `CompactionInterval` on entry, on exit
it is `CompactionInterval + min(10 minutes, CompactionInterval / 2)` in Go's
`int64` arithmetic, which is the plain integer sum for every non-negative
interval up to `maxInt64` less ten minutes; any other entry value is left
unchanged. -/
theorem Validate_applyRetentionInterval (ValidatePathPrefix : String → Option String)
    (cfg : Config)
    (h1 : 1 ≤ cfg.MaxCompactionParallelism)
    (h2 : cfg.CompactorRing.NumTokens = 1)
    (h3 : cfg.CompactorRing.ReplicationFactor = 1)
    (h4 : cfg.RetentionEnabled = true)
    (h5 : cfg.DeleteRequestStore ≠ "") :
    ((cfg.ApplyRetentionInterval = 0 ∨ cfg.ApplyRetentionInterval = cfg.CompactionInterval) →
      (cfg.Validate ValidatePathPrefix).1.ApplyRetentionInterval
          = addInt64 cfg.CompactionInterval
              (min (10 * Minute) (quoInt64 cfg.CompactionInterval 2)) ∧
        (0 ≤ cfg.CompactionInterval → cfg.CompactionInterval ≤ maxInt64 - 10 * Minute →
          (cfg.Validate ValidatePathPrefix).1.ApplyRetentionInterval
            = cfg.CompactionInterval + min (10 * Minute) (cfg.CompactionInterval / 2))) ∧
    (cfg.ApplyRetentionInterval ≠ 0 → cfg.ApplyRetentionInterval ≠ cfg.CompactionInterval →
      (cfg.Validate ValidatePathPrefix).1.ApplyRetentionInterval
        = cfg.ApplyRetentionInterval) := by
  rw [Validate_retention_config ValidatePathPrefix cfg h1 h2 h3 h4 h5]
  refine ⟨fun h => ⟨jitter_entry_default cfg h, fun hlo hhi => ?_⟩, fun h0 hne => ?_⟩
  · rw [jitter_entry_default cfg h, jitter_exact _ hlo hhi]
  · rw [jitter_entry_other cfg h0 hne]

/-- C8, at the default intervals: ten minutes become fifteen. -/
theorem Validate_applyRetentionInterval_witness :
    (1 ≤ exampleConfig.MaxCompactionParallelism ∧ exampleConfig.CompactorRing.NumTokens = 1 ∧
      exampleConfig.CompactorRing.ReplicationFactor = 1 ∧
      exampleConfig.RetentionEnabled = true ∧ exampleConfig.DeleteRequestStore ≠ "") ∧
    (exampleConfig.Validate examplePathPrefixCheck).1.ApplyRetentionInterval = 15 * Minute := by
  have hc : (1 ≤ exampleConfig.MaxCompactionParallelism ∧
      exampleConfig.CompactorRing.NumTokens = 1 ∧
      exampleConfig.CompactorRing.ReplicationFactor = 1 ∧
      exampleConfig.RetentionEnabled = true ∧ exampleConfig.DeleteRequestStore ≠ "") := by
    simp [exampleConfig]
  refine ⟨hc, ?_⟩
  have h := ((Validate_applyRetentionInterval examplePathPrefixCheck exampleConfig
    hc.1 hc.2.1 hc.2.2.1 hc.2.2.2.1 hc.2.2.2.2).1 (Or.inl rfl)).2
    (by simp [exampleConfig, Minute]) (by simp [exampleConfig, Minute, maxInt64])
  rw [h]
  simp [exampleConfig, Minute]

/-- C9, as stated, fails: with the default intervals (compaction every ten
minutes, `ApplyRetentionInterval` 0) and retention enabled, `Validate` accepts
the config and leaves `ApplyRetentionInterval` at fifteen minutes, which is no
multiple of ten minutes. -/
theorem Validate_applyRetentionInterval_not_multiple :
    exampleConfig.RetentionEnabled = true ∧ 0 < exampleConfig.CompactionInterval ∧
    (exampleConfig.Validate examplePathPrefixCheck).2 = none ∧
    exampleConfig.ApplyRetentionInterval = 0 ∧
    (exampleConfig.Validate examplePathPrefixCheck).1.ApplyRetentionInterval = 15 * Minute ∧
    ¬ (exampleConfig.CompactionInterval ∣
        (exampleConfig.Validate examplePathPrefixCheck).1.ApplyRetentionInterval) := by
  have hc : (1 ≤ exampleConfig.MaxCompactionParallelism ∧
      exampleConfig.CompactorRing.NumTokens = 1 ∧
      exampleConfig.CompactorRing.ReplicationFactor = 1 ∧
      exampleConfig.RetentionEnabled = true ∧ exampleConfig.DeleteRequestStore ≠ "") := by
    simp [exampleConfig]
  have hacc : (exampleConfig.Validate examplePathPrefixCheck).2 = none := by
    rw [Validate_retention_error examplePathPrefixCheck exampleConfig
      hc.1 hc.2.1 hc.2.2.1 hc.2.2.2.1 hc.2.2.2.2]
    simp [examplePathPrefixCheck, exampleConfig]
  have hv : (exampleConfig.Validate examplePathPrefixCheck).1.ApplyRetentionInterval
      = 15 * Minute := by
    rw [Validate_retention_config examplePathPrefixCheck exampleConfig
      hc.1 hc.2.1 hc.2.2.1 hc.2.2.2.1 hc.2.2.2.2, jitter_entry_default _ (Or.inl rfl),
      jitter_exact _ (by simp [exampleConfig, Minute])
        (by simp [exampleConfig, Minute, maxInt64])]
    simp [exampleConfig, Minute]
  refine ⟨rfl, by simp [exampleConfig, Minute], hacc, rfl, hv, ?_⟩
  rw [hv]
  simp only [exampleConfig, Minute]
  omega

/-- C9, amended: for a config with `RetentionEnabled` and `CompactionInterval > 0`
that `Validate` accepts, a configured `ApplyRetentionInterval` that is a multiple
of `CompactionInterval` other than 0 and `CompactionInterval` itself is kept, and
so is a whole multiple of `CompactionInterval` after `Validate`; a configured 0 or
`CompactionInterval` becomes `CompactionInterval` plus the jitter
`min(10 minutes, CompactionInterval / 2)`, which for a `CompactionInterval` of at
least 2ns and at most `maxInt64` less ten minutes lies strictly between
`CompactionInterval` and its double and is no multiple of it. -/
theorem Validate_applyRetentionInterval_multiple (ValidatePathPrefix : String → Option String)
    (cfg : Config)
    (hr : cfg.RetentionEnabled = true)
    (_hci : 0 < cfg.CompactionInterval)
    (hacc : (cfg.Validate ValidatePathPrefix).2 = none) :
    (cfg.CompactionInterval ∣ cfg.ApplyRetentionInterval →
      cfg.ApplyRetentionInterval ≠ 0 →
      cfg.ApplyRetentionInterval ≠ cfg.CompactionInterval →
      (cfg.Validate ValidatePathPrefix).1.ApplyRetentionInterval = cfg.ApplyRetentionInterval ∧
        cfg.CompactionInterval ∣ (cfg.Validate ValidatePathPrefix).1.ApplyRetentionInterval) ∧
    ((cfg.ApplyRetentionInterval = 0 ∨ cfg.ApplyRetentionInterval = cfg.CompactionInterval) →
      2 ≤ cfg.CompactionInterval → cfg.CompactionInterval ≤ maxInt64 - 10 * Minute →
      (cfg.Validate ValidatePathPrefix).1.ApplyRetentionInterval
          = cfg.CompactionInterval + min (10 * Minute) (cfg.CompactionInterval / 2) ∧
        cfg.CompactionInterval < (cfg.Validate ValidatePathPrefix).1.ApplyRetentionInterval ∧
        (cfg.Validate ValidatePathPrefix).1.ApplyRetentionInterval < 2 * cfg.CompactionInterval ∧
        ¬ (cfg.CompactionInterval ∣
            (cfg.Validate ValidatePathPrefix).1.ApplyRetentionInterval)) := by
  obtain ⟨h1, h2, h3, h4⟩ := Validate_accepted_checks ValidatePathPrefix cfg hacc
  rw [Validate_retention_config ValidatePathPrefix cfg h1 h2 h3 hr (h4 hr)]
  refine ⟨fun hdvd h0 hne => ?_, fun h h2le hhi => ?_⟩
  · rw [jitter_entry_other cfg h0 hne]
    exact ⟨rfl, hdvd⟩
  · rw [jitter_entry_default cfg h, jitter_exact _ (by omega) hhi]
    have hlt : cfg.CompactionInterval
        < cfg.CompactionInterval + min (10 * Minute) (cfg.CompactionInterval / 2) := by
      unfold Minute; omega
    have hlt2 : cfg.CompactionInterval + min (10 * Minute) (cfg.CompactionInterval / 2)
        < 2 * cfg.CompactionInterval := by
      unfold Minute; omega
    refine ⟨rfl, hlt, hlt2, ?_⟩
    rintro ⟨k, hk⟩
    rw [hk] at hlt hlt2
    have hk1 : 1 < k := by
      by_contra hcon
      have : k ≤ 1 := by omega
      have : cfg.CompactionInterval * k ≤ cfg.CompactionInterval * 1 :=
        Int.mul_le_mul_of_nonneg_left this (by omega)
      omega
    have : cfg.CompactionInterval * 2 ≤ cfg.CompactionInterval * k :=
      Int.mul_le_mul_of_nonneg_left (by omega) (by omega)
    omega

/-- C9 amended, at a compaction interval of ten minutes with retention
configured every thirty: the thirty minutes are kept. -/
theorem Validate_applyRetentionInterval_multiple_witness :
    (exampleConfigThird.RetentionEnabled = true ∧ 0 < exampleConfigThird.CompactionInterval ∧
      (exampleConfigThird.Validate examplePathPrefixCheck).2 = none) ∧
    (exampleConfigThird.Validate examplePathPrefixCheck).1.ApplyRetentionInterval
      = 30 * Minute ∧
    exampleConfigThird.CompactionInterval ∣
      (exampleConfigThird.Validate examplePathPrefixCheck).1.ApplyRetentionInterval := by
  have hc : (1 ≤ exampleConfigThird.MaxCompactionParallelism ∧
      exampleConfigThird.CompactorRing.NumTokens = 1 ∧
      exampleConfigThird.CompactorRing.ReplicationFactor = 1 ∧
      exampleConfigThird.RetentionEnabled = true ∧
      exampleConfigThird.DeleteRequestStore ≠ "") := by
    simp [exampleConfigThird, exampleConfig]
  have hacc : (exampleConfigThird.Validate examplePathPrefixCheck).2 = none := by
    rw [Validate_retention_error examplePathPrefixCheck exampleConfigThird
      hc.1 hc.2.1 hc.2.2.1 hc.2.2.2.1 hc.2.2.2.2]
    simp [examplePathPrefixCheck, exampleConfigThird, exampleConfig]
  have hpos : 0 < exampleConfigThird.CompactionInterval := by
    simp [exampleConfigThird, exampleConfig, Minute]
  refine ⟨⟨hc.2.2.2.1, hpos, hacc⟩, ?_⟩
  exact (Validate_applyRetentionInterval_multiple examplePathPrefixCheck exampleConfigThird
    hc.2.2.2.1 hpos hacc).1 ⟨3, by simp [exampleConfigThird, exampleConfig, Minute]⟩
    (by simp [exampleConfigThird, exampleConfig, Minute])
    (by simp [exampleConfigThird, exampleConfig, Minute])

/-! ## The composed expiration checker: theorems -/

/-- C2: for every pair of sub-checkers and every chunk, the composed
`expirationChecker.Expired` reports expired exactly when the retention checker's
`Expired` or the deletion checker's `Expired` reports expired for the same
arguments. -/
theorem Expired_iff_either {Chunk Labels Filter : Type}
    (e : expirationChecker Chunk Labels Filter) (userID : List UInt8) (chk : Chunk)
    (lbls : Labels) (seriesID : List UInt8) (tableName : String) (now : Int) :
    (e.Expired userID chk lbls seriesID tableName now).1.1 = true ↔
      ((e.retentionExpiryChecker.Expired userID chk lbls seriesID tableName now).1 = true ∨
        (e.deletionExpiryChecker.Expired userID chk lbls seriesID tableName now).1 = true) := by
  unfold expirationChecker.Expired
  cases h : (e.retentionExpiryChecker.Expired userID chk lbls seriesID tableName now).1 <;>
    simp [h]

/-- C3: for every series, the composed `expirationChecker.CanSkipSeries` returns
true exactly when both the retention checker's and the deletion checker's
`CanSkipSeries` return true for the same arguments. -/
theorem CanSkipSeries_iff_both {Chunk Labels Filter : Type}
    (e : expirationChecker Chunk Labels Filter) (userID : List UInt8) (lbls : Labels)
    (seriesID : List UInt8) (seriesStart : Int) (tableName : String) (now : Int) :
    (e.CanSkipSeries userID lbls seriesID seriesStart tableName now).1 = true ↔
      (e.retentionExpiryChecker.CanSkipSeries userID lbls seriesID seriesStart tableName now
          = true ∧
        e.deletionExpiryChecker.CanSkipSeries userID lbls seriesID seriesStart tableName now
          = true) := by
  unfold expirationChecker.CanSkipSeries
  cases h : e.retentionExpiryChecker.CanSkipSeries userID lbls seriesID seriesStart
    tableName now <;> simp

/-- C4: for every interval and tenant, the composed
`expirationChecker.IntervalMayHaveExpiredChunks` returns false exactly when both
the retention checker and the deletion checker return false for that interval
and tenant. -/
theorem IntervalMayHaveExpiredChunks_false_iff {Chunk Labels Filter : Type}
    (e : expirationChecker Chunk Labels Filter) (interval : Interval) (userID : String) :
    (e.IntervalMayHaveExpiredChunks interval userID).1 = false ↔
      (e.retentionExpiryChecker.IntervalMayHaveExpiredChunks interval userID = false ∧
        e.deletionExpiryChecker.IntervalMayHaveExpiredChunks interval userID = false) := by
  unfold expirationChecker.IntervalMayHaveExpiredChunks
  cases h : e.retentionExpiryChecker.IntervalMayHaveExpiredChunks interval userID <;> simp

/-! ## SortTablesByRange: lemmas and theorem -/

theorem moveLeft_perm {α : Type} (less : α → α → Bool) (x : α) (l : List α) :
    (moveLeft less x l).Perm (x :: l) := by
  induction l with
  | nil => exact List.Perm.refl _
  | cons p ps ih =>
    unfold moveLeft
    split
    · exact ((List.Perm.cons p ih).trans (List.Perm.swap x p ps))
    · exact List.Perm.refl _

theorem sortSlice_fold_perm {α : Type} (less : α → α → Bool) (l done : List α) :
    (l.foldl (fun done x => moveLeft less x done) done).Perm (l ++ done) := by
  induction l generalizing done with
  | nil => exact List.Perm.refl _
  | cons a as ih =>
    rw [List.foldl_cons]
    refine (ih (moveLeft less a done)).trans ?_
    refine (List.Perm.append_left as (moveLeft_perm less a done)).trans ?_
    exact (List.perm_middle).trans (List.Perm.refl _)

theorem sortSlice_perm {α : Type} (less : α → α → Bool) (l : List α) :
    (sortSlice less l).Perm l := by
  unfold sortSlice
  refine (List.reverse_perm _).trans ?_
  simpa using sortSlice_fold_perm less l []

/-- When `less a b` is `key a > key b`, moving a new element left keeps the
prefix, read from its last element towards its first, in ascending key order. -/
theorem moveLeft_ascending {α : Type} (key : α → Int) (less : α → α → Bool)
    (hless : ∀ a b, less a b = decide (key a > key b)) (x : α) (l : List α)
    (h : l.Pairwise (fun a b => key a ≤ key b)) :
    (moveLeft less x l).Pairwise (fun a b => key a ≤ key b) := by
  induction l with
  | nil => simp [moveLeft]
  | cons p ps ih =>
    rw [List.pairwise_cons] at h
    unfold moveLeft
    by_cases hx : less x p = true
    · rw [if_pos hx]
      rw [hless] at hx
      have hxp : key p < key x := by simpa using hx
      rw [List.pairwise_cons]
      refine ⟨fun b hb => ?_, ih h.2⟩
      have hb2 : b ∈ x :: ps := (moveLeft_perm less x ps).subset hb
      rcases List.mem_cons.1 hb2 with hbx | hbps
      · rw [hbx]; omega
      · exact h.1 b hbps
    · rw [if_neg hx]
      rw [hless] at hx
      have hxp : key x ≤ key p := by simpa using hx
      rw [List.pairwise_cons, List.pairwise_cons]
      refine ⟨fun b hb => ?_, h⟩
      rcases List.mem_cons.1 hb with hbp | hbps
      · rw [hbp]; exact hxp
      · have := h.1 b hbps
        omega

theorem sortSlice_fold_ascending {α : Type} (key : α → Int) (less : α → α → Bool)
    (hless : ∀ a b, less a b = decide (key a > key b)) (l done : List α)
    (h : done.Pairwise (fun a b => key a ≤ key b)) :
    (l.foldl (fun done x => moveLeft less x done) done).Pairwise
      (fun a b => key a ≤ key b) := by
  induction l generalizing done with
  | nil => exact h
  | cons a as ih =>
    rw [List.foldl_cons]
    exact ih _ (moveLeft_ascending key less hless a done h)

theorem sortSlice_descending {α : Type} (key : α → Int) (less : α → α → Bool)
    (hless : ∀ a b, less a b = decide (key a > key b)) (l : List α) :
    (sortSlice less l).Pairwise (fun a b => key b ≤ key a) := by
  unfold sortSlice
  rw [List.pairwise_reverse]
  exact sortSlice_fold_ascending key less hless l [] List.Pairwise.nil

theorem buildTableRanges_fold_lookup (E : String → Interval) (tables : List String)
    (m : IntervalMap) (hm : ∀ k v, m.lookup k = some v → v = E k) (t : String)
    (ht : t ∈ tables ∨ (m.lookup t).isSome = true) :
    (tables.foldl (fun m table => m.assign table (E table)) m).lookup t = some (E t) := by
  induction tables generalizing m with
  | nil =>
    rcases ht with ht | ht
    · simp at ht
    · obtain ⟨v, hv⟩ := Option.isSome_iff_exists.1 ht
      rw [List.foldl_nil, hv, hm t v hv]
  | cons a as ih =>
    rw [List.foldl_cons]
    apply ih
    · intro k v hkv
      unfold IntervalMap.assign at hkv
      rw [List.lookup_cons] at hkv
      by_cases hka : k = a
      · subst hka
        simp at hkv
        exact hkv.symm
      · have : (k == a) = false := by simpa using hka
        rw [this] at hkv
        exact hm k v hkv
    · unfold IntervalMap.assign
      rw [List.lookup_cons]
      by_cases hta : t = a
      · right; subst hta; simp
      · have hb : (t == a) = false := by simpa using hta
        rw [hb]
        rcases ht with ht | ht
        · left
          rcases List.mem_cons.1 ht with h | h
          · exact absurd h hta
          · exact h
        · right; exact ht

/-- Every table of the slice finds its own interval in `tableRanges`. -/
theorem buildTableRanges_index (E : String → Interval) (tables : List String) (t : String)
    (ht : t ∈ tables) : (buildTableRanges E tables).index t = E t := by
  unfold IntervalMap.index buildTableRanges
  rw [buildTableRanges_fold_lookup E tables [] (by simp) t (Or.inl ht)]

/-- C5: for every list of table names, `SortTablesByRange` leaves a permutation
of its input ordered newest first: for all positions `i < j` the start of the
interval extracted from `tables[i]` is not before the start of the interval
extracted from `tables[j]`. -/
theorem SortTablesByRange_newest_first (ExtractIntervalFromTableName : String → Interval)
    (tables : List String) :
    (SortTablesByRange ExtractIntervalFromTableName tables).Perm tables ∧
    ∀ (i j : Fin (SortTablesByRange ExtractIntervalFromTableName tables).length), i < j →
      ¬ ((ExtractIntervalFromTableName
            ((SortTablesByRange ExtractIntervalFromTableName tables).get i)).Start
          < (ExtractIntervalFromTableName
            ((SortTablesByRange ExtractIntervalFromTableName tables).get j)).Start) := by
  have hperm : (SortTablesByRange ExtractIntervalFromTableName tables).Perm tables :=
    sortSlice_perm _ tables
  refine ⟨hperm, ?_⟩
  have hdesc := sortSlice_descending
    (fun t => ((buildTableRanges ExtractIntervalFromTableName tables).index t).Start)
    (fun ti tj => After ((buildTableRanges ExtractIntervalFromTableName tables).index ti).Start
      ((buildTableRanges ExtractIntervalFromTableName tables).index tj).Start)
    (fun a b => rfl) tables
  have hget := List.pairwise_iff_get.1 hdesc
  intro i j hij
  have h := hget i j hij
  have hi : (SortTablesByRange ExtractIntervalFromTableName tables).get i ∈ tables :=
    hperm.subset (List.get_mem _ _ _)
  have hj : (SortTablesByRange ExtractIntervalFromTableName tables).get j ∈ tables :=
    hperm.subset (List.get_mem _ _ _)
  have ei := buildTableRanges_index ExtractIntervalFromTableName tables _ hi
  have ej := buildTableRanges_index ExtractIntervalFromTableName tables _ hj
  unfold SortTablesByRange at ei ej
  simp only at h
  unfold SortTablesByRange
  rw [ei, ej] at h
  omega

/-- C5, at three tables given oldest first: they come out newest first. -/
theorem SortTablesByRange_newest_first_witness :
    SortTablesByRange exampleExtract ["a", "ccc", "bb"] = ["ccc", "bb", "a"] ∧
    (SortTablesByRange exampleExtract ["a", "ccc", "bb"]).Perm ["a", "ccc", "bb"] :=
  ⟨by decide, (SortTablesByRange_newest_first exampleExtract ["a", "ccc", "bb"]).1⟩

/-! ## The leader-election loop: lemmas -/

theorem replicate_set_last (m : Nat) :
    (List.replicate m true ++ [false]).set m true = List.replicate (m + 1) true := by
  induction m with
  | zero => rfl
  | succ n ih =>
    rw [List.replicate_succ, List.cons_append, List.set_cons_succ, ih]
    rfl

theorem replicate_set_true (m k : Nat) :
    (List.replicate m true).set k true = List.replicate m true := by
  induction m generalizing k with
  | zero => rfl
  | succ n ih =>
    cases k with
    | zero => rfl
    | succ j => rw [List.replicate_succ, List.set_cons_succ, ih]

theorem count_false_replicate (m : Nat) : (List.replicate m true).count false = 0 := by
  simp [List.count_replicate]

theorem count_false_replicate_append (m : Nat) :
    (List.replicate m true ++ [false]).count false = 1 := by
  simp [List.count_replicate]

theorem Inv_init : LoopState.init.Inv := by
  unfold LoopState.Inv LoopState.init
  refine ⟨by simp, by simp, Or.inr ⟨Or.inl rfl, rfl, 0, rfl, Or.inl ⟨rfl, rfl⟩⟩⟩

theorem Inv_startRun (drm : Bool) (s : LoopState) (h : s.Inv) (hl : s.phase = .live)
    (hr : s.running = false) : (s.startRun drm).Inv := by
  obtain ⟨h1, h2, h3⟩ := h
  rcases h3 with ⟨hrun, _⟩ | ⟨_, _, m, hm, _⟩
  · rw [hr] at hrun; exact absurd hrun (by simp)
  · refine ⟨h1, h2, Or.inl ⟨rfl, hl, m, ?_, ?_⟩⟩
    · show s.cancelled ++ [false] = _
      rw [hm]
    · show some s.cancelled.length = some m
      rw [hm, List.length_replicate]

theorem Inv_stopRun (s : LoopState) (h : s.Inv) (hl : s.phase = .live)
    (hr : s.running = true) : s.stopRun.Inv := by
  obtain ⟨h1, h2, h3⟩ := h
  rcases h3 with ⟨_, _, m, hm, hrc⟩ | ⟨hrun, _⟩
  · unfold LoopState.stopRun
    rw [hrc]
    refine ⟨h1, h2, Or.inr ⟨Or.inl rfl, rfl, m + 1, ?_, Or.inr ⟨hrc, by omega⟩⟩⟩
    show s.cancelled.set m true = _
    rw [hm, replicate_set_last]
  · rcases hrun with hrun | hrun
    · rw [hr] at hrun; exact absurd hrun (by simp)
    · rw [hl] at hrun; exact absurd hrun (by simp)

theorem Inv_done (s : LoopState) (h : s.Inv) (hc : s.ctxCancelled = true) : s.done.Inv := by
  obtain ⟨_, _, h3⟩ := h
  rcases h3 with ⟨_, _, m, hm, hrc⟩ | ⟨_, _, m, hm, hrc⟩
  · unfold LoopState.done
    rw [hrc]
    refine ⟨by simp, fun _ => hc, Or.inr ⟨Or.inr rfl, rfl, m + 1, ?_, Or.inr ⟨hrc, by omega⟩⟩⟩
    show s.cancelled.set m true = _
    rw [hm, replicate_set_last]
  · unfold LoopState.done
    rcases hrc with ⟨hrc, hm0⟩ | ⟨hrc, hm0⟩
    · rw [hrc]
      exact ⟨by simp, fun _ => hc, Or.inr ⟨Or.inr rfl, rfl, m, hm, Or.inl ⟨rfl, hm0⟩⟩⟩
    · rw [hrc]
      refine ⟨by simp, fun _ => hc, Or.inr ⟨Or.inr rfl, rfl, m, ?_, Or.inr ⟨hrc, hm0⟩⟩⟩
      show s.cancelled.set (m - 1) true = _
      rw [hm, replicate_set_true]

theorem Inv_tick (self : String) (drm : Bool) (s : LoopState) (h : s.Inv)
    (hl : s.phase = .live) (rs : Except String (List String)) :
    (s.tick self drm rs).Inv := by
  unfold LoopState.tick
  split
  · exact h
  · split
    · cases hr : s.running with
      | false => simpa using Inv_startRun drm s h hl hr
      | true => simpa using h
    · cases hr : s.running with
      | false => simpa using h
      | true => simpa using Inv_stopRun s h hl hr
  · exact h

theorem Inv_step (self : String) (drm : Bool) (s : LoopState) (h : s.Inv) (i : LoopInput) :
    (s.step self drm i).Inv := by
  cases i with
  | cancelCtx =>
    obtain ⟨h1, _, h3⟩ := h
    exact ⟨h1, fun _ => rfl, h3⟩
  | selectDone =>
    show (if s.phase = .live ∧ s.ctxCancelled = true then s.done else s).Inv
    split
    · rename_i hc; exact Inv_done s h hc.2
    · exact h
  | selectTick rs =>
    show (if s.phase = .live then s.tick self drm rs else s).Inv
    split
    · rename_i hl; exact Inv_tick self drm s h hl rs
    · exact h

theorem Inv_fold (self : String) (drm : Bool) (inputs : List LoopInput) (s : LoopState)
    (h : s.Inv) : (inputs.foldl (LoopState.step self drm) s).Inv := by
  induction inputs generalizing s with
  | nil => exact h
  | cons i rest ih => exact ih _ (Inv_step self drm s h i)

/-- Every state the loop reaches has the shape `Inv`. -/
theorem Inv_run (self : String) (drm : Bool) (inputs : List LoopInput) :
    (LoopState.run self drm inputs).Inv :=
  Inv_fold self drm inputs _ Inv_init

theorem tick_running_iff (self : String) (drm : Bool) (s : LoopState) (h : s.Inv)
    (hl : s.phase = .live) (a : String) :
    (s.tick self drm (.ok [a])).running = true ↔ self = a := by
  obtain ⟨_, _, h3⟩ := h
  show (if self = a then (if !s.running then s.startRun drm else s)
    else (if s.running then s.stopRun else s)).running = true ↔ self = a
  rcases h3 with ⟨hr, _, m, _, hrc⟩ | ⟨hr, _⟩
  · by_cases hsa : self = a
    · simp [hsa, hr]
    · simp [hsa, hr, LoopState.stopRun, hrc]
  · have hr2 : s.running = false := by
      rcases hr with hr | hr
      · exact hr
      · rw [hl] at hr; exact absurd hr (by simp)
    by_cases hsa : self = a
    · simp [hsa, hr2, LoopState.startRun]
    · simp [hsa, hr2]

theorem tick_error (self : String) (drm : Bool) (s : LoopState) (msg : String) :
    s.step self drm (.selectTick (.error msg)) = s := by
  show (if s.phase = .live then s.tick self drm (.error msg) else s) = s
  split <;> rfl

theorem tick_not_one (self : String) (drm : Bool) (s : LoopState) (addrs : List String)
    (h : addrs.length ≠ 1) : s.step self drm (.selectTick (.ok addrs)) = s := by
  show (if s.phase = .live then s.tick self drm (.ok addrs) else s) = s
  split
  · match addrs, h with
    | [], _ => rfl
    | [_], h => exact absurd rfl h
    | _ :: _ :: _, _ => rfl
  · rfl

theorem liveRuns_le_one (s : LoopState) (h : s.Inv) : s.liveRuns ≤ 1 := by
  obtain ⟨_, _, h3⟩ := h
  unfold LoopState.liveRuns
  split
  · omega
  · rcases h3 with ⟨_, _, m, hm, _⟩ | ⟨_, _, m, hm, _⟩
    · rw [hm, count_false_replicate_append]
    · rw [hm, count_false_replicate]; omega

theorem liveRuns_one_running (s : LoopState) (h : s.Inv) (h1 : s.liveRuns = 1) :
    s.running = true := by
  obtain ⟨_, _, h3⟩ := h
  unfold LoopState.liveRuns at h1
  split at h1
  · omega
  · rcases h3 with ⟨hr, _⟩ | ⟨_, _, m, hm, _⟩
    · exact hr
    · rw [hm, count_false_replicate] at h1; omega

theorem running_liveRuns_one (s : LoopState) (h : s.Inv) (hc : s.ctxCancelled = false)
    (hr : s.running = true) : s.liveRuns = 1 := by
  obtain ⟨h1, h2, h3⟩ := h
  unfold LoopState.liveRuns
  rw [hc]
  rcases h3 with ⟨_, _, m, hm, _⟩ | ⟨hr2, _⟩
  · simp [hm, List.count_replicate]
  · rcases hr2 with hr2 | hr2
    · rw [hr] at hr2; exact absurd hr2 (by simp)
    · have := h2 hr2
      rw [hc] at this
      exact absurd this (by simp)

/-- A step that creates a run context starts from a state that is not running,
in which every earlier run context is cancelled and no task is outstanding. -/
theorem start_only_idle (self : String) (drm : Bool) (s : LoopState) (h : s.Inv)
    (i : LoopInput) (hlen : (s.step self drm i).cancelled.length ≠ s.cancelled.length) :
    s.running = false ∧ s.cancelled.count false = 0 ∧ s.wg = 0 ∧
      (s.step self drm i).events
        = s.events ++ [.startRun s.cancelled.length, .setRunning true] := by
  obtain ⟨_, _, h3⟩ := h
  cases i with
  | cancelCtx => exact absurd rfl hlen
  | selectDone =>
    exfalso
    apply hlen
    show (if s.phase = .live ∧ s.ctxCancelled = true then s.done else s).cancelled.length = _
    split
    · unfold LoopState.done
      split <;> simp [LoopState.cancelAndWait]
    · rfl
  | selectTick rs =>
    have hstep : s.step self drm (.selectTick rs)
        = if s.phase = .live then s.tick self drm rs else s := rfl
    rw [hstep] at hlen ⊢
    by_cases hl : s.phase = .live
    · rw [if_pos hl] at hlen ⊢
      match rs with
      | .error _ => exact absurd rfl hlen
      | .ok [] => exact absurd rfl hlen
      | .ok (_ :: _ :: _) => exact absurd rfl hlen
      | .ok [a] =>
        have htick : s.tick self drm (.ok [a])
            = if self = a then (if !s.running then s.startRun drm else s)
              else (if s.running then s.stopRun else s) := rfl
        rw [htick] at hlen ⊢
        by_cases hsa : self = a
        · rw [if_pos hsa] at hlen ⊢
          cases hr : s.running with
          | true => simp [hr] at hlen
          | false =>
            rcases h3 with ⟨hr2, _⟩ | ⟨_, hwg, m, hm, _⟩
            · rw [hr] at hr2; exact absurd hr2 (by simp)
            · refine ⟨rfl, ?_, hwg, ?_⟩
              · rw [hm, count_false_replicate]
              · simp [LoopState.startRun]
        · rw [if_neg hsa] at hlen
          exfalso
          apply hlen
          split
          · unfold LoopState.stopRun
            split <;> simp [LoopState.cancelAndWait]
          · rfl
    · rw [if_neg hl] at hlen
      exact absurd rfl hlen

/-- Losing leadership while running: the current run context is cancelled, the
tasks are awaited, and only then `running` is set to false. -/
theorem lose_leadership (self : String) (drm : Bool) (s : LoopState) (h : s.Inv)
    (hl : s.phase = .live) (hr : s.running = true) (a : String) (ha : self ≠ a) :
    ∃ k, s.runningCancel = some k ∧ s.cancelled.get? k = some false ∧
      (s.step self drm (.selectTick (.ok [a]))).events
        = s.events ++ [.cancelRun k, .waitTasks, .setRunning false] ∧
      (s.step self drm (.selectTick (.ok [a]))).running = false ∧
      (s.step self drm (.selectTick (.ok [a]))).cancelled.count false = 0 ∧
      (s.step self drm (.selectTick (.ok [a]))).wg = 0 := by
  obtain ⟨_, _, h3⟩ := h
  have hstep : s.step self drm (.selectTick (.ok [a])) = s.stopRun := by
    show (if s.phase = .live then
      (if self = a then (if !s.running then s.startRun drm else s)
        else (if s.running then s.stopRun else s)) else s) = s.stopRun
    rw [if_pos hl, if_neg ha, if_pos hr]
  rw [hstep]
  rcases h3 with ⟨_, _, m, hm, hrc⟩ | ⟨hr2, _⟩
  · refine ⟨m, hrc, ?_, ?_, ?_, ?_, ?_⟩
    · rw [hm]; simp
    · simp [LoopState.stopRun, hrc, LoopState.cancelAndWait]
    · simp [LoopState.stopRun, hrc]
    · simp only [LoopState.stopRun, hrc, LoopState.cancelAndWait]
      rw [hm, replicate_set_last, count_false_replicate]
    · simp [LoopState.stopRun, hrc, LoopState.cancelAndWait]
  · rcases hr2 with hr2 | hr2
    · rw [hr] at hr2; exact absurd hr2 (by simp)
    · rw [hl] at hr2; exact absurd hr2 (by simp)

/-- The service context ends: the current run context, if any, is cancelled and
the tasks are awaited; the loop returns and leaves `running` as it was. -/
theorem service_context_ends (self : String) (drm : Bool) (s : LoopState) (h : s.Inv)
    (hl : s.phase = .live) (hc : s.ctxCancelled = true) :
    (s.step self drm .selectDone).phase = .exited ∧
      (s.step self drm .selectDone).running = s.running ∧
      (s.step self drm .selectDone).cancelled.count false = 0 ∧
      (s.step self drm .selectDone).wg = 0 ∧
      (s.step self drm .selectDone).events
        = s.events ++ (match s.runningCancel with
            | some k => [.cancelRun k, .waitTasks]
            | none => [.waitTasks]) := by
  have hstep : s.step self drm .selectDone = s.done := by
    show (if s.phase = .live ∧ s.ctxCancelled = true then s.done else s) = s.done
    rw [if_pos ⟨hl, hc⟩]
  have hinv := Inv_done s h hc
  rw [hstep]
  obtain ⟨_, _, h3⟩ := hinv
  refine ⟨?_, ?_, ?_, ?_, ?_⟩
  · unfold LoopState.done; split <;> rfl
  · unfold LoopState.done; split <;> rfl
  · rcases h3 with ⟨_, hp, _⟩ | ⟨_, _, m, hm, _⟩
    · exfalso
      have : s.done.phase = .exited := by unfold LoopState.done; split <;> rfl
      rw [this] at hp
      exact absurd hp (by simp)
    · rw [hm, count_false_replicate]
  · unfold LoopState.done; split <;> rfl
  · unfold LoopState.done
    cases hrc : s.runningCancel <;> simp [LoopState.cancelAndWait]

/-! ## The leader-election loop: theorems -/

/-- C6: one tick of the leader-election loop, from any state the live loop can
be in. If the ring lookup for `ringKeyOfLeader` succeeds with exactly one address
`a`, then after the tick the instance is running exactly when its own address is
`a`, whatever it was before; hence of two instances with distinct addresses that
see the same answer at most one is running. If the lookup fails or returns a
number of addresses other than one, the tick leaves the whole state as it was:
the running flag is unchanged and nothing is started or stopped. -/
theorem leader_tick (self : String) (drm : Bool) (inputs : List LoopInput)
    (hlive : (LoopState.run self drm inputs).phase = .live) :
    (∀ a, ((LoopState.run self drm inputs).step self drm (.selectTick (.ok [a]))).running = true
        ↔ self = a) ∧
    (∀ (other : String) (drm2 : Bool) (inputs2 : List LoopInput) (a : String),
      other ≠ self → (LoopState.run other drm2 inputs2).phase = .live →
      ¬ (((LoopState.run self drm inputs).step self drm (.selectTick (.ok [a]))).running = true ∧
          ((LoopState.run other drm2 inputs2).step other drm2
            (.selectTick (.ok [a]))).running = true)) ∧
    (∀ msg, (LoopState.run self drm inputs).step self drm (.selectTick (.error msg))
        = LoopState.run self drm inputs) ∧
    (∀ addrs, addrs.length ≠ 1 →
      (LoopState.run self drm inputs).step self drm (.selectTick (.ok addrs))
        = LoopState.run self drm inputs) := by
  have key : ∀ (me : String) (d : Bool) (ins : List LoopInput) (a : String),
      (LoopState.run me d ins).phase = .live →
      (((LoopState.run me d ins).step me d (.selectTick (.ok [a]))).running = true ↔ me = a) := by
    intro me d ins a hl
    have hstep : (LoopState.run me d ins).step me d (.selectTick (.ok [a]))
        = (LoopState.run me d ins).tick me d (.ok [a]) := by
      show (if (LoopState.run me d ins).phase = .live then _ else _) = _
      rw [if_pos hl]
    rw [hstep]
    exact tick_running_iff me d _ (Inv_run me d ins) hl a
  refine ⟨fun a => key self drm inputs a hlive, ?_, fun msg => tick_error self drm _ msg,
    fun addrs h => tick_not_one self drm _ addrs h⟩
  intro other drm2 inputs2 a hne hl2 hboth
  have h1 := (key self drm inputs a hlive).1 hboth.1
  have h2 := (key other drm2 inputs2 a hl2).1 hboth.2
  exact hne (h2.trans h1.symm)

/-- C6, at an instance `a` that has just been told `b` leads: told that `a`
leads, it runs. -/
theorem leader_tick_witness :
    (LoopState.run "a" true [.selectTick (.ok ["b"])]).phase = .live ∧
    ((LoopState.run "a" true [.selectTick (.ok ["b"])]).step "a" true
      (.selectTick (.ok ["a"]))).running = true :=
  ⟨by decide, ((leader_tick "a" true [.selectTick (.ok ["b"])] (by decide)).1 "a").2 rfl⟩

/-- C7, as stated, fails: after a tick that makes the instance leader, the
cancellation of the service context and the loop's `<-ctx.Done()` round, the run
context is cancelled and the loop has returned, but `running` is still true;
and already between the cancellation and that round the live loop is running
with no run context left un-cancelled. -/
theorem running_without_live_run :
    ((LoopState.run "a" true [.selectTick (.ok ["a"]), .cancelCtx, .selectDone]).running = true ∧
      (LoopState.run "a" true [.selectTick (.ok ["a"]), .cancelCtx, .selectDone]).cancelled
        = [true] ∧
      (LoopState.run "a" true [.selectTick (.ok ["a"]), .cancelCtx, .selectDone]).liveRuns = 0) ∧
    ((LoopState.run "a" true [.selectTick (.ok ["a"]), .cancelCtx]).phase = .live ∧
      (LoopState.run "a" true [.selectTick (.ok ["a"]), .cancelCtx]).running = true ∧
      (LoopState.run "a" true [.selectTick (.ok ["a"]), .cancelCtx]).liveRuns = 0) := by
  decide

/-- C7, amended: in every state the leader-election loop reaches there is at
most one un-cancelled run context, an un-cancelled run context implies that
`running` is true, and as long as the service context is not cancelled there is
one exactly when `running` is true. A run is started only when `running` is
false, every earlier run context being cancelled and its tasks awaited. When the
instance loses leadership the current run context is cancelled and its tasks are
awaited before `running` becomes false. When the service context ends the
current run context is cancelled and its tasks are awaited, the loop returns,
and `running` keeps its value. The loop never calls a nil cancel function. -/
theorem run_contexts (self : String) (drm : Bool) (inputs : List LoopInput) :
    (LoopState.run self drm inputs).phase ≠ .panicked ∧
    (LoopState.run self drm inputs).liveRuns ≤ 1 ∧
    ((LoopState.run self drm inputs).liveRuns = 1 →
      (LoopState.run self drm inputs).running = true) ∧
    ((LoopState.run self drm inputs).ctxCancelled = false →
      ((LoopState.run self drm inputs).liveRuns = 1 ↔
        (LoopState.run self drm inputs).running = true)) ∧
    (∀ i, ((LoopState.run self drm inputs).step self drm i).cancelled.length
        ≠ (LoopState.run self drm inputs).cancelled.length →
      (LoopState.run self drm inputs).running = false ∧
      (LoopState.run self drm inputs).cancelled.count false = 0 ∧
      (LoopState.run self drm inputs).wg = 0 ∧
      ((LoopState.run self drm inputs).step self drm i).events
        = (LoopState.run self drm inputs).events
          ++ [.startRun (LoopState.run self drm inputs).cancelled.length, .setRunning true]) ∧
    (∀ a, (LoopState.run self drm inputs).phase = .live →
      (LoopState.run self drm inputs).running = true → self ≠ a →
      ∃ k, (LoopState.run self drm inputs).runningCancel = some k ∧
        (LoopState.run self drm inputs).cancelled.get? k = some false ∧
        ((LoopState.run self drm inputs).step self drm (.selectTick (.ok [a]))).events
          = (LoopState.run self drm inputs).events
            ++ [.cancelRun k, .waitTasks, .setRunning false] ∧
        ((LoopState.run self drm inputs).step self drm (.selectTick (.ok [a]))).running = false ∧
        ((LoopState.run self drm inputs).step self drm
          (.selectTick (.ok [a]))).cancelled.count false = 0 ∧
        ((LoopState.run self drm inputs).step self drm (.selectTick (.ok [a]))).wg = 0) ∧
    ((LoopState.run self drm inputs).phase = .live →
      (LoopState.run self drm inputs).ctxCancelled = true →
      ((LoopState.run self drm inputs).step self drm .selectDone).phase = .exited ∧
      ((LoopState.run self drm inputs).step self drm .selectDone).running
        = (LoopState.run self drm inputs).running ∧
      ((LoopState.run self drm inputs).step self drm .selectDone).cancelled.count false = 0 ∧
      ((LoopState.run self drm inputs).step self drm .selectDone).wg = 0 ∧
      ((LoopState.run self drm inputs).step self drm .selectDone).events
        = (LoopState.run self drm inputs).events
          ++ (match (LoopState.run self drm inputs).runningCancel with
              | some k => [.cancelRun k, .waitTasks]
              | none => [.waitTasks])) := by
  have hinv := Inv_run self drm inputs
  refine ⟨hinv.1, liveRuns_le_one _ hinv, liveRuns_one_running _ hinv,
    fun hc => ⟨liveRuns_one_running _ hinv, running_liveRuns_one _ hinv hc⟩,
    fun i hlen => start_only_idle self drm _ hinv i hlen,
    fun a hl hr ha => lose_leadership self drm _ hinv hl hr a ha,
    fun hl hc => service_context_ends self drm _ hinv hl hc⟩

/-- C7 amended, at an instance `a` that runs and is then told `b` leads: run
context 0 is cancelled, the tasks are awaited, then `running` is cleared. -/
theorem run_contexts_witness :
    ((LoopState.run "a" true [.selectTick (.ok ["a"])]).step "a" true
      (.selectTick (.ok ["b"]))).events
      = [.startRun 0, .setRunning true, .cancelRun 0, .waitTasks, .setRunning false] ∧
    ((LoopState.run "a" true [.selectTick (.ok ["a"])]).step "a" true
      (.selectTick (.ok ["b"]))).running = false := by
  obtain ⟨k, hk, _, hev, hrun, _, _⟩ :=
    (run_contexts "a" true [.selectTick (.ok ["a"])]).2.2.2.2.2.1 "b"
      (by decide) (by decide) (by decide)
  have hk0 : k = 0 := by
    have h0 : (LoopState.run "a" true [.selectTick (.ok ["a"])]).runningCancel = some 0 := by
      decide
    rw [h0] at hk
    exact (Option.some.inj hk).symm
  subst hk0
  exact ⟨hev, hrun⟩

/-! ## Ring registration: theorems -/

theorem exampleGenerateTokens_generator : TokenGenerator exampleGenerateTokens := by
  intro n taken
  simp [exampleGenerateTokens]

/-- C10, as stated, fails: an instance that is already in the ring with two
tokens is registered with both of them, not with exactly one. -/
theorem OnRingInstanceRegister_two_tokens :
    TokenGenerator exampleGenerateTokens ∧
    OnRingInstanceRegister exampleGenerateTokens ⟨[("c-1", ⟨"c-1:9095", .ACTIVE, [1, 2]⟩)]⟩
        true ⟨"c-1:9095", .ACTIVE, [1, 2]⟩ = (.JOINING, [1, 2]) ∧
    (OnRingInstanceRegister exampleGenerateTokens ⟨[("c-1", ⟨"c-1:9095", .ACTIVE, [1, 2]⟩)]⟩
        true ⟨"c-1:9095", .ACTIVE, [1, 2]⟩).2.length ≠ 1 :=
  ⟨exampleGenerateTokens_generator, by decide, by decide⟩

/-- C10, amended: for every ring descriptor and every instance descriptor,
`OnRingInstanceRegister` returns the state JOINING and a token list that, when
the instance already exists, starts with the instance's existing tokens. The
list holds exactly one token (`ringNumTokens = 1`) when the instance does not
exist or holds at most one token; an existing instance with more tokens keeps
exactly those. -/
theorem OnRingInstanceRegister_tokens (GenerateTokens : Int → List Nat → List Nat)
    (hgen : TokenGenerator GenerateTokens) (ringDesc : Desc) (instanceExists : Bool)
    (instanceDesc : InstanceDesc) :
    (OnRingInstanceRegister GenerateTokens ringDesc instanceExists instanceDesc).1 = .JOINING ∧
    (instanceExists = false →
      (OnRingInstanceRegister GenerateTokens ringDesc instanceExists instanceDesc).2.length
        = 1) ∧
    (instanceExists = true →
      instanceDesc.Tokens <+:
          (OnRingInstanceRegister GenerateTokens ringDesc instanceExists instanceDesc).2 ∧
        (instanceDesc.Tokens.length ≤ 1 →
          (OnRingInstanceRegister GenerateTokens ringDesc instanceExists instanceDesc).2.length
            = 1) ∧
        (1 < instanceDesc.Tokens.length →
          (OnRingInstanceRegister GenerateTokens ringDesc instanceExists instanceDesc).2
            = instanceDesc.Tokens)) := by
  refine ⟨rfl, fun hex => ?_, fun hex => ⟨?_, fun hle => ?_, fun hlt => ?_⟩⟩
  · subst hex
    simp [OnRingInstanceRegister, hgen _ _, ringNumTokens]
  · subst hex
    exact ⟨_, rfl⟩
  · subst hex
    simp only [OnRingInstanceRegister, if_true, List.length_append, hgen _ _, ringNumTokens]
    omega
  · subst hex
    have h0 : GenerateTokens (ringNumTokens - (instanceDesc.Tokens.length : Int))
        ringDesc.GetTokens = [] := by
      apply List.eq_nil_of_length_eq_zero
      rw [hgen]
      unfold ringNumTokens
      omega
    simp [OnRingInstanceRegister, h0]

/-- C10 amended, at a new instance joining a ring that holds tokens 5 and 9: it
is registered JOINING with the one token 10. -/
theorem OnRingInstanceRegister_tokens_witness :
    TokenGenerator exampleGenerateTokens ∧
    (OnRingInstanceRegister exampleGenerateTokens ⟨[("c-0", ⟨"c-0:9095", .ACTIVE, [5, 9]⟩)]⟩
        false ⟨"c-1:9095", .PENDING, []⟩).2.length = 1 :=
  ⟨exampleGenerateTokens_generator,
    (OnRingInstanceRegister_tokens exampleGenerateTokens exampleGenerateTokens_generator
      ⟨[("c-0", ⟨"c-0:9095", .ACTIVE, [5, 9]⟩)]⟩ false ⟨"c-1:9095", .PENDING, []⟩).2.1 rfl⟩

end compactor

/-! # Theorems: merging logs tables -/

namespace logs

open dataset (Value Row)

/-! ## compareRows -/

theorem Compare_neg (x y : Int) : Compare y x = -Compare x y := by
  unfold Compare
  split_ifs <;> omega

theorem Compare_lt_zero (x y : Int) : Compare x y < 0 ↔ x < y := by
  unfold Compare
  split_ifs <;> omega

theorem Compare_eq_zero (x y : Int) : Compare x y = 0 ↔ x = y := by
  unfold Compare
  split_ifs <;> constructor <;> intro h <;> first | omega | exact h.elim

theorem Compare_le_zero (x y : Int) : Compare x y ≤ 0 ↔ x ≤ y := by
  unfold Compare
  split_ifs <;> omega

/-- On table rows `compareRows` never panics, and its result is computed from
the two timestamps and the two stream IDs. -/
theorem compareRows_keyed (a b : KeyedRow) :
    compareRows a.toRow b.toRow
      = some (if Compare b.Timestamp a.Timestamp ≠ 0 then Compare b.Timestamp a.Timestamp
          else Compare a.StreamID b.StreamID) := by
  unfold compareRows KeyedRow.toRow
  simp only [List.get?_cons_zero, List.get?_cons_succ, Value.Int64]
  split <;> rfl

theorem rowLE_iff (a b : KeyedRow) :
    rowLE a b ↔ (b.Timestamp < a.Timestamp ∨
      (a.Timestamp = b.Timestamp ∧ a.StreamID ≤ b.StreamID)) := by
  unfold rowLE
  rw [compareRows_keyed]
  have h1 := Compare_lt_zero b.Timestamp a.Timestamp
  have h2 := Compare_eq_zero b.Timestamp a.Timestamp
  have h3 := Compare_le_zero a.StreamID b.StreamID
  constructor
  · rintro ⟨res, hres, hle⟩
    have hres := (Option.some.inj hres).symm
    by_cases h0 : Compare b.Timestamp a.Timestamp = 0
    · rw [if_neg (by simpa using h0)] at hres
      right
      exact ⟨(h2.1 h0).symm, h3.1 (hres ▸ hle)⟩
    · rw [if_pos h0] at hres
      left
      apply h1.1
      rw [hres] at hle
      omega
  · rintro (h | ⟨h, h'⟩)
    · have hlt := h1.2 h
      exact ⟨_, rfl, by rw [if_pos (by omega)]; omega⟩
    · have h0 := h2.2 h.symm
      exact ⟨_, rfl, by rw [if_neg (by simpa using h0)]; exact h3.2 h'⟩

theorem rowLess_iff (a b : KeyedRow) :
    rowLess a b = true ↔ (b.Timestamp < a.Timestamp ∨
      (a.Timestamp = b.Timestamp ∧ a.StreamID < b.StreamID)) := by
  unfold rowLess
  rw [compareRows_keyed]
  have h1 := Compare_lt_zero b.Timestamp a.Timestamp
  have h2 := Compare_eq_zero b.Timestamp a.Timestamp
  have h3 := Compare_lt_zero a.StreamID b.StreamID
  simp only [decide_eq_true_eq]
  by_cases h0 : Compare b.Timestamp a.Timestamp = 0
  · rw [if_neg (by simpa using h0)]
    have := h2.1 h0
    constructor
    · intro h; right; exact ⟨this.symm, h3.1 h⟩
    · rintro (h | ⟨_, h⟩)
      · omega
      · exact h3.2 h
  · rw [if_pos h0]
    have hne : b.Timestamp ≠ a.Timestamp := fun h => h0 (h2.2 h)
    constructor
    · intro h; left; exact h1.1 h
    · rintro (h | ⟨h, _⟩)
      · exact h1.2 h
      · exact absurd h.symm hne

theorem rowLE_trans (a b c : KeyedRow) (hab : rowLE a b) (hbc : rowLE b c) : rowLE a c := by
  rw [rowLE_iff] at *
  omega

theorem rowLE_total (a b : KeyedRow) : rowLE a b ∨ rowLE b a := by
  rw [rowLE_iff, rowLE_iff]
  omega

theorem rowLE_of_not_rowLess (a b : KeyedRow) (h : ¬ rowLess a b = true) : rowLE b a := by
  rw [rowLess_iff] at h
  rw [rowLE_iff]
  omega

theorem rowLE_of_rowLess (a b : KeyedRow) (h : rowLess a b = true) : rowLE a b := by
  rw [rowLess_iff] at h
  rw [rowLE_iff]
  omega

/-- Only the first two values of each row reach `compareRows`. -/
theorem compareRows_take_two (a b : Row) :
    compareRows a b = compareRows ⟨0, a.Values.take 2⟩ ⟨0, b.Values.take 2⟩ := by
  obtain ⟨ia, va⟩ := a
  obtain ⟨ib, vb⟩ := b
  unfold compareRows
  match va, vb with
  | [], _ => simp
  | [_], [] => simp
  | [_], [_] => simp
  | [_], _ :: _ :: _ => simp
  | _ :: _ :: _, [] => simp
  | _ :: _ :: _, [_] => simp
  | _ :: _ :: _, _ :: _ :: _ => simp

/-- C20: `compareRows(a, b)` depends only on the first two columns of each row.
On rows whose first two columns are the `int64` stream ID and timestamp it
orders by timestamp descending, then stream ID ascending: it is negative iff
`a`'s timestamp is greater than `b`'s, or the timestamps are equal and `a`'s
stream ID is smaller; zero iff both columns are equal; `compareRows(b, a)` is the
negation of `compareRows(a, b)`; and the order is total and transitive. -/
theorem compareRows_total_preorder (a b c : KeyedRow) :
    (∀ x y x1 y1 : Row, x.Values.take 2 = x1.Values.take 2 →
      y.Values.take 2 = y1.Values.take 2 → compareRows x y = compareRows x1 y1) ∧
    (∃ res, compareRows a.toRow b.toRow = some res ∧
      (res < 0 ↔ (a.Timestamp > b.Timestamp ∨
        (a.Timestamp = b.Timestamp ∧ a.StreamID < b.StreamID))) ∧
      (res = 0 ↔ (a.StreamID = b.StreamID ∧ a.Timestamp = b.Timestamp)) ∧
      compareRows b.toRow a.toRow = some (-res)) ∧
    (rowLE a b ∨ rowLE b a) ∧
    (rowLE a b → rowLE b c → rowLE a c) := by
  refine ⟨?_, ?_, rowLE_total a b, rowLE_trans a b c⟩
  · intro x y x1 y1 hx hy
    rw [compareRows_take_two x y, compareRows_take_two x1 y1, hx, hy]
  · refine ⟨_, compareRows_keyed a b, ?_, ?_, ?_⟩
    · have h1 := Compare_lt_zero b.Timestamp a.Timestamp
      have h2 := Compare_eq_zero b.Timestamp a.Timestamp
      have h3 := Compare_lt_zero a.StreamID b.StreamID
      by_cases h0 : Compare b.Timestamp a.Timestamp = 0
      · rw [if_neg (by simpa using h0)]
        have := h2.1 h0
        constructor
        · intro h; right; exact ⟨this.symm, h3.1 h⟩
        · rintro (h | ⟨_, h⟩)
          · omega
          · exact h3.2 h
      · rw [if_pos h0]
        have hne : b.Timestamp ≠ a.Timestamp := fun h => h0 (h2.2 h)
        constructor
        · intro h; left; exact h1.1 h
        · rintro (h | ⟨h, _⟩)
          · exact h1.2 h
          · exact absurd h.symm hne
    · have h2 := Compare_eq_zero b.Timestamp a.Timestamp
      have h3 := Compare_eq_zero a.StreamID b.StreamID
      by_cases h0 : Compare b.Timestamp a.Timestamp = 0
      · rw [if_neg (by simpa using h0)]
        have := h2.1 h0
        constructor
        · intro h; exact ⟨h3.1 h, this.symm⟩
        · rintro ⟨h, _⟩; exact h3.2 h
      · rw [if_pos h0]
        constructor
        · intro h; exact absurd h h0
        · rintro ⟨_, h⟩; exact absurd (h2.2 h.symm) h0
    · rw [compareRows_keyed b a, Compare_neg b.Timestamp a.Timestamp,
        Compare_neg b.StreamID a.StreamID]
      by_cases h0 : Compare b.Timestamp a.Timestamp = 0
      · simp [h0]
      · have : -Compare b.Timestamp a.Timestamp ≠ 0 := by omega
        simp [h0]

end logs

namespace logs

/-! ## The k-way merge -/

theorem rowLE_refl (a : KeyedRow) : rowLE a a := by
  rw [rowLE_iff]
  omega

theorem popWinner_none (seqs : List (List KeyedRow)) (h : popWinner seqs = none) :
    seqs.flatten = [] := by
  induction seqs with
  | nil => rfl
  | cons s rest ih =>
    cases s with
    | nil =>
      unfold popWinner at h
      cases hp : popWinner rest with
      | none => simpa using ih hp
      | some p => rw [hp] at h; simp at h
    | cons x xs =>
      unfold popWinner at h
      cases hp : popWinner rest with
      | none => rw [hp] at h; simp at h
      | some p =>
        rw [hp] at h
        dsimp only at h
        split at h <;> simp at h

/-- The winner and what is left are a rearrangement of the rows, one row fewer. -/
theorem popWinner_perm (seqs : List (List KeyedRow)) (r : KeyedRow)
    (seqs1 : List (List KeyedRow)) (h : popWinner seqs = some (r, seqs1)) :
    (r :: seqs1.flatten).Perm seqs.flatten ∧
      (seqs1.map List.length).sum + 1 = (seqs.map List.length).sum := by
  induction seqs generalizing r seqs1 with
  | nil => simp [popWinner] at h
  | cons s rest ih =>
    cases s with
    | nil =>
      unfold popWinner at h
      cases hp : popWinner rest with
      | none => rw [hp] at h; simp at h
      | some p =>
        obtain ⟨r0, rest1⟩ := p
        rw [hp] at h
        simp only [Option.some.injEq, Prod.mk.injEq] at h
        obtain ⟨hr, hs⟩ := h
        subst hr; subst hs
        have := ih r0 rest1 hp
        simpa using this
    | cons x xs =>
      unfold popWinner at h
      cases hp : popWinner rest with
      | none =>
        rw [hp] at h
        simp only [Option.some.injEq, Prod.mk.injEq] at h
        obtain ⟨hr, hs⟩ := h
        subst hr; subst hs
        simp
        omega
      | some p =>
        obtain ⟨r0, rest1⟩ := p
        rw [hp] at h
        dsimp only at h
        have ih0 := ih r0 rest1 hp
        split at h
        · simp only [Option.some.injEq, Prod.mk.injEq] at h
          obtain ⟨hr, hs⟩ := h
          subst hr; subst hs
          refine ⟨?_, ?_⟩
          · simp only [List.flatten_cons]
            have h1 : (r0 :: (x :: xs ++ rest1.flatten)).Perm
                ((x :: xs) ++ r0 :: rest1.flatten) := List.perm_middle.symm
            exact h1.trans (List.Perm.append_left _ ih0.1)
          · simp only [List.map_cons, List.sum_cons, List.length_cons]
            omega
        · simp only [Option.some.injEq, Prod.mk.injEq] at h
          obtain ⟨hr, hs⟩ := h
          subst hr; subst hs
          simp
          omega

theorem popWinner_sorted (seqs : List (List KeyedRow)) (r : KeyedRow)
    (seqs1 : List (List KeyedRow)) (h : popWinner seqs = some (r, seqs1))
    (hs : ∀ s ∈ seqs, SortedRows s) : ∀ s ∈ seqs1, SortedRows s := by
  induction seqs generalizing r seqs1 with
  | nil => simp [popWinner] at h
  | cons s rest ih =>
    have hrest : ∀ s ∈ rest, SortedRows s := fun s hs1 => hs s (List.mem_cons_of_mem _ hs1)
    cases s with
    | nil =>
      unfold popWinner at h
      cases hp : popWinner rest with
      | none => rw [hp] at h; simp at h
      | some p =>
        obtain ⟨r0, rest1⟩ := p
        rw [hp] at h
        simp only [Option.some.injEq, Prod.mk.injEq] at h
        obtain ⟨hr, hs1⟩ := h
        subst hr; subst hs1
        intro s hs2
        rcases List.mem_cons.1 hs2 with h0 | h0
        · rw [h0]; exact List.Pairwise.nil
        · exact ih r0 rest1 hp hrest s h0
    | cons x xs =>
      have hx : SortedRows (x :: xs) := hs _ (List.mem_cons_self _ _)
      have hxs : SortedRows xs := (List.pairwise_cons.1 hx).2
      unfold popWinner at h
      cases hp : popWinner rest with
      | none =>
        rw [hp] at h
        simp only [Option.some.injEq, Prod.mk.injEq] at h
        obtain ⟨hr, hs1⟩ := h
        subst hr; subst hs1
        intro s hs2
        rcases List.mem_cons.1 hs2 with h0 | h0
        · rw [h0]; exact hxs
        · exact hrest s h0
      | some p =>
        obtain ⟨r0, rest1⟩ := p
        rw [hp] at h
        dsimp only at h
        split at h
        · simp only [Option.some.injEq, Prod.mk.injEq] at h
          obtain ⟨hr, hs1⟩ := h
          subst hr; subst hs1
          intro s hs2
          rcases List.mem_cons.1 hs2 with h0 | h0
          · rw [h0]; exact hx
          · exact ih r0 rest1 hp hrest s h0
        · simp only [Option.some.injEq, Prod.mk.injEq] at h
          obtain ⟨hr, hs1⟩ := h
          subst hr; subst hs1
          intro s hs2
          rcases List.mem_cons.1 hs2 with h0 | h0
          · rw [h0]; exact hxs
          · exact hrest s h0

/-- The winner is not after any row that is still to come. -/
theorem popWinner_least (seqs : List (List KeyedRow)) (r : KeyedRow)
    (seqs1 : List (List KeyedRow)) (h : popWinner seqs = some (r, seqs1))
    (hs : ∀ s ∈ seqs, SortedRows s) : ∀ y ∈ seqs.flatten, rowLE r y := by
  induction seqs generalizing r seqs1 with
  | nil => simp [popWinner] at h
  | cons s rest ih =>
    have hrest : ∀ s ∈ rest, SortedRows s := fun s hs1 => hs s (List.mem_cons_of_mem _ hs1)
    cases s with
    | nil =>
      unfold popWinner at h
      cases hp : popWinner rest with
      | none => rw [hp] at h; simp at h
      | some p =>
        obtain ⟨r0, rest1⟩ := p
        rw [hp] at h
        simp only [Option.some.injEq, Prod.mk.injEq] at h
        obtain ⟨hr, hs1⟩ := h
        subst hr; subst hs1
        simpa using ih r0 rest1 hp hrest
    | cons x xs =>
      have hx : SortedRows (x :: xs) := hs _ (List.mem_cons_self _ _)
      have hxall : ∀ y ∈ x :: xs, rowLE x y := by
        intro y hy
        rcases List.mem_cons.1 hy with h0 | h0
        · rw [h0]; exact rowLE_refl x
        · exact (List.pairwise_cons.1 hx).1 y h0
      unfold popWinner at h
      cases hp : popWinner rest with
      | none =>
        rw [hp] at h
        simp only [Option.some.injEq, Prod.mk.injEq] at h
        obtain ⟨hr, hs1⟩ := h
        subst hr; subst hs1
        intro y hy
        rw [List.flatten_cons, popWinner_none rest hp, List.append_nil] at hy
        exact hxall y hy
      | some p =>
        obtain ⟨r0, rest1⟩ := p
        rw [hp] at h
        dsimp only at h
        have ih0 := ih r0 rest1 hp hrest
        split at h
        · rename_i hless
          simp only [Option.some.injEq, Prod.mk.injEq] at h
          obtain ⟨hr, hs1⟩ := h
          subst hr; subst hs1
          intro y hy
          rw [List.flatten_cons] at hy
          rcases List.mem_append.1 hy with h0 | h0
          · exact rowLE_trans _ _ _ (rowLE_of_rowLess _ _ hless) (hxall y h0)
          · exact ih0 y h0
        · rename_i hless
          simp only [Option.some.injEq, Prod.mk.injEq] at h
          obtain ⟨hr, hs1⟩ := h
          subst hr; subst hs1
          intro y hy
          rw [List.flatten_cons] at hy
          rcases List.mem_append.1 hy with h0 | h0
          · exact hxall y h0
          · exact rowLE_trans _ _ _ (rowLE_of_not_rowLess _ _ hless) (ih0 y h0)

theorem flatten_nil_of_sum_zero (seqs : List (List KeyedRow))
    (h : (seqs.map List.length).sum = 0) : seqs.flatten = [] := by
  induction seqs with
  | nil => rfl
  | cons s rest ih =>
    simp only [List.map_cons, List.sum_cons] at h
    have hs : s = [] := List.eq_nil_of_length_eq_zero (by omega)
    rw [List.flatten_cons, hs, ih (by omega)]
    rfl

/-- With enough fuel the merge loop gives all rows, in order. -/
theorem mergeRows_sorted_perm (fuel : Nat) (seqs : List (List KeyedRow))
    (hf : (seqs.map List.length).sum ≤ fuel) (hs : ∀ s ∈ seqs, SortedRows s) :
    (mergeRows fuel seqs).Perm seqs.flatten ∧ SortedRows (mergeRows fuel seqs) := by
  induction fuel generalizing seqs with
  | zero =>
    rw [flatten_nil_of_sum_zero seqs (by omega)]
    exact ⟨List.Perm.refl _, List.Pairwise.nil⟩
  | succ n ih =>
    unfold mergeRows
    cases hp : popWinner seqs with
    | none =>
      rw [popWinner_none seqs hp]
      exact ⟨List.Perm.refl _, List.Pairwise.nil⟩
    | some p =>
      obtain ⟨r, seqs1⟩ := p
      obtain ⟨hperm, hsum⟩ := popWinner_perm seqs r seqs1 hp
      have hsorted1 := popWinner_sorted seqs r seqs1 hp hs
      have hleast := popWinner_least seqs r seqs1 hp hs
      obtain ⟨ihp, ihs⟩ := ih seqs1 (by omega) hsorted1
      refine ⟨(List.Perm.cons r ihp).trans hperm, ?_⟩
      unfold SortedRows
      rw [List.pairwise_cons]
      refine ⟨fun y hy => ?_, ihs⟩
      apply hleast y
      exact hperm.subset (List.mem_cons_of_mem _ (ihp.subset hy))

theorem kWayMerge_sorted_perm (seqs : List (List KeyedRow))
    (hs : ∀ s ∈ seqs, SortedRows s) :
    (kWayMerge seqs).Perm seqs.flatten ∧ SortedRows (kWayMerge seqs) :=
  mergeRows_sorted_perm _ seqs (Nat.le_refl _) hs

theorem kWayMerge_perm (seqs : List (List KeyedRow)) :
    (kWayMerge seqs).Perm seqs.flatten := by
  have key : ∀ (fuel : Nat) (seqs : List (List KeyedRow)),
      (seqs.map List.length).sum ≤ fuel → (mergeRows fuel seqs).Perm seqs.flatten := by
    intro fuel
    induction fuel with
    | zero =>
      intro seqs hf
      rw [flatten_nil_of_sum_zero seqs (by omega)]
      exact List.Perm.refl _
    | succ n ih =>
      intro seqs hf
      unfold mergeRows
      cases hp : popWinner seqs with
      | none => rw [popWinner_none seqs hp]
      | some p =>
        obtain ⟨r, seqs1⟩ := p
        obtain ⟨hperm, hsum⟩ := popWinner_perm seqs r seqs1 hp
        exact (List.Perm.cons r (ih seqs1 (by omega))).trans hperm
  exact key _ seqs (Nat.le_refl _)

end logs

namespace logs

/-! ## mergeTables and mergeTablesIncremental -/

theorem mergeTables_not_panic (tables : List table) (msg : String) :
    (mergeTables tables).1 ≠ .panic msg := by
  unfold mergeTables
  split <;> simp

theorem mergeTables_ok (tables : List table) (h : ∀ t ∈ tables, t.readErr = none) :
    mergeTables tables
      = (.ok { rows := kWayMerge (tables.map (fun t => t.rows)), readErr := none },
          .reset :: tables.map (fun _ => .read) ++ [.flush]) := by
  unfold mergeTables
  have hfind : tables.find? (fun t => t.readErr.isSome) = none := by
    rw [List.find?_eq_none]
    intro t ht
    simp [h t ht]
  rw [hfind]

theorem mergeTables_ok_rows (tables : List table) (t : table) (ev : List BufEvent)
    (h : mergeTables tables = (.ok t, ev)) :
    t.readErr = none ∧ t.rows = kWayMerge (tables.map (fun t => t.rows)) := by
  unfold mergeTables at h
  split at h
  · simp at h
  · simp only [Prod.mk.injEq, Outcome.ok.injEq] at h
    rw [← h.1]
    exact ⟨rfl, rfl⟩

/-- What a round that ends well leaves: fewer tables, none of them unreadable,
holding the same rows, each sorted if the tables it merged were. -/
theorem mergeRound_ok_spec (m : Nat) (hm : 1 ≤ m) (fuel : Nat) (tables out : List table)
    (ev : List BufEvent) (h : mergeRound m fuel tables = (.ok out, ev)) :
    (tables = [] → out = []) ∧
    (tables ≠ [] → out ≠ [] ∧ out.length ≤ 1 + (tables.length - m)) ∧
    (∀ t ∈ out, t.readErr = none) ∧
    ((out.map (fun t => t.rows)).flatten).Perm ((tables.map (fun t => t.rows)).flatten) ∧
    ((∀ t ∈ tables, SortedRows t.rows) → ∀ t ∈ out, SortedRows t.rows) := by
  induction fuel generalizing tables out ev with
  | zero => simp [mergeRound] at h
  | succ n ih =>
    unfold mergeRound at h
    by_cases h0 : tables.length = 0
    · rw [if_pos h0] at h
      simp only [Prod.mk.injEq, Outcome.ok.injEq] at h
      have ht : tables = [] := List.eq_nil_of_length_eq_zero h0
      subst ht
      rw [← h.1]
      simp
    · rw [if_neg h0] at h
      have hne : tables ≠ [] := fun hc => h0 (by rw [hc]; rfl)
      cases hmt : mergeTables (tables.take m) with
      | mk o1 ev1 =>
        rw [hmt] at h
        cases o1 with
        | error err => simp at h
        | panic msg => simp at h
        | ok merged =>
          dsimp only at h
          cases hrec : mergeRound m n (tables.drop m) with
          | mk o2 ev2 =>
            rw [hrec] at h
            cases o2 with
            | error err => simp at h
            | panic msg => simp at h
            | ok out2 =>
              simp only [Prod.mk.injEq, Outcome.ok.injEq] at h
              obtain ⟨hout, _⟩ := h
              subst hout
              obtain ⟨i1, i2, i3, i4, i5⟩ := ih (tables.drop m) out2 ev2 hrec
              obtain ⟨m1, m2⟩ := mergeTables_ok_rows _ _ _ hmt
              refine ⟨fun hc => absurd hc hne, fun _ => ⟨by simp, ?_⟩, ?_, ?_, ?_⟩
              · by_cases hd : tables.drop m = []
                · rw [i1 hd]
                  simp
                · have := (i2 hd).2
                  rw [List.length_drop] at this
                  have hpos : 0 < (tables.drop m).length := List.length_pos.2 hd
                  rw [List.length_drop] at hpos
                  simp only [List.length_cons]
                  omega
              · intro t ht
                rcases List.mem_cons.1 ht with h1 | h1
                · rw [h1]; exact m1
                · exact i3 t h1
              · simp only [List.map_cons, List.flatten_cons]
                rw [m2]
                have hsplit : (tables.map (fun t => t.rows)).flatten
                    = ((tables.take m).map (fun t => t.rows)).flatten
                      ++ ((tables.drop m).map (fun t => t.rows)).flatten := by
                  rw [← List.flatten_append, ← List.map_append, List.take_append_drop]
                rw [hsplit]
                exact List.Perm.append (kWayMerge_perm _) i4
              · intro hs t ht
                rcases List.mem_cons.1 ht with h1 | h1
                · rw [h1]
                  show SortedRows merged.rows
                  rw [m2]
                  apply (kWayMerge_sorted_perm _ _).2
                  intro s hs1
                  obtain ⟨t0, ht0, rfl⟩ := List.mem_map.1 hs1
                  exact hs t0 (List.mem_of_mem_take ht0)
                · exact i5 (fun t0 ht0 => hs t0 (List.mem_of_mem_drop ht0)) t h1

theorem mergeRound_not_panic (m : Nat) (hm : 1 ≤ m) (fuel : Nat) (tables : List table)
    (hf : tables.length < fuel) (msg : String) :
    (mergeRound m fuel tables).1 ≠ .panic msg := by
  induction fuel generalizing tables with
  | zero => omega
  | succ n ih =>
    unfold mergeRound
    by_cases h0 : tables.length = 0
    · rw [if_pos h0]; simp
    · rw [if_neg h0]
      have hmt := mergeTables_not_panic (tables.take m)
      cases hmt1 : mergeTables (tables.take m) with
      | mk o1 ev1 =>
        rw [hmt1] at hmt
        cases o1 with
        | error err => simp
        | panic msg1 => exact absurd rfl (hmt msg1)
        | ok merged =>
          dsimp only
          have hrec := ih (tables.drop m) (by rw [List.length_drop]; omega)
          cases hrec1 : mergeRound m n (tables.drop m) with
          | mk o2 ev2 =>
            rw [hrec1] at hrec
            cases o2 with
            | error err => simp
            | panic msg2 => exact hrec
            | ok out2 => simp

theorem mergeRound_ok (m : Nat) (hm : 1 ≤ m) (fuel : Nat) (tables : List table)
    (hf : tables.length < fuel) (h : ∀ t ∈ tables, t.readErr = none) :
    ∃ out ev, mergeRound m fuel tables = (.ok out, ev) := by
  induction fuel generalizing tables with
  | zero => omega
  | succ n ih =>
    unfold mergeRound
    by_cases h0 : tables.length = 0
    · rw [if_pos h0]; exact ⟨_, _, rfl⟩
    · rw [if_neg h0]
      rw [mergeTables_ok _ (fun t ht => h t (List.mem_of_mem_take ht))]
      dsimp only
      obtain ⟨out2, ev2, hrec⟩ := ih (tables.drop m) (by rw [List.length_drop]; omega)
        (fun t ht => h t (List.mem_of_mem_drop ht))
      rw [hrec]
      exact ⟨_, _, rfl⟩

theorem mergeLoop_ok_spec (m : Nat) (hm : 1 ≤ m) (fuel : Nat) (tables : List table)
    (ev ev1 : List BufEvent) (t : table)
    (h : mergeLoop m fuel tables ev = (.ok t, ev1)) :
    t.rows.Perm ((tables.map (fun t => t.rows)).flatten) ∧
    ((∀ t ∈ tables, SortedRows t.rows) → SortedRows t.rows) := by
  induction fuel generalizing tables ev with
  | zero => simp [mergeLoop] at h
  | succ n ih =>
    unfold mergeLoop at h
    by_cases h1 : 1 < tables.length
    · rw [if_pos h1] at h
      cases hr : mergeRound m (tables.length + 1) tables with
      | mk o evr =>
        rw [hr] at h
        cases o with
        | error err => simp at h
        | panic msg => simp at h
        | ok out =>
          dsimp only at h
          obtain ⟨_, _, _, r4, r5⟩ := mergeRound_ok_spec m hm _ tables out evr hr
          obtain ⟨i1, i2⟩ := ih out _ h
          exact ⟨i1.trans r4, fun hs => i2 (r5 hs)⟩
    · rw [if_neg h1] at h
      unfold returnFirst at h
      match tables, h with
      | [], h => simp at h
      | t0 :: rest, h =>
        simp only [Prod.mk.injEq, Outcome.ok.injEq] at h
        have hrest : rest = [] := by
          apply List.eq_nil_of_length_eq_zero
          simp only [List.length_cons] at h1
          omega
        subst hrest
        rw [← h.1]
        refine ⟨by simp, fun hs => hs t0 (List.mem_cons_self _ _)⟩

theorem mergeLoop_not_panic (m : Nat) (hm : 2 ≤ m) (fuel : Nat) (tables : List table)
    (ev : List BufEvent) (hne : tables ≠ []) (hf : tables.length ≤ fuel) (msg : String) :
    (mergeLoop m fuel tables ev).1 ≠ .panic msg := by
  induction fuel generalizing tables ev with
  | zero =>
    have := List.length_pos.2 hne
    omega
  | succ n ih =>
    unfold mergeLoop
    by_cases h1 : 1 < tables.length
    · rw [if_pos h1]
      have hnp := mergeRound_not_panic m (by omega) (tables.length + 1) tables (by omega)
      cases hr : mergeRound m (tables.length + 1) tables with
      | mk o evr =>
        rw [hr] at hnp
        cases o with
        | error err => simp
        | panic msg1 => exact absurd rfl (hnp msg1)
        | ok out =>
          dsimp only
          obtain ⟨_, r2, _, _, _⟩ := mergeRound_ok_spec m (by omega) _ tables out evr hr
          obtain ⟨r2a, r2b⟩ := r2 hne
          exact ih out _ r2a (by omega)
    · rw [if_neg h1]
      unfold returnFirst
      match tables, hne with
      | t0 :: rest, _ => simp

theorem mergeLoop_ok (m : Nat) (hm : 2 ≤ m) (fuel : Nat) (tables : List table)
    (ev : List BufEvent) (hne : tables ≠ []) (hf : tables.length ≤ fuel)
    (h : ∀ t ∈ tables, t.readErr = none) :
    ∃ t ev1, mergeLoop m fuel tables ev = (.ok t, ev1) := by
  induction fuel generalizing tables ev with
  | zero =>
    have := List.length_pos.2 hne
    omega
  | succ n ih =>
    unfold mergeLoop
    by_cases h1 : 1 < tables.length
    · rw [if_pos h1]
      obtain ⟨out, evr, hr⟩ := mergeRound_ok m (by omega) (tables.length + 1) tables (by omega) h
      rw [hr]
      dsimp only
      obtain ⟨_, r2, r3, _, _⟩ := mergeRound_ok_spec m (by omega) _ tables out evr hr
      obtain ⟨r2a, r2b⟩ := r2 hne
      exact ih out _ r2a (by omega) r3
    · rw [if_neg h1]
      unfold returnFirst
      match tables, hne with
      | t0 :: rest, _ => exact ⟨_, _, rfl⟩

end logs

namespace logs

/-- C18, at the failing input: with no tables and a merge size of 2 (or more)
`mergeTablesIncremental` passes its merge-size check and panics on `in[0]`,
having touched neither the buffer nor any table. For every table list a merge
size below 2 panics at once, before the buffer is reset or a table is read, and
for a non-empty table list a merge size of at least 2 never panics. -/
theorem mergeTablesIncremental_panics :
    mergeTablesIncremental [] 2 = (.panic "index out of range [0] with length 0", []) ∧
    (∀ maxMergeSize : Int, 2 ≤ maxMergeSize →
      mergeTablesIncremental [] maxMergeSize
        = (.panic "index out of range [0] with length 0", [])) ∧
    (∀ (tables : List table) (maxMergeSize : Int), maxMergeSize < 2 →
      mergeTablesIncremental tables maxMergeSize
        = (.panic ("mergeTablesIncremental: merge size must be at least 2, got " ++
            toString maxMergeSize), [])) ∧
    (∀ (tables : List table) (maxMergeSize : Int) (msg : String), tables ≠ [] →
      2 ≤ maxMergeSize → (mergeTablesIncremental tables maxMergeSize).1 ≠ .panic msg) := by
  have hempty : ∀ maxMergeSize : Int, 2 ≤ maxMergeSize →
      mergeTablesIncremental [] maxMergeSize
        = (.panic "index out of range [0] with length 0", []) := by
    intro m hm
    unfold mergeTablesIncremental
    rw [if_neg (by omega)]
    rfl
  refine ⟨hempty 2 (by omega), hempty, ?_, ?_⟩
  · intro tables m hm
    unfold mergeTablesIncremental
    rw [if_pos hm]
  · intro tables m msg hne hm
    unfold mergeTablesIncremental
    rw [if_neg (by omega)]
    split
    · exact mergeTables_not_panic tables msg
    · exact mergeLoop_not_panic m.toNat (by omega) _ tables [] hne (by omega) msg

/-- C19: with `mergeTables` a k-way merge of row lists, for every non-empty list
of tables each sorted by `compareRows`, every `maxMergeSize >= 2` and no failing
read, `mergeTablesIncremental` returns a single table whose rows are a
permutation of all rows of all input tables and are in `compareRows`
non-decreasing order; one `mergeTables` call over all the tables returns a table
with the same rows up to permutation, in non-decreasing order as well. -/
theorem mergeTablesIncremental_sorted_perm (tables : List table) (maxMergeSize : Int)
    (hne : tables ≠ []) (hm : 2 ≤ maxMergeSize)
    (hread : ∀ t ∈ tables, t.readErr = none)
    (hsorted : ∀ t ∈ tables, SortedRows t.rows) :
    ∃ merged, (mergeTablesIncremental tables maxMergeSize).1 = .ok merged ∧
      merged.rows.Perm ((tables.map (fun t => t.rows)).flatten) ∧
      SortedRows merged.rows ∧
      ∃ once, (mergeTables tables).1 = .ok once ∧
        once.rows.Perm merged.rows ∧ SortedRows once.rows := by
  have hseqs : ∀ s ∈ tables.map (fun t => t.rows), SortedRows s := by
    intro s hs
    obtain ⟨t0, ht0, rfl⟩ := List.mem_map.1 hs
    exact hsorted t0 ht0
  have honce := kWayMerge_sorted_perm _ hseqs
  have key : ∃ merged, (mergeTablesIncremental tables maxMergeSize).1 = .ok merged ∧
      merged.rows.Perm ((tables.map (fun t => t.rows)).flatten) ∧
      SortedRows merged.rows := by
    unfold mergeTablesIncremental
    rw [if_neg (by omega)]
    split
    · rw [mergeTables_ok tables hread]
      exact ⟨_, rfl, honce.1, honce.2⟩
    · obtain ⟨t, ev1, hloop⟩ := mergeLoop_ok maxMergeSize.toNat (by omega)
        (tables.length + 1) tables [] hne (by omega) hread
      obtain ⟨s1, s2⟩ := mergeLoop_ok_spec maxMergeSize.toNat (by omega) _ tables [] ev1 t hloop
      rw [hloop]
      exact ⟨t, rfl, s1, s2 hsorted⟩
  obtain ⟨merged, h1, h2, h3⟩ := key
  refine ⟨merged, h1, h2, h3,
    { rows := kWayMerge (tables.map (fun t => t.rows)), readErr := none }, ?_,
    honce.1.trans h2.symm, honce.2⟩
  rw [mergeTables_ok tables hread]

/-- C19, at three sorted tables of two, one and three rows merged two at a
time. -/
theorem mergeTablesIncremental_sorted_perm_witness :
    (exampleTables ≠ [] ∧ (2 : Int) ≤ 2 ∧ (∀ t ∈ exampleTables, t.readErr = none) ∧
      (∀ t ∈ exampleTables, SortedRows t.rows)) ∧
    ∃ merged, (mergeTablesIncremental exampleTables 2).1 = .ok merged ∧
      merged.rows.Perm ((exampleTables.map (fun t => t.rows)).flatten) ∧
      SortedRows merged.rows := by
  have h1 : exampleTables ≠ [] := by decide
  have h2 : ∀ t ∈ exampleTables, t.readErr = none := by decide
  have h3 : ∀ t ∈ exampleTables, SortedRows t.rows := by
    simp [exampleTables, SortedRows, rowLE_iff, exampleRow]
  obtain ⟨merged, m1, m2, m3, _⟩ :=
    mergeTablesIncremental_sorted_perm exampleTables 2 h1 (by omega) h2 h3
  exact ⟨⟨h1, by omega, h2, h3⟩, merged, m1, m2, m3⟩

end logs

/-! # Theorems: rule comparison -/

namespace rules

theorem get_none_of_not_mem_keys (m : StringMap) (k : String) (h : k ∉ m.keys) :
    m.get k = none := by
  cases m with
  | none => rfl
  | some l =>
    unfold StringMap.get
    unfold StringMap.keys at h
    simp only [List.lookup_eq_none_iff]
    intro p hp
    simp only [bne_iff_ne, ne_eq]
    intro hk
    apply h
    exact List.mem_map.2 ⟨p, hp, hk.symm⟩

/-- The check `StringMap.same` holds exactly for maps with the same pairs. -/
theorem same_iff (a b : StringMap) : StringMap.same a b = true ↔ ∀ k, a.get k = b.get k := by
  unfold StringMap.same
  simp only [Bool.and_eq_true, List.all_eq_true, beq_iff_eq]
  constructor
  · rintro ⟨ha, hb⟩ k
    by_cases hka : k ∈ a.keys
    · exact ha k hka
    · by_cases hkb : k ∈ b.keys
      · exact hb k hkb
      · rw [get_none_of_not_mem_keys a k hka, get_none_of_not_mem_keys b k hkb]
  · intro h
    exact ⟨fun k _ => h k, fun k _ => h k⟩

theorem rulesEqual_iff (a b : Rule) :
    rulesEqual a b = true ↔
      (a.Record = b.Record ∧ a.Expr = b.Expr ∧
        (∀ k, a.Annotations.get k = b.Annotations.get k) ∧
        (∀ k, a.Labels.get k = b.Labels.get k)) := by
  unfold rulesEqual
  simp only [Bool.and_eq_true, beq_iff_eq, same_iff]
  constructor
  · rintro ⟨⟨⟨h1, h2⟩, h3⟩, h4⟩
    exact ⟨h1, h2, h3, h4⟩
  · rintro ⟨h1, h2, h3, h4⟩
    exact ⟨⟨⟨h1, h2⟩, h3⟩, h4⟩

/-- C16: `rulesEqual(a, b)` is true for every two rules with the same `Record`,
`Expr`, labels and annotation key/value pairs, whatever the order in which the
annotation maps were built (as in the test case `rule_node_identical`), and in
particular `rulesEqual(a, a)` is true; it is false whenever the `Record` fields
differ or the annotation maps differ as sets of pairs, a non-empty map against
nil included. -/
theorem rulesEqual_spec (a b : Rule) :
    ((a.Record = b.Record ∧ a.Expr = b.Expr ∧
        (∀ k, a.Labels.get k = b.Labels.get k) ∧
        (∀ k, a.Annotations.get k = b.Annotations.get k)) → rulesEqual a b = true) ∧
    rulesEqual a a = true ∧
    (a.Record ≠ b.Record → rulesEqual a b = false) ∧
    ((∃ k, a.Annotations.get k ≠ b.Annotations.get k) → rulesEqual a b = false) ∧
    ((∃ k v, a.Annotations.get k = some v) → b.Annotations = none →
      rulesEqual a b = false) ∧
    rulesEqual exampleRuleA exampleRuleB = true := by
  refine ⟨?_, ?_, ?_, ?_, ?_, by decide⟩
  · rintro ⟨h1, h2, h3, h4⟩
    exact (rulesEqual_iff a b).2 ⟨h1, h2, h4, h3⟩
  · exact (rulesEqual_iff a a).2 ⟨rfl, rfl, fun _ => rfl, fun _ => rfl⟩
  · intro h
    cases hre : rulesEqual a b with
    | false => rfl
    | true => exact absurd ((rulesEqual_iff a b).1 hre).1 h
  · rintro ⟨k, hk⟩
    cases hre : rulesEqual a b with
    | false => rfl
    | true => exact absurd (((rulesEqual_iff a b).1 hre).2.2.1 k) hk
  · rintro ⟨k, v, hk⟩ hb
    cases hre : rulesEqual a b with
    | false => rfl
    | true =>
      have := ((rulesEqual_iff a b).1 hre).2.2.1 k
      rw [hk, hb] at this
      simp [StringMap.get] at this

theorem firstMismatch_none (as bs : List Rule) (i : Nat)
    (h : List.Forall₂ (fun a b => rulesEqual a b = true) as bs) :
    firstMismatch as bs i = none := by
  induction h generalizing i with
  | nil => rfl
  | cons hab _ ih =>
    unfold firstMismatch
    rw [if_pos hab]
    exact ih (i + 1)

theorem sameRWConfigs_iff (a b : List RemoteWriteConfig) :
    sameRWConfigs a b = true ↔ a.map (fun c => c.URL) = b.map (fun c => c.URL) := by
  unfold sameRWConfigs
  induction a generalizing b with
  | nil =>
    cases b with
    | nil => simp
    | cons y ys => simp
  | cons x xs ih =>
    cases b with
    | nil => simp
    | cons y ys =>
      have := ih ys
      simp only [Bool.and_eq_true, beq_iff_eq] at this
      simp only [List.length_cons, List.zipWith_cons_cons, List.all_cons, Bool.and_eq_true,
        beq_iff_eq, id_eq, List.map_cons, List.cons.injEq, add_left_inj]
      constructor
      · rintro ⟨hl, hu, hr⟩
        exact ⟨hu, this.1 ⟨hl, hr⟩⟩
      · rintro ⟨hu, hr⟩
        have := this.2 hr
        exact ⟨this.1, hu, this.2⟩

/-- C17: `CompareGroups(g1, g2)` returns nil for every two groups with the same
name, pairwise equal rules and equal remote-write configs; it returns
`errDiffRuleLen` whenever the two groups hold different numbers of rules; and it
returns `errDiffRWConfigs` whenever the rules are equal but the remote-write
config lists differ in length or in a URL. The five cases of `TestCompareGroups`
come out as the test expects. -/
theorem CompareGroups_spec (g1 g2 : RuleGroup) :
    (g1.Name = g2.Name →
      List.Forall₂ (fun a b => rulesEqual a b = true) g1.Rules g2.Rules →
      g1.RWConfigs.map (fun c => c.URL) = g2.RWConfigs.map (fun c => c.URL) →
      CompareGroups g1 g2 = none) ∧
    (g1.Rules.length ≠ g2.Rules.length → CompareGroups g1 g2 = some .errDiffRuleLen) ∧
    (List.Forall₂ (fun a b => rulesEqual a b = true) g1.Rules g2.Rules →
      g1.RWConfigs.map (fun c => c.URL) ≠ g2.RWConfigs.map (fun c => c.URL) →
      CompareGroups g1 g2 = some .errDiffRWConfigs) ∧
    (CompareGroups (exampleGroup [] [exampleRuleA]) (exampleGroup [] [exampleRuleA]) = none ∧
      CompareGroups (exampleGroup [] [exampleRuleA])
        (exampleGroup [] [exampleRuleA, exampleRuleA]) = some .errDiffRuleLen ∧
      CompareGroups (exampleGroup ["localhost"] [exampleRuleA])
        (exampleGroup ["localhost"] [exampleRuleA]) = none ∧
      CompareGroups (exampleGroup ["localhost"] [exampleRuleA])
        (exampleGroup ["localhost", "localhost"] [exampleRuleA]) = some .errDiffRWConfigs ∧
      CompareGroups (exampleGroup ["localhost"] [exampleRuleA])
        (exampleGroup ["localhost2"] [exampleRuleA]) = some .errDiffRWConfigs) := by
  refine ⟨?_, ?_, ?_, by decide⟩
  · intro hn hr hrw
    unfold CompareGroups
    rw [if_neg (by simpa using hr.length_eq), firstMismatch_none _ _ 0 hr]
    dsimp only
    rw [if_neg (by simpa using (sameRWConfigs_iff _ _).2 hrw), if_neg (by simpa using hn)]
  · intro hl
    unfold CompareGroups
    rw [if_pos hl]
  · intro hr hrw
    unfold CompareGroups
    rw [if_neg (by simpa using hr.length_eq), firstMismatch_none _ _ 0 hr]
    dsimp only
    have hs : sameRWConfigs g1.RWConfigs g2.RWConfigs = false := by
      cases h : sameRWConfigs g1.RWConfigs g2.RWConfigs with
      | false => rfl
      | true => exact absurd ((sameRWConfigs_iff _ _).1 h) hrw
    rw [if_pos (by simp [hs])]

end rules

/-! # Theorems: pattern chunks -/

namespace drain

open compactor (wrapInt64 addInt64 quoInt64 minInt64 maxInt64)

/-! ## Wrapping arithmetic -/

theorem wrapInt64_add_left (a b : Int) : wrapInt64 (wrapInt64 a + b) = wrapInt64 (a + b) := by
  unfold wrapInt64
  omega

theorem wrapInt64_add_right (a b : Int) : wrapInt64 (a + wrapInt64 b) = wrapInt64 (a + b) := by
  unfold wrapInt64
  omega

theorem wrapInt64_range (a : Int) : minInt64 ≤ wrapInt64 a ∧ wrapInt64 a ≤ maxInt64 := by
  unfold wrapInt64 minInt64 maxInt64
  omega

theorem wrapInt64_id (a : Int) (h1 : minInt64 ≤ a) (h2 : a ≤ maxInt64) : wrapInt64 a = a := by
  unfold wrapInt64
  unfold minInt64 at h1
  unfold maxInt64 at h2
  omega

/-! ## Chunks.size -/

/-- The exact sum of all sample values. -/
theorem size_samples_fold (l : List PatternSample) (a : Int) :
    l.foldl (fun size sample => addInt64 size sample.Value) (wrapInt64 a)
      = wrapInt64 (a + (l.map (fun s => s.Value)).sum) := by
  induction l generalizing a with
  | nil => simp
  | cons x xs ih =>
    have hstep : addInt64 (wrapInt64 a) x.Value = wrapInt64 (a + x.Value) := by
      unfold addInt64
      rw [wrapInt64_add_left]
    rw [List.foldl_cons, hstep, ih]
    simp only [List.map_cons, List.sum_cons]
    rw [Int.add_assoc]

theorem size_chunks_fold (c : Chunks) (a : Int) :
    c.foldl (fun size chunk =>
        chunk.Samples.foldl (fun size sample => addInt64 size sample.Value) size) (wrapInt64 a)
      = wrapInt64 (a + (c.samples.map (fun s => s.Value)).sum) := by
  induction c generalizing a with
  | nil => simp [Chunks.samples]
  | cons ch rest ih =>
    rw [List.foldl_cons, size_samples_fold, ih]
    simp only [Chunks.samples, List.map_cons, List.flatten_cons, List.map_append,
      List.sum_append]
    rw [Int.add_assoc]

/-- The method `size` gives the sum of all sample values, wrapped to `int64`. -/
theorem size_eq (c : Chunks) : c.size = wrapInt64 ((c.samples.map (fun s => s.Value)).sum) := by
  unfold Chunks.size
  have h0 : (0 : Int) = wrapInt64 0 := by unfold wrapInt64; omega
  rw [h0, size_chunks_fold]
  simp

theorem samples_append (c : Chunks) (ch : Chunk) :
    Chunks.samples (c ++ [ch]) = c.samples ++ ch.Samples := by
  simp [Chunks.samples]

theorem numSamples_eq (c : Chunks) : c.numSamples = c.samples.length := by
  unfold Chunks.numSamples Chunks.samples
  induction c with
  | nil => rfl
  | cons ch rest ih => simp [ih]

end drain

namespace drain

open compactor (wrapInt64 addInt64 quoInt64 minInt64 maxInt64)

/-! ## Chunks.Add -/

theorem Milliseconds_pos (sampleInterval : Int) (hsi : 1000000 ≤ sampleInterval) :
    1 ≤ Milliseconds sampleInterval := by
  unfold Milliseconds
  rw [Int.tdiv_eq_ediv (by omega) (by decide)]
  omega

theorem TruncateTimestamp_ok (ts sampleInterval : Int) (hsi : 1000000 ≤ sampleInterval) :
    TruncateTimestamp ts (Milliseconds sampleInterval)
      = some (ts - Int.tmod ts (Milliseconds sampleInterval)) := by
  unfold TruncateTimestamp
  have := Milliseconds_pos sampleInterval hsi
  rw [if_neg (by omega)]

theorem newChunk_ok (t maxChunkAge sampleInterval : Int) (hsi : 1000000 ≤ sampleInterval)
    (h0 : 0 ≤ maxChunkAge) (h1 : maxChunkAge ≤ maxInt64) :
    newChunk t maxChunkAge sampleInterval = some { Samples := [{ Timestamp := t, Value := 1 }] } := by
  unfold newChunk
  rw [if_neg (by omega)]
  have hq : Int.tdiv maxChunkAge sampleInterval = maxChunkAge / sampleInterval :=
    Int.tdiv_eq_ediv h0 (by omega)
  have hq0 : 0 ≤ maxChunkAge / sampleInterval := Int.ediv_nonneg h0 (by omega)
  have hq1 : maxChunkAge / sampleInterval * sampleInterval ≤ maxChunkAge :=
    Int.ediv_mul_le _ (by omega)
  have hq2 : maxChunkAge / sampleInterval * 1000000
      ≤ maxChunkAge / sampleInterval * sampleInterval :=
    Int.mul_le_mul_of_nonneg_left hsi hq0
  have hmax : maxInt64 = 9223372036854775807 := by unfold maxInt64; norm_num
  have hmin : minInt64 = -9223372036854775808 := by unfold minInt64; norm_num
  rw [hq]
  have hw : wrapInt64 (maxChunkAge / sampleInterval) = maxChunkAge / sampleInterval :=
    wrapInt64_id _ (by omega) (by omega)
  have hw2 : addInt64 (maxChunkAge / sampleInterval) 1 = maxChunkAge / sampleInterval + 1 := by
    unfold addInt64
    exact wrapInt64_id _ (by omega) (by omega)
  simp only [hw, hw2]
  rw [if_neg (by omega)]

/-- What `Add` does, case by case, when it does not panic. -/
theorem Add_cases (c : Chunks) (ts maxChunkAge sampleInterval : Int)
    (hsi : 1000000 ≤ sampleInterval) (h0 : 0 ≤ maxChunkAge) (h1 : maxChunkAge ≤ maxInt64)
    (hne : ∀ ch ∈ c, ch.Samples ≠ []) :
    ∃ t, TruncateTimestamp ts (Milliseconds sampleInterval) = some t ∧
      ((c = [] ∧ c.Add ts maxChunkAge sampleInterval
          = some ([{ Samples := [{ Timestamp := t, Value := 1 }] }], none)) ∨
        ∃ init sinit cur, c = init ++ [{ Samples := sinit ++ [cur] }] ∧
          ((cur.Timestamp = t ∧ c.Add ts maxChunkAge sampleInterval
              = some (init ++ [{ Samples := sinit ++
                  [{ cur with Value := addInt64 cur.Value 1 }] }], none)) ∨
            (cur.Timestamp ≠ t ∧
              Chunk.spaceFor { Samples := sinit ++ [cur] } t maxChunkAge = false ∧
              c.Add ts maxChunkAge sampleInterval
                = some (c ++ [{ Samples := [{ Timestamp := t, Value := 1 }] }], some cur)) ∨
            (cur.Timestamp ≠ t ∧
              Chunk.spaceFor { Samples := sinit ++ [cur] } t maxChunkAge = true ∧
              ts < cur.Timestamp ∧
              c.Add ts maxChunkAge sampleInterval = some (c, none)) ∨
            (cur.Timestamp ≠ t ∧
              Chunk.spaceFor { Samples := sinit ++ [cur] } t maxChunkAge = true ∧
              ¬ ts < cur.Timestamp ∧
              c.Add ts maxChunkAge sampleInterval
                = some (init ++ [{ Samples := sinit ++ [cur] ++
                    [{ Timestamp := t, Value := 1 }] }], some cur)))) := by
  refine ⟨_, TruncateTimestamp_ok ts sampleInterval hsi, ?_⟩
  unfold Chunks.Add
  rw [TruncateTimestamp_ok ts sampleInterval hsi]
  dsimp only
  cases hlast : c.getLast? with
  | none =>
    left
    have hc : c = [] := List.getLast?_eq_none_iff.1 hlast
    subst hc
    refine ⟨rfl, ?_⟩
    simp [appendNewChunk, newChunk_ok _ _ _ hsi h0 h1]
  | some last =>
    right
    obtain ⟨init, hinit⟩ := List.getLast?_eq_some_iff.1 hlast
    have hmem : last ∈ c := by rw [hinit]; simp
    have hs := hne last hmem
    cases hcur : last.Samples.getLast? with
    | none => exact absurd (List.getLast?_eq_none_iff.1 hcur) hs
    | some cur =>
      obtain ⟨sinit, hsinit⟩ := List.getLast?_eq_some_iff.1 hcur
      obtain ⟨samples⟩ := last
      simp only at hsinit hcur
      subst hsinit
      have hdl : c.dropLast = init := by rw [hinit]; simp
      simp only [hcur, hdl, List.dropLast_concat]
      refine ⟨init, sinit, cur, hinit, ?_⟩
      by_cases hEq : cur.Timestamp = ts - Int.tmod ts (Milliseconds sampleInterval)
      · left
        refine ⟨hEq, ?_⟩
        rw [if_pos hEq]
      · right
        rw [if_neg hEq]
        cases hsp : Chunk.spaceFor { Samples := sinit ++ [cur] }
            (ts - Int.tmod ts (Milliseconds sampleInterval)) maxChunkAge with
        | false =>
          left
          refine ⟨hEq, rfl, ?_⟩
          simp [appendNewChunk, newChunk_ok _ _ _ hsi h0 h1]
        | true =>
          right
          by_cases hb : ts < cur.Timestamp
          · left
            refine ⟨hEq, rfl, hb, ?_⟩
            simp [Before, hb]
          · right
            refine ⟨hEq, rfl, hb, ?_⟩
            simp [Before, hb]

end drain

namespace drain

open compactor (wrapInt64 addInt64 quoInt64 minInt64 maxInt64)

theorem size_append_new (c : Chunks) (t : Int) :
    Chunks.size (c ++ [{ Samples := [{ Timestamp := t, Value := 1 }] }]) = addInt64 c.size 1 := by
  rw [size_eq, size_eq, samples_append]
  unfold addInt64
  rw [wrapInt64_add_left]
  simp

theorem size_bump (init : Chunks) (sinit : List PatternSample) (cur : PatternSample) :
    Chunks.size (init ++ [{ Samples := sinit ++ [{ cur with Value := addInt64 cur.Value 1 }] }])
      = addInt64 (Chunks.size (init ++ [{ Samples := sinit ++ [cur] }])) 1 := by
  rw [size_eq, size_eq, samples_append, samples_append]
  unfold addInt64
  rw [wrapInt64_add_left]
  simp only [List.map_append, List.sum_append, List.map_cons, List.map_nil, List.sum_cons,
    List.sum_nil, Int.add_zero]
  rw [← Int.add_assoc, wrapInt64_add_right]
  congr 1
  omega

theorem size_append_sample (init : Chunks) (samples : List PatternSample) (t : Int) :
    Chunks.size (init ++ [{ Samples := samples ++ [{ Timestamp := t, Value := 1 }] }])
      = addInt64 (Chunks.size (init ++ [{ Samples := samples }])) 1 := by
  rw [size_eq, size_eq, samples_append, samples_append]
  unfold addInt64
  rw [wrapInt64_add_left]
  simp only [List.map_append, List.sum_append, List.map_cons, List.map_nil, List.sum_cons,
    List.sum_nil, Int.add_zero]
  congr 1
  omega

theorem size_succ (c : Chunks) (h : c.size < maxInt64) : addInt64 c.size 1 = c.size + 1 := by
  have hr : minInt64 ≤ c.size := by rw [size_eq]; exact (wrapInt64_range _).1
  unfold addInt64
  apply wrapInt64_id
  · unfold minInt64 at *; omega
  · omega

theorem outOfOrder_iff (init : Chunks) (sinit : List PatternSample) (cur : PatternSample)
    (ts maxChunkAge sampleInterval t : Int)
    (ht : TruncateTimestamp ts (Milliseconds sampleInterval) = some t) :
    Chunks.outOfOrder (init ++ [{ Samples := sinit ++ [cur] }]) ts maxChunkAge sampleInterval ↔
      (cur.Timestamp ≠ t ∧
        Chunk.spaceFor { Samples := sinit ++ [cur] } t maxChunkAge = true ∧
        ts < cur.Timestamp) := by
  unfold Chunks.outOfOrder
  constructor
  · rintro ⟨last, cur1, t1, hl, hc, ht1, h1, h2, h3⟩
    rw [List.getLast?_concat] at hl
    have hl := (Option.some.inj hl).symm
    subst hl
    simp only [List.getLast?_concat] at hc
    have hc := (Option.some.inj hc).symm
    subst hc
    rw [ht] at ht1
    have ht1 := (Option.some.inj ht1).symm
    subst ht1
    exact ⟨h1, h2, h3⟩
  · rintro ⟨h1, h2, h3⟩
    exact ⟨_, cur, t, List.getLast?_concat _, by simp, ht, h1, h2, h3⟩

theorem outOfOrder_nil (ts maxChunkAge sampleInterval : Int) :
    ¬ Chunks.outOfOrder [] ts maxChunkAge sampleInterval := by
  rintro ⟨last, cur, t, hl, _⟩
  simp at hl

theorem lastSample_concat (init : Chunks) (sinit : List PatternSample) (cur : PatternSample) :
    Chunks.lastSample (init ++ [{ Samples := sinit ++ [cur] }]) = some cur := by
  unfold Chunks.lastSample
  rw [List.getLast?_concat]
  simp

/-- C14, as stated, fails: a timestamp of 15s arriving after the sample of 20s
(interval 10s) is dropped; the chunks and `size()` are as before the call. -/
theorem Add_out_of_order_dropped :
    Chunks.Add exampleChunks 15000 exampleMaxChunkAge exampleSampleInterval
      = some (exampleChunks, none) ∧
    exampleChunks.size = 2 ∧
    Chunks.size exampleChunks ≠ exampleChunks.size + 1 := by
  decide

/-- C14, amended: a call `Chunks.Add(ts, maxChunkAge, sampleInterval)` with a
sample interval of at least a millisecond, a non-negative `maxChunkAge` and no
empty chunk returns, and either drops the timestamp as out of order (its
truncation is not the newest sample's timestamp, the last chunk has space for
it, and `ts` is before the newest sample), leaving the chunks and `size()` as
they were, or records the sample: it increments the `Value` of the newest sample
by one or creates a new sample with `Value` 1, and `size()` after the call is
`size()` before the call plus one. -/
theorem Add_records (c : Chunks) (ts maxChunkAge sampleInterval : Int)
    (hsi : 1000000 ≤ sampleInterval) (h0 : 0 ≤ maxChunkAge) (h1 : maxChunkAge ≤ maxInt64)
    (hne : ∀ ch ∈ c, ch.Samples ≠ []) :
    ∃ c1 r, c.Add ts maxChunkAge sampleInterval = some (c1, r) ∧
      (c.outOfOrder ts maxChunkAge sampleInterval → c1 = c ∧ c1.size = c.size) ∧
      (¬ c.outOfOrder ts maxChunkAge sampleInterval →
        c1.size = addInt64 c.size 1 ∧
        (c.size < maxInt64 → c1.size = c.size + 1) ∧
        ((∃ cur, c.lastSample = some cur ∧
            c1.samples = c.samples.dropLast ++ [{ cur with Value := addInt64 cur.Value 1 }]) ∨
          (∃ t, c1.samples = c.samples ++ [{ Timestamp := t, Value := 1 }]))) := by
  obtain ⟨t, ht, hcase⟩ := Add_cases c ts maxChunkAge sampleInterval hsi h0 h1 hne
  rcases hcase with ⟨hc, hadd⟩ | ⟨init, sinit, cur, hc, hcase⟩
  · subst hc
    refine ⟨_, _, hadd, fun ho => absurd ho (outOfOrder_nil _ _ _), fun _ => ?_⟩
    have hs := size_append_new [] t
    simp only [List.nil_append] at hs
    refine ⟨hs, fun hlt => by rw [hs]; exact size_succ _ hlt, Or.inr ⟨t, ?_⟩⟩
    simp [Chunks.samples]
  · have hoo := outOfOrder_iff init sinit cur ts maxChunkAge sampleInterval t ht
    rw [← hc] at hoo
    rcases hcase with ⟨hEq, hadd⟩ | ⟨hEq, hsp, hadd⟩ | ⟨hEq, hsp, hb, hadd⟩ |
        ⟨hEq, hsp, hb, hadd⟩
    · refine ⟨_, _, hadd, fun ho => absurd hEq (hoo.1 ho).1, fun _ => ?_⟩
      have hs := size_bump init sinit cur
      rw [← hc] at hs
      refine ⟨hs, fun hlt => by rw [hs]; exact size_succ _ hlt, Or.inl ⟨cur, ?_, ?_⟩⟩
      · rw [hc]; exact lastSample_concat init sinit cur
      · rw [hc, samples_append, samples_append]
        simp only [← List.append_assoc, List.dropLast_concat]
    · refine ⟨_, _, hadd, fun ho => ?_, fun _ => ?_⟩
      · have := (hoo.1 ho).2.1
        rw [hsp] at this
        exact absurd this (by simp)
      · have hs := size_append_new c t
        exact ⟨hs, fun hlt => by rw [hs]; exact size_succ _ hlt,
          Or.inr ⟨t, samples_append c _⟩⟩
    · exact ⟨_, _, hadd, fun _ => ⟨rfl, rfl⟩, fun hn => absurd (hoo.2 ⟨hEq, hsp, hb⟩) hn⟩
    · refine ⟨_, _, hadd, fun ho => absurd (hoo.1 ho).2.2 hb, fun _ => ?_⟩
      have hs := size_append_sample init (sinit ++ [cur]) t
      rw [← hc] at hs
      refine ⟨hs, fun hlt => by rw [hs]; exact size_succ _ hlt, Or.inr ⟨t, ?_⟩⟩
      rw [hc, samples_append, samples_append]
      simp

/-- C14 amended, at a timestamp of 25s arriving after the sample of 20s: the
call returns and `size()` grows by one. -/
theorem Add_records_witness :
    ((1000000 : Int) ≤ exampleSampleInterval ∧ 0 ≤ exampleMaxChunkAge ∧
      exampleMaxChunkAge ≤ maxInt64 ∧ (∀ ch ∈ exampleChunks, ch.Samples ≠ [])) ∧
    ∃ c1 r, Chunks.Add exampleChunks 25000 exampleMaxChunkAge exampleSampleInterval
        = some (c1, r) ∧
      (¬ Chunks.outOfOrder exampleChunks 25000 exampleMaxChunkAge exampleSampleInterval →
        c1.size = addInt64 exampleChunks.size 1) := by
  have hh : ((1000000 : Int) ≤ exampleSampleInterval ∧ 0 ≤ exampleMaxChunkAge ∧
      exampleMaxChunkAge ≤ maxInt64 ∧ (∀ ch ∈ exampleChunks, ch.Samples ≠ [])) := by
    decide
  obtain ⟨c1, r, h, _, h2⟩ := Add_records exampleChunks 25000 exampleMaxChunkAge
    exampleSampleInterval hh.1 hh.2.1 hh.2.2.1 hh.2.2.2
  exact ⟨hh, c1, r, h, fun hn => (h2 hn).1⟩

/-- C15, as stated, fails: on empty chunks `Add` creates a new sample and
returns nil, there being no previous sample; and on an out-of-order timestamp it
returns nil without having incremented anything. -/
theorem Add_nil_without_increment :
    Chunks.Add [] 15000 exampleMaxChunkAge exampleSampleInterval
      = some ([{ Samples := [{ Timestamp := 10000, Value := 1 }] }], none) ∧
    Chunks.Add exampleChunks 15000 exampleMaxChunkAge exampleSampleInterval
      = some (exampleChunks, none) := by
  decide

/-- C15, amended: a call `Chunks.Add` with a sample interval of at least a
millisecond, a non-negative `maxChunkAge` and no empty chunk returns the previous
sample (the sample that was newest before the call, with the `Value` it keeps in
the chunks) if the call created a new sample and there was a sample before; it
returns nil otherwise: when the chunks were empty and the first sample is
created, when it only incremented the newest sample, and when it dropped the
timestamp as out of order. -/
theorem Add_returns_previous (c : Chunks) (ts maxChunkAge sampleInterval : Int)
    (hsi : 1000000 ≤ sampleInterval) (h0 : 0 ≤ maxChunkAge) (h1 : maxChunkAge ≤ maxInt64)
    (hne : ∀ ch ∈ c, ch.Samples ≠ []) :
    ∃ c1 r, c.Add ts maxChunkAge sampleInterval = some (c1, r) ∧
      (c1.numSamples = c.numSamples ∨ c1.numSamples = c.numSamples + 1) ∧
      (c = [] → r = none ∧ c1.numSamples = 1) ∧
      (c ≠ [] → c1.numSamples = c.numSamples + 1 →
        r = c.lastSample ∧ ∃ p, r = some p ∧ p ∈ c1.samples) ∧
      (c1.numSamples = c.numSamples → r = none ∧
        (c1 = c ∨ ∃ cur, c.lastSample = some cur ∧
          c1.lastSample = some { cur with Value := addInt64 cur.Value 1 })) := by
  obtain ⟨t, ht, hcase⟩ := Add_cases c ts maxChunkAge sampleInterval hsi h0 h1 hne
  rcases hcase with ⟨hc, hadd⟩ | ⟨init, sinit, cur, hc, hcase⟩
  · subst hc
    refine ⟨_, _, hadd, Or.inr (by simp [Chunks.numSamples]), fun _ => ⟨rfl, by
      simp [Chunks.numSamples]⟩, fun h => absurd rfl h, fun h => ?_⟩
    simp [Chunks.numSamples] at h
  · have hcne : c ≠ [] := by rw [hc]; simp
    have hlast : c.lastSample = some cur := by rw [hc]; exact lastSample_concat init sinit cur
    have hn : c.numSamples = Chunks.numSamples init + (sinit.length + 1) := by
      rw [hc]; simp [Chunks.numSamples]
    rcases hcase with ⟨hEq, hadd⟩ | ⟨hEq, hsp, hadd⟩ | ⟨hEq, hsp, hb, hadd⟩ |
        ⟨hEq, hsp, hb, hadd⟩
    · have hn1 : Chunks.numSamples (init ++ [{ Samples := sinit ++
          [{ cur with Value := addInt64 cur.Value 1 }] }]) = c.numSamples := by
        rw [hn]; simp [Chunks.numSamples]
      refine ⟨_, _, hadd, Or.inl hn1, fun h => absurd h hcne, fun _ h => ?_, fun _ => ?_⟩
      · rw [hn1] at h; omega
      · exact ⟨rfl, Or.inr ⟨cur, hlast, lastSample_concat init sinit _⟩⟩
    · have hn1 : Chunks.numSamples (c ++ [{ Samples := [{ Timestamp := t, Value := 1 }] }])
          = c.numSamples + 1 := by
        simp [Chunks.numSamples]
      refine ⟨_, _, hadd, Or.inr hn1, fun h => absurd h hcne, fun _ _ => ?_, fun h => ?_⟩
      · refine ⟨hlast.symm, cur, rfl, ?_⟩
        rw [samples_append, hc, samples_append]
        simp
      · rw [hn1] at h; omega
    · exact ⟨_, _, hadd, Or.inl rfl, fun h => absurd h hcne, fun _ h => by omega,
        fun _ => ⟨rfl, Or.inl rfl⟩⟩
    · have hn1 : Chunks.numSamples (init ++ [{ Samples := sinit ++ [cur] ++
          [{ Timestamp := t, Value := 1 }] }]) = c.numSamples + 1 := by
        rw [hn]; simp [Chunks.numSamples]; omega
      refine ⟨_, _, hadd, Or.inr hn1, fun h => absurd h hcne, fun _ _ => ?_, fun h => ?_⟩
      · refine ⟨hlast.symm, cur, rfl, ?_⟩
        rw [samples_append]
        simp
      · rw [hn1] at h; omega

/-- C15 amended, at a timestamp of 25s arriving after the sample of 20s: a new
sample is created and the sample of 20s is returned. -/
theorem Add_returns_previous_witness :
    ((1000000 : Int) ≤ exampleSampleInterval ∧ 0 ≤ exampleMaxChunkAge ∧
      exampleMaxChunkAge ≤ maxInt64 ∧ (∀ ch ∈ exampleChunks, ch.Samples ≠ [])) ∧
    ∃ c1 r, Chunks.Add exampleChunks 35000 exampleMaxChunkAge exampleSampleInterval
        = some (c1, r) ∧
      (c1.numSamples = exampleChunks.numSamples + 1 → r = exampleChunks.lastSample) := by
  have hh : ((1000000 : Int) ≤ exampleSampleInterval ∧ 0 ≤ exampleMaxChunkAge ∧
      exampleMaxChunkAge ≤ maxInt64 ∧ (∀ ch ∈ exampleChunks, ch.Samples ≠ [])) := by
    decide
  obtain ⟨c1, r, h, _, _, h3, _⟩ := Add_returns_previous exampleChunks 35000
    exampleMaxChunkAge exampleSampleInterval hh.1 hh.2.1 hh.2.2.1 hh.2.2.2
  exact ⟨hh, c1, r, h, fun hn => (h3 (by decide) hn).1⟩

end drain

namespace drain

open compactor (wrapInt64 addInt64 quoInt64 minInt64 maxInt64)

/-! ## sort.Search -/

/-- The binary search loop keeps its bounds: below the result the predicate is
false, from the result on it is true. -/
theorem searchLoop_spec (n : Nat) (f : Nat → Bool)
    (hmono : ∀ a b, a ≤ b → b < n → f a = true → f b = true)
    (fuel i j : Nat) (hfuel : j - i ≤ fuel) (hij : i ≤ j) (hjn : j ≤ n)
    (hlow : ∀ k, k < i → f k = false) (hhigh : ∀ k, j ≤ k → k < n → f k = true) :
    i ≤ searchLoop f fuel i j ∧ searchLoop f fuel i j ≤ j ∧
      (∀ k, k < searchLoop f fuel i j → f k = false) ∧
      (∀ k, searchLoop f fuel i j ≤ k → k < n → f k = true) := by
  induction fuel generalizing i j with
  | zero =>
    have hEq : i = j := by omega
    subst hEq
    exact ⟨Nat.le_refl _, Nat.le_refl _, hlow, hhigh⟩
  | succ m ih =>
    unfold searchLoop
    by_cases hlt : i < j
    · rw [if_pos hlt]
      dsimp only
      have hh1 : i ≤ (i + j) / 2 := by omega
      have hh2 : (i + j) / 2 < j := by omega
      cases hf : f ((i + j) / 2) with
      | false =>
        simp only [Bool.not_false, if_true]
        have hlow2 : ∀ k, k < (i + j) / 2 + 1 → f k = false := by
          intro k hk
          cases hfk : f k with
          | false => rfl
          | true =>
            have := hmono k ((i + j) / 2) (by omega) (by omega) hfk
            rw [hf] at this
            exact absurd this (by simp)
        obtain ⟨r1, r2, r3, r4⟩ := ih ((i + j) / 2 + 1) j (by omega) (by omega) hjn hlow2 hhigh
        exact ⟨by omega, r2, r3, r4⟩
      | true =>
        simp only [Bool.not_true, Bool.false_eq_true, if_false]
        have hhigh2 : ∀ k, (i + j) / 2 ≤ k → k < n → f k = true :=
          fun k hk hkn => hmono _ k hk hkn hf
        obtain ⟨r1, r2, r3, r4⟩ := ih i ((i + j) / 2) (by omega) hh1 (by omega) hlow hhigh2
        exact ⟨r1, by omega, r3, r4⟩
    · rw [if_neg hlt]
      have hEq : i = j := by omega
      subst hEq
      exact ⟨Nat.le_refl _, Nat.le_refl _, hlow, hhigh⟩

/-- On a predicate that stays true once true, `sort.Search` gives the least
index at which it holds, or `n`. -/
theorem Search_spec (n : Nat) (f : Nat → Bool)
    (hmono : ∀ a b, a ≤ b → b < n → f a = true → f b = true) :
    Search n f ≤ n ∧ (∀ k, k < Search n f → f k = false) ∧
      (∀ k, Search n f ≤ k → k < n → f k = true) := by
  obtain ⟨_, r2, r3, r4⟩ := searchLoop_spec n f hmono n 0 n (by omega) (by omega)
    (Nat.le_refl _) (fun k hk => absurd hk (by omega)) (fun k hk hkn => absurd hk (by omega))
  exact ⟨r2, r3, r4⟩

/-! ## Truncation -/

theorem TruncateTimestamp_bounds (ts step : Int) (h0 : 0 ≤ ts) (hs : 0 < step) :
    ∃ t, TruncateTimestamp ts step = some t ∧ 0 ≤ t ∧ t ≤ ts ∧ ts - step < t := by
  unfold TruncateTimestamp
  rw [if_neg (by omega)]
  refine ⟨_, rfl, ?_⟩
  rw [Int.tmod_eq_emod h0 (by omega)]
  have h1 := Int.emod_nonneg ts (show step ≠ 0 by omega)
  have h2 := Int.emod_lt_of_pos ts hs
  have h3 := Int.ediv_add_emod ts step
  have h4 : 0 ≤ step * (ts / step) :=
    Int.mul_nonneg (by omega) (Int.ediv_nonneg h0 (by omega))
  omega

end drain

namespace drain

open compactor (wrapInt64 addInt64 quoInt64 minInt64 maxInt64)

/-! ## Re-scaling into buckets -/

theorem addInt64_exact (a b : Int) (h0 : 0 ≤ a + b) (h1 : a + b ≤ maxInt64) :
    addInt64 a b = a + b := by
  unfold addInt64
  apply wrapInt64_id
  · unfold minInt64; omega
  · exact h1

/-- With enough fuel the gap loop ends, and the buckets it adds have timestamps
from `i` up to `stepForSample`. -/
theorem fillGaps_bounds (step stepForSample : Int) (hs : 0 < step)
    (hmax : stepForSample + step ≤ maxInt64) (fuel : Nat) (i : Int)
    (agg : List PatternSample) (hi : 0 ≤ i) (hfuel : (stepForSample + 1 - i).toNat < fuel) :
    ∃ out, fillGaps step stepForSample fuel i agg = some out ∧ (agg ≠ [] → out ≠ []) ∧
      ∀ b ∈ out, b ∈ agg ∨ (i ≤ b.Timestamp ∧ b.Timestamp ≤ stepForSample) := by
  induction fuel generalizing i agg with
  | zero => omega
  | succ n ih =>
    unfold fillGaps
    by_cases hle : i ≤ stepForSample
    · rw [if_pos hle, addInt64_exact i step (by omega) (by omega)]
      obtain ⟨out, h1, h2, h3⟩ := ih (i + step) ({ Timestamp := i, Value := 0 } :: agg)
        (by omega) (by omega)
      refine ⟨out, h1, fun _ => h2 (by simp), fun b hb => ?_⟩
      rcases h3 b hb with hmem | hrange
      · rcases List.mem_cons.1 hmem with hEq | hmem
        · right
          rw [hEq]
          exact ⟨Int.le_refl _, hle⟩
        · exact Or.inl hmem
      · exact Or.inr ⟨by omega, hrange.2⟩
    · rw [if_neg hle]
      exact ⟨agg, rfl, fun h => h, fun b hb => Or.inl hb⟩

theorem bumpLast_spec (agg : List PatternSample) (v : Int) (h : agg ≠ []) :
    ∃ out, bumpLast agg v = some out ∧ out ≠ [] ∧
      ∀ b ∈ out, ∃ b1 ∈ agg, b.Timestamp = b1.Timestamp := by
  cases agg with
  | nil => exact absurd rfl h
  | cons x xs =>
    refine ⟨_, rfl, by simp, fun b hb => ?_⟩
    rcases List.mem_cons.1 hb with hEq | hmem
    · exact ⟨x, List.mem_cons_self _ _, by rw [hEq]⟩
    · exact ⟨b, List.mem_cons_of_mem _ hmem, rfl⟩

/-- The sample loop ends, and every bucket it leaves has a timestamp between
the first bucket's and the upper bound of the samples. -/
theorem aggregateLoop_bounds (step : Int) (hs : 0 < step) (L U : Int)
    (hU : U + step ≤ maxInt64) (samples : List PatternSample) (currentStep : Int)
    (agg : List PatternSample)
    (hsamples : ∀ s ∈ samples, 0 ≤ s.Timestamp ∧ s.Timestamp ≤ U)
    (hcs0 : 0 ≤ currentStep) (hcsU : currentStep ≤ U) (hagg : agg ≠ [])
    (hb : ∀ b ∈ agg, L ≤ b.Timestamp ∧ b.Timestamp ≤ currentStep) (hL : L ≤ currentStep) :
    ∃ out, aggregateLoop step samples currentStep agg = some out ∧
      ∀ b ∈ out, L ≤ b.Timestamp ∧ b.Timestamp ≤ U := by
  induction samples generalizing currentStep agg with
  | nil =>
    exact ⟨agg, rfl, fun b hb1 => ⟨(hb b hb1).1, Int.le_trans (hb b hb1).2 hcsU⟩⟩
  | cons sample rest ih =>
    have hsample := hsamples sample (List.mem_cons_self _ _)
    have hrest : ∀ s ∈ rest, 0 ≤ s.Timestamp ∧ s.Timestamp ≤ U :=
      fun s hs1 => hsamples s (List.mem_cons_of_mem _ hs1)
    unfold aggregateLoop
    rw [addInt64_exact currentStep step (by omega) (by omega)]
    by_cases hge : sample.Timestamp ≥ currentStep + step
    · rw [if_pos hge]
      obtain ⟨sfs, ht, ht0, ht1, ht2⟩ := TruncateTimestamp_bounds sample.Timestamp step
        hsample.1 hs
      rw [ht]
      dsimp only
      have hmaxv : maxInt64 = 9223372036854775807 := by unfold maxInt64; norm_num
      obtain ⟨agg1, hf1, hf2, hf3⟩ := fillGaps_bounds step sfs hs (by omega)
        18446744073709551616 (currentStep + step) agg (by omega) (by omega)
      rw [hf1]
      dsimp only
      obtain ⟨agg2, hb1, hb2, hb3⟩ := bumpLast_spec agg1 sample.Value (hf2 hagg)
      rw [hb1]
      dsimp only
      apply ih sfs agg2 hrest ht0 (by omega) hb2 _ (by omega)
      intro b hbm
      obtain ⟨b1, hb1m, hbt⟩ := hb3 b hbm
      rw [hbt]
      rcases hf3 b1 hb1m with hold | hnew
      · have := hb b1 hold
        exact ⟨this.1, by omega⟩
      · exact ⟨by omega, hnew.2⟩
    · rw [if_neg hge]
      obtain ⟨agg2, hb1, hb2, hb3⟩ := bumpLast_spec agg sample.Value hagg
      rw [hb1]
      dsimp only
      apply ih currentStep agg2 hrest hcs0 hcsU hb2 _ hL
      intro b hbm
      obtain ⟨b1, hb1m, hbt⟩ := hb3 b hbm
      rw [hbt]
      exact hb b1 hb1m

/-- For non-negative timestamps that leave room for one more step below
`maxInt64`, the re-scaling returns, and every bucket has a timestamp above the
first sample's less `step` and not above the upper bound of the samples. -/
theorem rescale_bounds (step : Int) (hs : 0 < step) (U : Int) (hU : U + step ≤ maxInt64)
    (samples : List PatternSample) (sLo sHi : PatternSample)
    (hsamples : ∀ s ∈ samples, 0 ≤ s.Timestamp ∧ s.Timestamp ≤ U)
    (hlo : 0 ≤ sLo.Timestamp) (hlohi : sLo.Timestamp ≤ sHi.Timestamp)
    (hhi : sHi.Timestamp ≤ U) :
    ∃ out, rescale step samples sLo sHi = some out ∧
      ∀ b ∈ out, sLo.Timestamp - step < b.Timestamp ∧ b.Timestamp ≤ U := by
  unfold rescale
  rw [if_neg (by omega)]
  obtain ⟨cs, ht, ht0, ht1, ht2⟩ := TruncateTimestamp_bounds sLo.Timestamp step hlo hs
  rw [ht]
  dsimp only
  have hmaxv : maxInt64 = 9223372036854775807 := by unfold maxInt64; norm_num
  have hminv : minInt64 = -9223372036854775808 := by unfold minInt64; norm_num
  have hsub : subInt64 sHi.Timestamp cs = sHi.Timestamp - cs := by
    unfold subInt64
    exact wrapInt64_id _ (by omega) (by omega)
  have hq : quoInt64 (sHi.Timestamp - cs) step = (sHi.Timestamp - cs) / step := by
    unfold quoInt64
    exact Int.tdiv_eq_ediv (by omega) (by omega)
  have hq0 : 0 ≤ (sHi.Timestamp - cs) / step := Int.ediv_nonneg (by omega) (by omega)
  have hq1 : (sHi.Timestamp - cs) / step ≤ sHi.Timestamp - cs :=
    Int.ediv_le_self _ (by omega)
  rw [hsub, hq, addInt64_exact _ 1 (by omega) (by omega), if_neg (by omega)]
  obtain ⟨agg, ha1, ha2⟩ := aggregateLoop_bounds step hs cs U hU samples cs
    [{ Timestamp := cs, Value := 0 }] hsamples ht0 (by omega) (by simp)
    (fun b hb => by
      have hbe : b = { Timestamp := cs, Value := 0 } := by simpa using hb
      rw [hbe]
      exact ⟨Int.le_refl _, Int.le_refl _⟩)
    (Int.le_refl _)
  rw [ha1]
  refine ⟨agg.reverse, rfl, fun b hb => ?_⟩
  have := ha2 b (List.mem_reverse.1 hb)
  exact ⟨by omega, this.2⟩

end drain

namespace drain

open compactor (wrapInt64 addInt64 quoInt64 minInt64 maxInt64)

/-! ## The range of ForRange -/

theorem sorted_getD (l : List PatternSample) (d : PatternSample)
    (h : l.Pairwise (fun a b => a.Timestamp ≤ b.Timestamp)) (i j : Nat) (hij : i ≤ j)
    (hj : j < l.length) : (l.getD i d).Timestamp ≤ (l.getD j d).Timestamp := by
  rcases Nat.eq_or_lt_of_le hij with h1 | h1
  · subst h1; exact Int.le_refl _
  · have := (List.pairwise_iff_getElem.1 h) i j (by omega) hj h1
    simpa [List.getD_eq_getElem, hj, (by omega : i < l.length)] using this

theorem mem_slice (l : List PatternSample) (d : PatternSample) (lo hi : Nat)
    (s : PatternSample) (h : s ∈ (l.take hi).drop lo) :
    ∃ k, lo ≤ k ∧ k < hi ∧ k < l.length ∧ s = l.getD k d := by
  obtain ⟨i, hi1, hi2⟩ := List.mem_iff_getElem.1 h
  simp only [List.length_drop, List.length_take] at hi1
  refine ⟨lo + i, by omega, by omega, by omega, ?_⟩
  rw [← hi2]
  simp [List.getD_eq_getElem, (by omega : lo + i < l.length)]

theorem mem_getD (l : List PatternSample) (d : PatternSample) (s : PatternSample)
    (h : s ∈ l) : ∃ k, k < l.length ∧ s = l.getD k d := by
  obtain ⟨i, hi1, hi2⟩ := List.mem_iff_getElem.1 h
  refine ⟨i, hi1, ?_⟩
  rw [← hi2]
  simp [List.getD_eq_getElem, hi1]

theorem head?_getD (l : List PatternSample) (d f : PatternSample) (h : l.head? = some f) :
    f = l.getD 0 d ∧ 0 < l.length := by
  cases l with
  | nil => simp at h
  | cons x xs => simp at h; simp [h]

theorem getLast?_getD (l : List PatternSample) (d f : PatternSample)
    (h : l.getLast? = some f) : f = l.getD (l.length - 1) d := by
  obtain ⟨ys, rfl⟩ := List.getLast?_eq_some_iff.1 h
  simp [List.getD_eq_getElem?_getD]

theorem get?_getD (l : List PatternSample) (d : PatternSample) (k : Nat)
    (h : k < l.length) : l.get? k = some (l.getD k d) := by
  simp [List.getD_eq_getElem, h, List.get?_eq_getElem?]

/-- On sorted samples of which the last is not before `start`, `lo` is the index
of the first sample that is not before `start`. -/
theorem lo_spec (c : Chunk) (start first : Int)
    (hsorted : c.Samples.Pairwise (fun a b => a.Timestamp ≤ b.Timestamp))
    (hn : 0 < c.Samples.length) (hfirst : first = (c.Samples.getD 0 ⟨0, 0⟩).Timestamp)
    (hlast : start ≤ (c.Samples.getD (c.Samples.length - 1) ⟨0, 0⟩).Timestamp) :
    c.lo start first < c.Samples.length ∧
      start ≤ (c.Samples.getD (c.lo start first) ⟨0, 0⟩).Timestamp ∧
      ∀ k, k < c.lo start first → (c.Samples.getD k ⟨0, 0⟩).Timestamp < start := by
  unfold Chunk.lo
  by_cases hgt : start > first
  · rw [if_pos hgt]
    obtain ⟨r1, r2, r3⟩ := Search_spec c.Samples.length
      (fun i => decide ((c.Samples.getD i ⟨0, 0⟩).Timestamp ≥ start))
      (fun a b hab hb ha => by
        have := sorted_getD c.Samples ⟨0, 0⟩ hsorted a b hab hb
        simp only [ge_iff_le, decide_eq_true_eq] at ha ⊢
        omega)
    have hlt : Search c.Samples.length
        (fun i => decide ((c.Samples.getD i ⟨0, 0⟩).Timestamp ≥ start)) < c.Samples.length := by
      by_contra hcon
      have := r2 (c.Samples.length - 1) (by omega)
      simp only [ge_iff_le, decide_eq_false_iff_not] at this
      omega
    refine ⟨hlt, ?_, fun k hk => ?_⟩
    · have := r3 _ (Nat.le_refl _) hlt
      simpa using this
    · have := r2 k hk
      simp only [ge_iff_le, decide_eq_false_iff_not] at this
      omega
  · rw [if_neg hgt]
    exact ⟨hn, by omega, fun k hk => absurd hk (by omega)⟩

/-- On sorted samples of which the first is before `end`, `hi` is past the last
sample before `end`, unless `end` is the timestamp of the last sample. -/
theorem hi_spec (c : Chunk) (end_ last : Int)
    (hsorted : c.Samples.Pairwise (fun a b => a.Timestamp ≤ b.Timestamp))
    (hn : 0 < c.Samples.length)
    (hlast : last = (c.Samples.getD (c.Samples.length - 1) ⟨0, 0⟩).Timestamp)
    (hfirst : (c.Samples.getD 0 ⟨0, 0⟩).Timestamp < end_) :
    1 ≤ c.hi end_ last ∧ c.hi end_ last ≤ c.Samples.length ∧
      (∀ k, c.hi end_ last ≤ k → k < c.Samples.length →
        end_ ≤ (c.Samples.getD k ⟨0, 0⟩).Timestamp) ∧
      (end_ ≠ last → ∀ k, k < c.hi end_ last → (c.Samples.getD k ⟨0, 0⟩).Timestamp < end_) ∧
      (c.hi end_ last < c.Samples.length →
        ∀ k, k < c.hi end_ last → (c.Samples.getD k ⟨0, 0⟩).Timestamp < end_) := by
  unfold Chunk.hi
  by_cases hlt : end_ < last
  · rw [if_pos hlt]
    obtain ⟨r1, r2, r3⟩ := Search_spec c.Samples.length
      (fun i => decide ((c.Samples.getD i ⟨0, 0⟩).Timestamp ≥ end_))
      (fun a b hab hb ha => by
        have := sorted_getD c.Samples ⟨0, 0⟩ hsorted a b hab hb
        simp only [ge_iff_le, decide_eq_true_eq] at ha ⊢
        omega)
    have hlow : ∀ k, k < Search c.Samples.length
        (fun i => decide ((c.Samples.getD i ⟨0, 0⟩).Timestamp ≥ end_)) →
        (c.Samples.getD k ⟨0, 0⟩).Timestamp < end_ := by
      intro k hk
      have := r2 k hk
      simp only [ge_iff_le, decide_eq_false_iff_not] at this
      omega
    refine ⟨?_, r1, fun k hk hkn => ?_, fun _ => hlow, fun _ => hlow⟩
    · by_contra hcon
      have := r3 0 (by omega) hn
      simp only [ge_iff_le, decide_eq_true_eq] at this
      omega
    · have := r3 k hk hkn
      simpa using this
  · rw [if_neg hlt]
    refine ⟨hn, Nat.le_refl _, fun k hk hkn => absurd hkn (by omega), fun hne k hk => ?_,
      fun h => absurd h (by omega)⟩
    have := sorted_getD c.Samples ⟨0, 0⟩ hsorted k (c.Samples.length - 1) (by omega) (by omega)
    omega

/-- What `ForRange` returns on sorted samples: nothing when no sample is in the
range, and otherwise the slice `Samples[lo:hi]`, or its re-scaling, where the
slice starts at the first sample not before `start`, holds no sample before
`start`, and ends before `end` unless `end` is the timestamp of the last
sample. -/
theorem ForRange_shape (c : Chunk) (start end_ step sampleInterval : Int)
    (hsorted : c.Samples.Pairwise (fun a b => a.Timestamp ≤ b.Timestamp)) :
    (c.ForRange start end_ step sampleInterval = some [] ∧
      ∀ s ∈ c.Samples, ¬ (start ≤ s.Timestamp ∧ s.Timestamp < end_)) ∨
    ∃ lo hi, lo < hi ∧ hi ≤ c.Samples.length ∧
      (c.Samples.getD lo ⟨0, 0⟩).Timestamp ≤ (c.Samples.getD (hi - 1) ⟨0, 0⟩).Timestamp ∧
      start ≤ (c.Samples.getD lo ⟨0, 0⟩).Timestamp ∧
      (∀ k, k < lo → (c.Samples.getD k ⟨0, 0⟩).Timestamp < start) ∧
      (∀ k, hi ≤ k → k < c.Samples.length → end_ ≤ (c.Samples.getD k ⟨0, 0⟩).Timestamp) ∧
      ((∀ la, c.Samples.getLast? = some la → end_ ≠ la.Timestamp) →
        ∀ k, k < hi → (c.Samples.getD k ⟨0, 0⟩).Timestamp < end_) ∧
      c.ForRange start end_ step sampleInterval
        = (if step = sampleInterval then some ((c.Samples.take hi).drop lo)
            else rescale step ((c.Samples.take hi).drop lo) (c.Samples.getD lo ⟨0, 0⟩)
              (c.Samples.getD (hi - 1) ⟨0, 0⟩)) := by
  unfold Chunk.ForRange
  cases hh : c.Samples.head? with
  | none =>
    left
    have : c.Samples = [] := by simpa using hh
    refine ⟨rfl, fun s hs => ?_⟩
    rw [this] at hs
    simp at hs
  | some f =>
    cases hl : c.Samples.getLast? with
    | none =>
      left
      have : c.Samples = [] := List.getLast?_eq_none_iff.1 hl
      refine ⟨rfl, fun s hs => ?_⟩
      rw [this] at hs
      simp at hs
    | some la =>
      obtain ⟨hf, hn⟩ := head?_getD c.Samples ⟨0, 0⟩ f hh
      have hla := getLast?_getD c.Samples ⟨0, 0⟩ la hl
      have hft : f.Timestamp = (c.Samples.getD 0 ⟨0, 0⟩).Timestamp := by rw [hf]
      have hlt : la.Timestamp = (c.Samples.getD (c.Samples.length - 1) ⟨0, 0⟩).Timestamp := by
        rw [← hla]
      dsimp only
      by_cases hguard : start ≥ end_ ∨ f.Timestamp ≥ end_ ∨ la.Timestamp < start
      · left
        rw [if_pos hguard]
        refine ⟨rfl, fun s hs => ?_⟩
        obtain ⟨k, hk, hsk⟩ := mem_getD c.Samples ⟨0, 0⟩ s hs
        have h1 := sorted_getD c.Samples ⟨0, 0⟩ hsorted 0 k (by omega) hk
        have h2 := sorted_getD c.Samples ⟨0, 0⟩ hsorted k (c.Samples.length - 1) (by omega)
          (by omega)
        rw [hsk]
        omega
      · rw [if_neg hguard]
        have hg1 : start < end_ := by omega
        have hg2 : f.Timestamp < end_ := by omega
        have hg3 : start ≤ la.Timestamp := by omega
        obtain ⟨l1, l2, l3⟩ := lo_spec c start f.Timestamp hsorted hn hft (by omega)
        obtain ⟨h1, h2, h3, h4, h5⟩ := hi_spec c end_ la.Timestamp hsorted hn hlt (by omega)
        unfold Chunk.slice
        rw [if_neg (by omega), get?_getD c.Samples ⟨0, 0⟩ _ l1,
          get?_getD c.Samples ⟨0, 0⟩ (c.hi end_ la.Timestamp - 1) (by omega)]
        dsimp only
        by_cases hcross : (c.Samples.getD (c.lo start f.Timestamp) ⟨0, 0⟩).Timestamp
            > (c.Samples.getD (c.hi end_ la.Timestamp - 1) ⟨0, 0⟩).Timestamp
        · left
          rw [if_pos hcross]
          refine ⟨rfl, fun s hs => ?_⟩
          obtain ⟨k, hk, hsk⟩ := mem_getD c.Samples ⟨0, 0⟩ s hs
          rw [hsk]
          have hlohi : c.hi end_ la.Timestamp - 1 < c.lo start f.Timestamp := by
            by_contra hcon
            have := sorted_getD c.Samples ⟨0, 0⟩ hsorted (c.lo start f.Timestamp)
              (c.hi end_ la.Timestamp - 1) (by omega) (by omega)
            omega
          by_cases hklo : k < c.lo start f.Timestamp
          · have := l3 k hklo
            omega
          · have := h3 k (by omega) hk
            omega
        · right
          rw [if_neg hcross]
          have hlohi : c.lo start f.Timestamp < c.hi end_ la.Timestamp := by
            by_contra hcon
            have hhin : c.hi end_ la.Timestamp < c.Samples.length := by omega
            have e1 := h5 hhin (c.hi end_ la.Timestamp - 1) (by omega)
            have e2 := h3 (c.hi end_ la.Timestamp) (Nat.le_refl _) hhin
            have e3 := sorted_getD c.Samples ⟨0, 0⟩ hsorted (c.hi end_ la.Timestamp)
              (c.lo start f.Timestamp) (by omega) l1
            omega
          rw [if_neg (by omega)]
          refine ⟨c.lo start f.Timestamp, c.hi end_ la.Timestamp, hlohi, h2, by omega, l2, l3,
            h3, fun hend => h4 (hend la rfl), rfl⟩

end drain

namespace drain

open compactor (wrapInt64 addInt64 quoInt64 minInt64 maxInt64)

/-! ## ForRange: theorems -/

/-- A slice that holds exactly the indices at which a predicate holds is the
list filtered by the predicate. -/
theorem slice_eq_filter (l : List PatternSample) (p : PatternSample → Bool) (lo hi : Nat)
    (hlohi : lo ≤ hi)
    (hbelow : ∀ k, k < lo → p (l.getD k ⟨0, 0⟩) = false)
    (hin : ∀ k, lo ≤ k → k < hi → p (l.getD k ⟨0, 0⟩) = true)
    (habove : ∀ k, hi ≤ k → k < l.length → p (l.getD k ⟨0, 0⟩) = false) :
    (l.take hi).drop lo = l.filter p := by
  have e1 : l = (l.take lo ++ (l.take hi).drop lo) ++ l.drop hi := by
    have h1 : (l.take hi).take lo = l.take lo := by
      rw [List.take_take, Nat.min_eq_left hlohi]
    rw [← h1, List.take_append_drop, List.take_append_drop]
  have f1 : (l.take lo).filter p = [] := by
    rw [List.filter_eq_nil_iff]
    intro s hs
    have hs1 : s ∈ (l.take lo).drop 0 := by simpa using hs
    obtain ⟨k, _, hk2, _, hk4⟩ := mem_slice l ⟨0, 0⟩ 0 lo s hs1
    rw [hk4, hbelow k hk2]
    simp
  have f2 : ((l.take hi).drop lo).filter p = (l.take hi).drop lo := by
    rw [List.filter_eq_self]
    intro s hs
    obtain ⟨k, hk1, hk2, _, hk4⟩ := mem_slice l ⟨0, 0⟩ lo hi s hs
    rw [hk4]
    exact hin k hk1 hk2
  have f3 : (l.drop hi).filter p = [] := by
    rw [List.filter_eq_nil_iff]
    intro s hs
    have hs1 : s ∈ (l.take l.length).drop hi := by simpa using hs
    obtain ⟨k, hk1, hk2, _, hk4⟩ := mem_slice l ⟨0, 0⟩ hi l.length s hs1
    rw [hk4, habove k hk1 hk2]
    simp
  have e2 : l.filter p = ((l.take lo ++ (l.take hi).drop lo) ++ l.drop hi).filter p := by
    rw [← e1]
  rw [e2, List.filter_append, List.filter_append, f1, f2, f3]
  simp

/-- Except when `end` is the timestamp of the chunk's last sample, `ForRange`
with `step` equal to `sampleInterval` returns exactly the samples in
`[start, end)`, in their order and with their values. -/
theorem ForRange_exact (c : Chunk) (start end_ step : Int)
    (hsorted : c.Samples.Pairwise (fun a b => a.Timestamp ≤ b.Timestamp))
    (hend : ∀ la, c.Samples.getLast? = some la → end_ ≠ la.Timestamp) :
    c.ForRange start end_ step step = some (c.inRange start end_) := by
  unfold Chunk.inRange
  rcases ForRange_shape c start end_ step step hsorted with ⟨h1, h2⟩ |
      ⟨lo, hi, hlohi, _, _, hlo, hbelow, habove, hin, hres⟩
  · rw [h1]
    congr 1
    symm
    rw [List.filter_eq_nil_iff]
    intro s hs
    simpa using h2 s hs
  · rw [hres, if_pos rfl]
    congr 1
    apply slice_eq_filter c.Samples _ lo hi (by omega)
    · intro k hk
      have := hbelow k hk
      simp only [decide_eq_false_iff_not]
      omega
    · intro k hk1 hk2
      have e1 := sorted_getD c.Samples ⟨0, 0⟩ hsorted lo k hk1 (by omega)
      have e2 := hin hend k hk2
      simp only [decide_eq_true_eq]
      omega
    · intro k hk1 hk2
      have := habove k hk1 hk2
      simp only [decide_eq_false_iff_not]
      omega

/-- C11, at the failing input: on the samples at 10 and 20 with `start = 10`,
`end = 20` and `step` equal to `sampleInterval`, `ForRange` returns both samples,
the one at `end` included, where the samples in `[start, end)` are the first
alone. For every chunk in non-decreasing timestamp order and every `end` other
than the timestamp of its last sample, `ForRange` with `step` equal to
`sampleInterval` returns exactly the samples in `[start, end)`. -/
theorem ForRange_end_included :
    (exampleChunk.ForRange 10 20 10 10
        = some [{ Timestamp := 10, Value := 1 }, { Timestamp := 20, Value := 1 }] ∧
      exampleChunk.inRange 10 20 = [{ Timestamp := 10, Value := 1 }] ∧
      exampleChunk.Samples.Pairwise (fun a b => a.Timestamp ≤ b.Timestamp)) ∧
    (∀ (c : Chunk) (start end_ step : Int),
      c.Samples.Pairwise (fun a b => a.Timestamp ≤ b.Timestamp) →
      (∀ la, c.Samples.getLast? = some la → end_ ≠ la.Timestamp) →
      c.ForRange start end_ step step = some (c.inRange start end_)) :=
  ⟨by decide, fun c start end_ step hsorted hend => ForRange_exact c start end_ step hsorted hend⟩

/-- C13, at the failing input: on the samples at 10 and 20 with `start = 10`,
`end = 20`, `step = 5` and `sampleInterval = 10`, `ForRange` returns the buckets
10, 15 and 20 with a total of 2, the sample at `end` counted, where the only
sample in `[start, end)` is the one at 10, with a total of 1. -/
theorem ForRange_buckets_end_included :
    exampleChunk.ForRange 10 20 5 10
      = some [{ Timestamp := 10, Value := 1 }, { Timestamp := 15, Value := 0 },
          { Timestamp := 20, Value := 1 }] ∧
    exampleChunk.inRange 10 20 = [{ Timestamp := 10, Value := 1 }] ∧
    TruncateTimestamp 10 5 = some 10 := by
  decide

/-- C12, as stated, fails: a bucket carries the truncated timestamp, which can be
before `start` (the sample at 15 with `start = 12` and `step = 10` comes back in
the bucket 10), and Go's `%` truncates a negative timestamp upwards, past `end`
(the sample at -15 with `end = -12` comes back in the bucket -10). -/
theorem ForRange_bucket_outside :
    Chunk.ForRange { Samples := [{ Timestamp := 15, Value := 1 }] } 12 20 10 5
      = some [{ Timestamp := 10, Value := 1 }] ∧
    ¬ ((12 : Int) ≤ 10) ∧
    Chunk.ForRange { Samples := [{ Timestamp := -15, Value := 1 }] } (-20) (-12) 10 5
      = some [{ Timestamp := -10, Value := 1 }] ∧
    ¬ ((-10 : Int) < -12) := by
  decide

/-- C12, amended: for every chunk with samples in non-decreasing timestamp
order, every `start`, every `end` other than the timestamp of the chunk's last
sample and every `step > 0`: when `step` equals `sampleInterval`, `ForRange`
returns and every sample returned has a timestamp `t` with `start <= t < end`;
when `step` differs from `sampleInterval` and the sample timestamps are
non-negative and at most `maxInt64 - step`, `ForRange` returns and every bucket
returned has a timestamp `t` with `start - step < t < end`. -/
theorem ForRange_within (c : Chunk) (start end_ step sampleInterval : Int)
    (hsorted : c.Samples.Pairwise (fun a b => a.Timestamp ≤ b.Timestamp))
    (hstep : 0 < step)
    (hend : ∀ la, c.Samples.getLast? = some la → end_ ≠ la.Timestamp) :
    (step = sampleInterval →
      ∃ out, c.ForRange start end_ step sampleInterval = some out ∧
        ∀ s ∈ out, start ≤ s.Timestamp ∧ s.Timestamp < end_) ∧
    (step ≠ sampleInterval →
      (∀ s ∈ c.Samples, 0 ≤ s.Timestamp ∧ s.Timestamp + step ≤ maxInt64) →
      ∃ out, c.ForRange start end_ step sampleInterval = some out ∧
        ∀ s ∈ out, start - step < s.Timestamp ∧ s.Timestamp < end_) := by
  rcases ForRange_shape c start end_ step sampleInterval hsorted with ⟨h1, _⟩ |
      ⟨lo, hi, hlohi, hhi, hcross, hlo, _, _, hin, hres⟩
  · exact ⟨fun _ => ⟨[], h1, fun s hs => absurd hs (by simp)⟩,
      fun _ _ => ⟨[], h1, fun s hs => absurd hs (by simp)⟩⟩
  · have hslice : ∀ s ∈ (c.Samples.take hi).drop lo,
        (c.Samples.getD lo ⟨0, 0⟩).Timestamp ≤ s.Timestamp ∧
        s.Timestamp ≤ (c.Samples.getD (hi - 1) ⟨0, 0⟩).Timestamp ∧ s ∈ c.Samples := by
      intro s hs
      have hmem : s ∈ c.Samples := List.mem_of_mem_take (List.mem_of_mem_drop hs)
      obtain ⟨k, hk1, hk2, hk3, hk4⟩ := mem_slice c.Samples ⟨0, 0⟩ lo hi s hs
      rw [hk4]
      exact ⟨sorted_getD c.Samples ⟨0, 0⟩ hsorted lo k hk1 hk3,
        sorted_getD c.Samples ⟨0, 0⟩ hsorted k (hi - 1) (by omega) (by omega), hk4 ▸ hmem⟩
    have hhiEnd := hin hend (hi - 1) (by omega)
    constructor
    · intro hEq
      rw [hres, if_pos hEq]
      refine ⟨_, rfl, fun s hs => ?_⟩
      obtain ⟨e1, e2, _⟩ := hslice s hs
      omega
    · intro hne hrange
      rw [hres, if_neg hne]
      have hmemLo : c.Samples.getD lo ⟨0, 0⟩ ∈ c.Samples := by
        rw [List.getD_eq_getElem c.Samples ⟨0, 0⟩ (by omega : lo < c.Samples.length)]
        exact List.getElem_mem _
      have hmemHi : c.Samples.getD (hi - 1) ⟨0, 0⟩ ∈ c.Samples := by
        rw [List.getD_eq_getElem c.Samples ⟨0, 0⟩ (by omega : hi - 1 < c.Samples.length)]
        exact List.getElem_mem _
      obtain ⟨out, ho1, ho2⟩ := rescale_bounds step hstep
        (c.Samples.getD (hi - 1) ⟨0, 0⟩).Timestamp (hrange _ hmemHi).2
        ((c.Samples.take hi).drop lo) (c.Samples.getD lo ⟨0, 0⟩)
        (c.Samples.getD (hi - 1) ⟨0, 0⟩)
        (fun s hs => ⟨(hrange s (hslice s hs).2.2).1, (hslice s hs).2.1⟩)
        (hrange _ hmemLo).1 hcross (Int.le_refl _)
      refine ⟨out, ho1, fun s hs => ?_⟩
      have := ho2 s hs
      omega

/-- C12 amended, at the samples 10, 20 and 30 with `start = 10`, `end = 21` and
`step = 5` against a `sampleInterval` of 10. -/
theorem ForRange_within_witness :
    (exampleChunk3.Samples.Pairwise (fun a b => a.Timestamp ≤ b.Timestamp) ∧ (0 : Int) < 5 ∧
      (∀ la, exampleChunk3.Samples.getLast? = some la → (21 : Int) ≠ la.Timestamp)) ∧
    ∃ out, exampleChunk3.ForRange 10 21 5 10 = some out ∧
      ∀ s ∈ out, (10 : Int) - 5 < s.Timestamp ∧ s.Timestamp < 21 := by
  have h1 : exampleChunk3.Samples.Pairwise (fun a b => a.Timestamp ≤ b.Timestamp) := by
    decide
  have h3 : ∀ la, exampleChunk3.Samples.getLast? = some la → (21 : Int) ≠ la.Timestamp := by
    intro la hla
    have : la = { Timestamp := 30, Value := 4 } := by
      have h : exampleChunk3.Samples.getLast? = some { Timestamp := 30, Value := 4 } := by
        decide
      rw [h] at hla
      exact (Option.some.inj hla).symm
    rw [this]
    decide
  refine ⟨⟨h1, by decide, h3⟩, ?_⟩
  exact (ForRange_within exampleChunk3 10 21 5 10 h1 (by decide) h3).2 (by decide) (by
    intro s hs
    have hmaxv : maxInt64 = 9223372036854775807 := by unfold maxInt64; norm_num
    simp only [exampleChunk3, List.mem_cons, List.mem_singleton, List.not_mem_nil,
      or_false] at hs
    rcases hs with h | h | h <;> rw [h] <;> simp only [hmaxv] <;> omega)

end drain

/-! # Theorems: the composed expiration checker, order of evaluation -/

namespace compactor

/-- C21: the composed `expirationChecker.Expired` evaluates its sub-checkers left
to right. The retention checker's `Expired` is always the first call. When it
reports expired, the returned pair is exactly the retention checker's and that
call is the only one made, so the deletion checker is not consulted. When it
reports not expired, the returned pair is exactly the deletion checker's, asked
second. -/
theorem Expired_left_to_right {Chunk Labels Filter : Type}
    (e : expirationChecker Chunk Labels Filter) (userID : List UInt8) (chk : Chunk)
    (lbls : Labels) (seriesID : List UInt8) (tableName : String) (now : Int) :
    (e.Expired userID chk lbls seriesID tableName now).2.head?
        = some (SubChecker.retentionExpiryChecker, Method.Expired) ∧
    ((e.retentionExpiryChecker.Expired userID chk lbls seriesID tableName now).1 = true →
      (e.Expired userID chk lbls seriesID tableName now).1
          = e.retentionExpiryChecker.Expired userID chk lbls seriesID tableName now ∧
      (e.Expired userID chk lbls seriesID tableName now).2
          = [(SubChecker.retentionExpiryChecker, Method.Expired)] ∧
      ∀ c ∈ (e.Expired userID chk lbls seriesID tableName now).2,
        c.1 ≠ SubChecker.deletionExpiryChecker) ∧
    ((e.retentionExpiryChecker.Expired userID chk lbls seriesID tableName now).1 = false →
      (e.Expired userID chk lbls seriesID tableName now).1
          = e.deletionExpiryChecker.Expired userID chk lbls seriesID tableName now ∧
      (e.Expired userID chk lbls seriesID tableName now).2
          = [(SubChecker.retentionExpiryChecker, Method.Expired),
             (SubChecker.deletionExpiryChecker, Method.Expired)]) := by
  unfold expirationChecker.Expired
  cases h : (e.retentionExpiryChecker.Expired userID chk lbls seriesID tableName now).1
  · simp [h]
  · simp [h]

/-- C22: each phase hook of the composed `expirationChecker` (`MarkPhaseStarted`,
`MarkPhaseFinished`, `MarkPhaseFailed`, `MarkPhaseTimedOut`) calls that same hook
on the retention checker and then on the deletion checker, and nothing else: in
the calls made by a hook, the hook occurs exactly once on each sub-checker, the
retention checker's call comes first, and every call is that hook. -/
theorem phase_hooks_once_each {Chunk Labels Filter : Type}
    (e : expirationChecker Chunk Labels Filter) :
    deliversOnceEach e.MarkPhaseStarted Method.MarkPhaseStarted ∧
    deliversOnceEach e.MarkPhaseFinished Method.MarkPhaseFinished ∧
    deliversOnceEach e.MarkPhaseFailed Method.MarkPhaseFailed ∧
    deliversOnceEach e.MarkPhaseTimedOut Method.MarkPhaseTimedOut := by
  refine ⟨?_, ?_, ?_, ?_⟩
  · refine ⟨rfl, ?_, ?_, ?_⟩ <;> simp [expirationChecker.MarkPhaseStarted]
  · refine ⟨rfl, ?_, ?_, ?_⟩ <;> simp [expirationChecker.MarkPhaseFinished]
  · refine ⟨rfl, ?_, ?_, ?_⟩ <;> simp [expirationChecker.MarkPhaseFailed]
  · refine ⟨rfl, ?_, ?_, ?_⟩ <;> simp [expirationChecker.MarkPhaseTimedOut]

end compactor

/-! # Theorems: decoding streams rows -/

namespace streams

open dataset (Value Row)
open datasetmd (ValueType)
open streamsmd (ColumnType ColumnDesc)

/-! ## One value -/

theorem addedLabels_cons (sym : Option (List UInt8 → List UInt8)) (p : ColumnDesc × Value)
    (ps : List (ColumnDesc × Value)) :
    addedLabels sym (p :: ps) = addedLabels sym [p] ++ addedLabels sym ps := by
  obtain ⟨c, v⟩ := p
  cases v <;> simp [addedLabels]
  split_ifs <;> simp

/-- One round of the loop, for a value whose column descriptor exists. -/
theorem decodeValue_spec (columns : List ColumnDesc) (sym : Option (List UInt8 → List UInt8))
    (i : Nat) (c : ColumnDesc) (v : Value) (stream : Stream) (lb : List Label)
    (hc : columns.get? i = some c) :
    ∃ r, decodeValue columns sym i v stream lb = some r ∧
      (r.1.isSome = true ↔ wrongType c v) ∧
      (∀ t, (c.Type_ = t → skipped v) → r.2.1.field t = stream.field t) ∧
      r.2.1.Labels = stream.Labels ∧
      (r.1 = none → r.2.2 = lb ++ addedLabels sym [(c, v)]) := by
  obtain ⟨info, ct⟩ := c
  rw [List.get?_eq_getElem?] at hc
  cases v with
  | null =>
    refine ⟨(none, stream, lb), ?_, ?_, ?_, rfl, ?_⟩
    · simp [decodeValue, Value.IsNil]
    · simp [wrongType, skipped, Value.IsNil]
    · intro t _; rfl
    · intro _; simp [addedLabels]
  | int64 x =>
    by_cases hx : x = 0
    · subst hx
      refine ⟨(none, stream, lb), ?_, ?_, ?_, rfl, ?_⟩
      · simp [decodeValue, Value.IsZero]
      · simp [wrongType, skipped, Value.IsZero]
      · intro t _; rfl
      · intro _; simp [addedLabels]
    · cases ct <;>
        simp [decodeValue, decodeColumn, hc, Value.IsNil, Value.IsZero, hx, Value.Type_,
          Value.Int64, Value.ByteArray, wrongType, skipped, int64Column, addedLabels,
          Stream.field] <;>
        (intro t ht; cases t <;> simp_all [Stream.field])
  | uint64 x =>
    by_cases hx : x = 0
    · subst hx
      refine ⟨(none, stream, lb), ?_, ?_, ?_, rfl, ?_⟩
      · simp [decodeValue, Value.IsZero]
      · simp [wrongType, skipped, Value.IsZero]
      · intro t _; rfl
      · intro _; simp [addedLabels]
    · cases ct <;>
        simp [decodeValue, decodeColumn, hc, Value.IsNil, Value.IsZero, hx, Value.Type_,
          Value.Int64, Value.ByteArray, wrongType, skipped, int64Column, addedLabels,
          Stream.field]
  | byteArray b =>
    by_cases hb : b = []
    · subst hb
      refine ⟨(none, stream, lb), ?_, ?_, ?_, rfl, ?_⟩
      · simp [decodeValue, Value.IsZero]
      · simp [wrongType, skipped, Value.IsZero]
      · intro t _; rfl
      · intro _; simp [addedLabels, skipped, Value.IsZero]
    · cases ct <;>
        simp [decodeValue, decodeColumn, hc, Value.IsNil, Value.IsZero, hb, Value.Type_,
          Value.Int64, Value.ByteArray, wrongType, skipped, int64Column, addedLabels,
          Stream.field]

end streams

namespace streams

open dataset (Value Row)
open datasetmd (ValueType)
open streamsmd (ColumnType ColumnDesc)

/-! ## The loop -/

theorem decodeLoop_cons_error (columns : List ColumnDesc)
    (sym : Option (List UInt8 → List UInt8)) (i : Nat) (v : Value) (rest : List Value)
    (stream : Stream) (lb : List Label) (msg : String) (s1 : Stream) (lb1 : List Label)
    (h : decodeValue columns sym i v stream lb = some (some msg, s1, lb1)) :
    decodeLoop columns sym i (v :: rest) stream lb = some (some msg, s1, lb1) := by
  simp [decodeLoop, h]

theorem decodeLoop_cons_ok (columns : List ColumnDesc)
    (sym : Option (List UInt8 → List UInt8)) (i : Nat) (v : Value) (rest : List Value)
    (stream : Stream) (lb : List Label) (s1 : Stream) (lb1 : List Label)
    (h : decodeValue columns sym i v stream lb = some (none, s1, lb1)) :
    decodeLoop columns sym i (v :: rest) stream lb
      = decodeLoop columns sym (i + 1) rest s1 lb1 := by
  simp [decodeLoop, h]

/-- The loop over values that all have a column descriptor: it does not panic,
ends with an error exactly when a value has the wrong type for its column, leaves
a field as it was when every value of its column type is nil or zero, and on
success has added the labels of the LABEL columns. -/
theorem decodeLoop_spec (columns : List ColumnDesc)
    (sym : Option (List UInt8 → List UInt8)) :
    ∀ (values : List Value) (i : Nat) (stream : Stream) (lb : List Label),
      values.length + i ≤ columns.length →
      ∃ r, decodeLoop columns sym i values stream lb = some r ∧
        (r.1.isSome = true ↔ ∃ p ∈ List.zip (columns.drop i) values, wrongType p.1 p.2) ∧
        (∀ t, (∀ p ∈ List.zip (columns.drop i) values, p.1.Type_ = t → skipped p.2) →
          r.2.1.field t = stream.field t) ∧
        r.2.1.Labels = stream.Labels ∧
        (r.1 = none →
          r.2.2 = lb ++ addedLabels sym (List.zip (columns.drop i) values)) := by
  intro values
  induction values with
  | nil =>
    intro i stream lb _
    exact ⟨(none, stream, lb), rfl, by simp, fun _ _ => rfl, rfl, by simp [addedLabels]⟩
  | cons v rest ih =>
    intro i stream lb hlen
    have hi : i < columns.length := by
      simp only [List.length_cons] at hlen; omega
    have hlen1 : rest.length + (i + 1) ≤ columns.length := by
      simp only [List.length_cons] at hlen; omega
    have hc : columns.get? i = some columns[i] := by
      rw [List.get?_eq_getElem?]; exact List.getElem?_eq_getElem hi
    have hzip : List.zip (columns.drop i) (v :: rest)
        = (columns[i], v) :: List.zip (columns.drop (i + 1)) rest := by
      rw [List.drop_eq_getElem_cons hi, List.zip_cons_cons]
    obtain ⟨r1, hr1, herr1, hfield1, hlab1, hlb1⟩ :=
      decodeValue_spec columns sym i columns[i] v stream lb hc
    obtain ⟨err1, s1, lb1⟩ := r1
    cases err1 with
    | some msg =>
      refine ⟨(some msg, s1, lb1), decodeLoop_cons_error _ _ _ _ _ _ _ _ _ _ hr1, ?_, ?_,
        hlab1, ?_⟩
      · have hw : wrongType columns[i] v := herr1.mp rfl
        simp only [Option.isSome_some, true_iff]
        exact ⟨(columns[i], v), by rw [hzip]; exact List.mem_cons_self _ _, hw⟩
      · intro t ht
        apply hfield1 t
        intro hct
        exact ht (columns[i], v) (by rw [hzip]; exact List.mem_cons_self _ _) hct
      · intro h; cases h
    | none =>
      obtain ⟨r2, hr2, herr2, hfield2, hlab2, hlb2⟩ := ih (i + 1) s1 lb1 hlen1
      have hnw : ¬ wrongType columns[i] v := by
        intro hw
        have := herr1.mpr hw
        simp at this
      refine ⟨r2, ?_, ?_, ?_, ?_, ?_⟩
      · rw [decodeLoop_cons_ok _ _ _ _ _ _ _ _ _ hr1]; exact hr2
      · rw [herr2, hzip]
        constructor
        · rintro ⟨p, hp, hw⟩
          exact ⟨p, List.mem_cons_of_mem _ hp, hw⟩
        · rintro ⟨p, hp, hw⟩
          rcases List.mem_cons.mp hp with rfl | hp
          · exact absurd hw hnw
          · exact ⟨p, hp, hw⟩
      · intro t ht
        rw [hzip] at ht
        rw [hfield2 t (fun p hp => ht p (List.mem_cons_of_mem _ hp))]
        exact hfield1 t (fun hct => ht (columns[i], v) (List.mem_cons_self _ _) hct)
      · rw [hlab2]; exact hlab1
      · intro h
        have hlb1' : lb1 = lb ++ addedLabels sym [(columns[i], v)] := hlb1 rfl
        rw [hlb2 h, hlb1', hzip, List.append_assoc]
        exact congrArg (fun l => lb ++ l) (addedLabels_cons sym (columns[i], v) _).symm

end streams

namespace streams

open dataset (Value Row)
open datasetmd (ValueType)
open streamsmd (ColumnType ColumnDesc)

/-! ## decodeRow -/

/-- A row decoded without error: the zero value of the rows column leaves `Rows`
as it was, and the labels are those of this row. -/
theorem decodeRow_example_ok :
    decodeRow id exampleColumns exampleStreamRow exampleStream none
      = some (none, { exampleStream with ID := 5, Labels := [("app", [97])] }) := by
  decide

/-- A stream id of type UINT64 is an error. -/
theorem decodeRow_example_error :
    decodeRow id exampleColumns exampleBadRow exampleStream none
      = some (some "invalid type VALUE_TYPE_UINT64 for COLUMN_TYPE_STREAM_ID",
          exampleStream) := by
  decide

/-- With fewer column descriptors than values, reading the descriptor of a value
that is neither nil nor zero panics. -/
theorem decodeRow_example_panic :
    decodeRow id (exampleColumns.take 2) exampleStreamRow exampleStream none = none := by
  decide

/-- C23: for every row and every column list with at least as many column
descriptors as the row has values, `decodeRow` returns (it does not panic), and
it returns an error if and only if some value, paired with the descriptor at its
index, is neither nil nor zero and sits in a STREAM_ID, MIN_TIMESTAMP,
MAX_TIMESTAMP, ROWS or UNCOMPRESSED_SIZE column without having type INT64, or in a
LABEL column without having type BYTE_ARRAY. Nil and zero values and values in
columns of any other type never cause an error. They leave the stream fields
unchanged: the field of a column type keeps its value when every value in a
column of that type is nil or zero, and on success the labels committed to the
stream are those of the LABEL values that are neither nil nor zero; on an error
the labels of the stream are left as they were. -/
theorem decodeRow_error_iff (sortLabels : List Label → List Label)
    (columns : List ColumnDesc) (row : Row) (stream : Stream)
    (sym : Option (List UInt8 → List UInt8))
    (hlen : row.Values.length ≤ columns.length) :
    ∃ err stream1, decodeRow sortLabels columns row stream sym = some (err, stream1) ∧
      (err ≠ none ↔ ∃ p ∈ List.zip columns row.Values, wrongType p.1 p.2) ∧
      ((∀ p ∈ List.zip columns row.Values,
          skipped p.2 ∨ (¬ int64Column p.1.Type_ ∧ p.1.Type_ ≠ .COLUMN_TYPE_LABEL)) →
        err = none) ∧
      (∀ t, (∀ p ∈ List.zip columns row.Values, p.1.Type_ = t → skipped p.2) →
        stream1.field t = stream.field t) ∧
      (err = none →
        stream1.Labels = sortLabels (addedLabels sym (List.zip columns row.Values))) ∧
      (err ≠ none → stream1.Labels = stream.Labels) := by
  obtain ⟨r, hr, herr, hfield, hlab, hlb⟩ :=
    decodeLoop_spec columns sym row.Values 0 stream [] (by simpa using hlen)
  rw [List.drop_zero] at herr hfield hlb
  obtain ⟨err, s1, lb1⟩ := r
  have hiff : err ≠ none ↔ ∃ p ∈ List.zip columns row.Values, wrongType p.1 p.2 := by
    rw [← herr]; cases err <;> simp
  have hnone : (∀ p ∈ List.zip columns row.Values,
      skipped p.2 ∨ (¬ int64Column p.1.Type_ ∧ p.1.Type_ ≠ .COLUMN_TYPE_LABEL)) →
      err = none := by
    intro hall
    by_contra hne
    obtain ⟨p, hp, hskip, hw⟩ := hiff.mp hne
    rcases hall p hp with hs | ⟨hni, hnl⟩
    · exact hskip hs
    · rcases hw with ⟨hi, _⟩ | ⟨hl, _⟩
      · exact hni hi
      · exact hnl hl
  cases err with
  | some msg =>
    refine ⟨some msg, s1, ?_, hiff, hnone, hfield, ?_, ?_⟩
    · simp [decodeRow, hr]
    · intro h; cases h
    · intro _; exact hlab
  | none =>
    refine ⟨none, { s1 with Labels := sortLabels lb1 }, ?_, hiff, hnone, ?_, ?_, ?_⟩
    · simp [decodeRow, hr]
    · intro t ht
      have h1 := hfield t ht
      cases t <;> exact h1
    · intro _
      have hlb1 : lb1 = addedLabels sym (List.zip columns row.Values) := by
        simpa using hlb rfl
      simp [hlb1]
    · intro h; exact absurd rfl h

/-- C23 at an example: four columns, a row with a zero rows value. -/
theorem decodeRow_error_iff_witness :
    exampleStreamRow.Values.length ≤ exampleColumns.length ∧
    ∃ err stream1,
      decodeRow id exampleColumns exampleStreamRow exampleStream none = some (err, stream1) ∧
      (err ≠ none ↔
        ∃ p ∈ List.zip exampleColumns exampleStreamRow.Values, wrongType p.1 p.2) ∧
      ((∀ p ∈ List.zip exampleColumns exampleStreamRow.Values,
          skipped p.2 ∨ (¬ int64Column p.1.Type_ ∧ p.1.Type_ ≠ .COLUMN_TYPE_LABEL)) →
        err = none) ∧
      (∀ t, (∀ p ∈ List.zip exampleColumns exampleStreamRow.Values,
          p.1.Type_ = t → skipped p.2) →
        stream1.field t = exampleStream.field t) ∧
      (err = none →
        stream1.Labels
          = id (addedLabels none (List.zip exampleColumns exampleStreamRow.Values))) ∧
      (err ≠ none → stream1.Labels = exampleStream.Labels) :=
  ⟨by decide,
    decodeRow_error_iff id exampleColumns exampleStreamRow exampleStream none (by decide)⟩

end streams
